import Mathlib

/-!
# AI Mentor chat client: session, archive and exchange model

A shallow embedding of the state handled by `src/frontend/src/App.jsx`
(the `App` component) together with its event handlers.  React state
hooks become the fields of `AppState`; an event handler becomes a
function from the state it was rendered with to the state after all of
its queued updates have been applied.  Random identifiers (`uid()`),
the clock (`Date.now()`) and the completion service are passed in as
arguments.  JavaScript strings are modelled by `String`; their lengths and
positions are counted in UTF-16 code units (`toUnits`), and one half of a
surrogate pair on its own, which a `String` cannot hold, is shown as U+FFFD.
-/

namespace AIMentor

/-! ## Data model -/

/-- A chat turn: `{ id, role, text }`; the role is `"user"` or `"ai"`. -/
structure Message where
  id : String
  role : String
  text : String
  deriving DecidableEq, Repr

/-- A tab: `{ id, name, messages }`. -/
structure Session where
  id : String
  name : String
  messages : List Message
  deriving DecidableEq, Repr

/-- The values held in `savedChats`: what `JSON.parse` can produce, and
`undefined`, which an object spread can leave as the value of a property.
Numbers are the integers (`num`), `dec m e` with `e < 0` for the decimal
`m * 10 ^ e` that is not an integer, `negZero` for `-0`, and `inf` for
`Infinity` (`-Infinity` when `negative`).  A number literal beyond the range
of the doubles is read as `0`, `-0` or an infinity; within the range a number
is kept as the decimal that is written, the rounding to the nearest double is
not modelled.  Objects keep their properties in enumeration order. -/
inductive JSValue where
  | undefined : JSValue
  | null : JSValue
  | bool (b : Bool) : JSValue
  | num (n : Int) : JSValue
  | dec (m : Int) (e : Int) : JSValue
  | negZero : JSValue
  | inf (negative : Bool) : JSValue
  | str (s : String) : JSValue
  | arr (xs : List JSValue) : JSValue
  | obj (kvs : List (String × JSValue)) : JSValue

/-- The timer armed by `sendMessage` for the typing effect: the variables the
`tick` closure captures (`currentSessionId`, `aiId`, `fullText`,
`typingSpeed`) and its counter `i`. -/
structure TickTask where
  sessionId : Option String
  aiId : String
  fullText : String
  typingSpeed : Nat
  i : Nat
  deriving DecidableEq, Repr

/-- The state hooks of `App` that the handlers below read or write, and the
`"savedChats"` key of `localStorage` (`none` when the key is absent). -/
structure AppState where
  sessions : List Session
  currentSessionId : Option String
  input : String
  loading : Bool
  error : String
  savedChats : List JSValue
  storedChats : Option String
  pinnedIds : List String
  editingId : Option String
  editValue : String
  renameValue : String
  tone : String
  typingEffect : Bool
  typingSpeed : Nat

/-- The state of the first render: one session named `"Chat 1"` whose id is
the first `uid()`, and `currentSessionId = sessions[0]?.id`. -/
def initialState (id0 : String) : AppState :=
  let sessions : List Session := [{ id := id0, name := "Chat 1", messages := [] }]
  { sessions := sessions
    currentSessionId := sessions.head?.map (·.id)
    input := ""
    loading := false
    error := ""
    savedChats := []
    storedChats := none
    pinnedIds := []
    editingId := none
    editValue := ""
    renameValue := ""
    tone := "Default"
    typingEffect := true
    typingSpeed := 12 }

/-! ## JSON text

`JSON.stringify` and `JSON.parse` are provided by the JavaScript engine; the
definitions below follow the ECMAScript algorithms `SerializeJSONProperty`,
`QuoteJSONString` and the JSON grammar.  Text is a list of characters. -/

namespace JSON

/-- Lower-case hexadecimal digit of `n < 16`. -/
def hexDigit (n : Nat) : Char :=
  if n < 10 then Char.ofNat (48 + n) else Char.ofNat (87 + n)

/-- Value of a hexadecimal digit, either case. -/
def hexVal (c : Char) : Option Nat :=
  if 48 ≤ c.toNat ∧ c.toNat ≤ 57 then some (c.toNat - 48)
  else if 97 ≤ c.toNat ∧ c.toNat ≤ 102 then some (c.toNat - 87)
  else if 65 ≤ c.toNat ∧ c.toNat ≤ 70 then some (c.toNat - 55)
  else none

/-- `QuoteJSONString` for one character: the two-character escapes, `\u00xx`
for the other control characters, the character itself otherwise. -/
def quoteChar (c : Char) : List Char :=
  if c = '"' then ['\\', '"']
  else if c = '\\' then ['\\', '\\']
  else if c = '\x08' then ['\\', 'b']
  else if c = '\x0c' then ['\\', 'f']
  else if c = '\n' then ['\\', 'n']
  else if c = '\r' then ['\\', 'r']
  else if c = '\t' then ['\\', 't']
  else if c.toNat < 32 then
    ['\\', 'u', '0', '0', hexDigit (c.toNat / 16), hexDigit (c.toNat % 16)]
  else [c]

/-- The quoted characters of a string followed by the closing quote. -/
def quoteChars : List Char → List Char
  | [] => ['"']
  | c :: cs => quoteChar c ++ quoteChars cs

/-- `QuoteJSONString`. -/
def quote (s : String) : List Char := '"' :: quoteChars s.data

/-- Decimal digit character of `n < 10`. -/
def digitChar (n : Nat) : Char := Char.ofNat (48 + n)

/-- Decimal digits of `n`, most significant first; `fuel > n` suffices. -/
def natDigits : Nat → Nat → List Char
  | 0, _ => []
  | fuel + 1, n =>
    if n < 10 then [digitChar n] else natDigits fuel (n / 10) ++ [digitChar (n % 10)]

/-- `Number::toString` of a non-negative integer. -/
def natToString (n : Nat) : List Char := natDigits (n + 1) n

/-- `Number::toString` of an integer, in plain decimal notation; the exponent
notation that `Number::toString` uses from `1e21` on is not modelled, it reads
back as the same number. -/
def intToString (n : Int) : List Char :=
  if n < 0 then '-' :: natToString n.natAbs else natToString n.natAbs

/-- Decimal text of `m * 10 ^ e` for `e < 0`: the digits of `m` with a point
before the last `-e` of them, in plain decimal notation also below `1e-6`. -/
def decToString (m : Int) (e : Int) : List Char :=
  let k := e.natAbs
  let ds := natToString m.natAbs
  let padded := List.replicate (k + 1 - ds.length) '0' ++ ds
  let body := padded.take (padded.length - k) ++ '.' :: padded.drop (padded.length - k)
  if m < 0 then '-' :: body else body

/-- The separator between the items of an array or object: a comma, and with
a gap a line feed and the current indentation. -/
def separator (gap indent : List Char) : List Char :=
  if gap = [] then [','] else ',' :: '\n' :: indent

mutual
/-- `SerializeJSONProperty` with gap `gap` at indentation `indent`. A number
that is not finite is written `null`, and so is `undefined` as an item of an
array. -/
def serialize (gap indent : List Char) : JSValue → List Char
  | .null => ['n', 'u', 'l', 'l']
  | .bool b => if b then ['t', 'r', 'u', 'e'] else ['f', 'a', 'l', 's', 'e']
  | .num n => intToString n
  | .dec m e => decToString m e
  | .negZero => ['0']
  | .inf _ => ['n', 'u', 'l', 'l']
  | .undefined => ['n', 'u', 'l', 'l']
  | .str s => quote s
  | .arr xs =>
    match xs with
    | [] => ['[', ']']
    | _ :: _ =>
      if gap = [] then '[' :: serializeElems gap indent xs ++ [']']
      else '[' :: '\n' :: (indent ++ gap) ++ serializeElems gap (indent ++ gap) xs
        ++ '\n' :: indent ++ [']']
  | .obj kvs =>
    if gap = [] then
      match serializeMembers gap indent kvs with
      | [] => ['{', '}']
      | c :: body => '{' :: c :: body ++ ['}']
    else
      match serializeMembers gap (indent ++ gap) kvs with
      | [] => ['{', '}']
      | c :: body => '{' :: '\n' :: (indent ++ gap) ++ c :: body ++ '\n' :: indent ++ ['}']
/-- The items of an array, separated. -/
def serializeElems (gap indent : List Char) : List JSValue → List Char
  | [] => []
  | [x] => serialize gap indent x
  | x :: y :: xs =>
    serialize gap indent x ++ separator gap indent ++ serializeElems gap indent (y :: xs)
/-- The members of an object, separated; a gap puts a space after the colon.
A property whose value is `undefined` is left out.  The text of a member is
never empty, so the text of the members that follow is empty exactly when
none follows. -/
def serializeMembers (gap indent : List Char) : List (String × JSValue) → List Char
  | [] => []
  | (k, v) :: kvs =>
    match v with
    | .undefined => serializeMembers gap indent kvs
    | _ =>
      match serializeMembers gap indent kvs with
      | [] => quote k ++ ':' :: (if gap = [] then [] else [' ']) ++ serialize gap indent v
      | c :: rest =>
        quote k ++ ':' :: (if gap = [] then [] else [' ']) ++ serialize gap indent v
          ++ separator gap indent ++ c :: rest
end

/-- JSON white space: tab, line feed, carriage return, space. -/
def isWs (c : Char) : Bool := c == ' ' || c == '\t' || c == '\n' || c == '\r'

/-- Drop leading JSON white space. -/
def skipWs : List Char → List Char
  | [] => []
  | c :: cs => if isWs c then skipWs cs else c :: cs

/-- The character of a two-character escape `\e`. -/
def unescape (e : Char) : Option Char :=
  if e = '"' then some '"'
  else if e = '\\' then some '\\'
  else if e = '/' then some '/'
  else if e = 'b' then some '\x08'
  else if e = 'f' then some '\x0c'
  else if e = 'n' then some '\n'
  else if e = 'r' then some '\r'
  else if e = 't' then some '\t'
  else none

/-- The code unit of the four hexadecimal digits of a `\u` escape. -/
def hex4 (a b c d : Char) : Option Nat :=
  match hexVal a, hexVal b, hexVal c, hexVal d with
  | some a, some b, some c, some d => some (((a * 16 + b) * 16 + c) * 16 + d)
  | _, _, _, _ => none

/-- The character of a single code unit; a surrogate without its partner has
no character and is shown as U+FFFD. -/
def unitChar (n : Nat) : Char :=
  if 0xD800 ≤ n ∧ n ≤ 0xDFFF then Char.ofNat 0xFFFD else Char.ofNat n

/-- The characters of a sequence of code units: a high surrogate followed by
a low surrogate is one character. -/
def decodeUnits : List Nat → List Char
  | [] => []
  | n :: rest =>
    match rest with
    | [] => [unitChar n]
    | m :: rest1 =>
      if (0xD800 ≤ n ∧ n ≤ 0xDBFF) ∧ (0xDC00 ≤ m ∧ m ≤ 0xDFFF) then
        Char.ofNat (0x10000 + (n - 0xD800) * 0x400 + (m - 0xDC00)) :: decodeUnits rest1
      else unitChar n :: decodeUnits (m :: rest1)

/-- The code units of a string literal after its opening quote, up to the
closing quote, and the text after it: a character of the text stands for
itself and a `\u` escape for its code unit. Control characters below U+0020
and unknown escapes are rejected. -/
def parseUnits : List Char → Option (List Nat × List Char)
  | [] => none
  | c :: rest =>
    if c = '"' then some ([], rest)
    else if c = '\\' then
      match rest with
      | [] => none
      | e :: rest1 =>
        if e = 'u' then
          match rest1 with
          | a :: b :: c2 :: d :: rest2 =>
            match hex4 a b c2 d with
            | none => none
            | some n => (parseUnits rest2).map (fun p => (n :: p.1, p.2))
          | _ => none
        else
          match unescape e with
          | none => none
          | some ch => (parseUnits rest1).map (fun p => (ch.toNat :: p.1, p.2))
    else if c.toNat < 32 then none
    else (parseUnits rest).map (fun p => (c.toNat :: p.1, p.2))

/-- The characters of a string literal after its opening quote, and the text
after its closing quote. -/
def parseChars (cs : List Char) : Option (List Char × List Char) :=
  (parseUnits cs).map (fun p => (decodeUnits p.1, p.2))

/-- Is `c` a decimal digit? -/
def isDigit (c : Char) : Bool := decide (48 ≤ c.toNat) && decide (c.toNat ≤ 57)

/-- The leading decimal digits of the text, and the rest. -/
def spanDigits : List Char → List Char × List Char
  | [] => ([], [])
  | c :: cs =>
    if isDigit c then ((spanDigits cs).1.cons c, (spanDigits cs).2) else ([], c :: cs)

/-- The number written by a list of decimal digits. -/
def natOfDigits (ds : List Char) : Nat :=
  ds.foldl (fun n c => 10 * n + (c.toNat - 48)) 0

/-- The value `m / 10 ^ k` as an integer when it is one, as a decimal
without trailing zeros otherwise. -/
def normDec (m : Int) : Nat → JSValue
  | 0 => .num m
  | k + 1 => if m % 10 = 0 then normDec (m / 10) k else .dec m (-((k : Int) + 1))

/-- The least magnitude that rounds to an infinity: `2 ^ 1024 - 2 ^ 970`,
half-way between the largest finite double `2 ^ 1024 - 2 ^ 971` and
`2 ^ 1024`, written as `(2 ^ 54 - 1) * 2 ^ 970`. -/
def overflowBound : Nat := (2 ^ 54 - 1) * (2 ^ 194) ^ 5

/-- Is the magnitude of `m * 10 ^ e` beyond the finite numbers? -/
def overflows (m : Int) (e : Int) : Bool :=
  if 0 ≤ e then decide (overflowBound ≤ m.natAbs * 10 ^ e.toNat)
  else decide (overflowBound * 10 ^ e.natAbs ≤ m.natAbs)

/-- The number `2 ^ 1075`, written `(2 ^ 215) ^ 5`: a magnitude of at most
`2 ^ (-1075)`, half of the least positive double, rounds to zero. -/
def underflowScale : Nat := (2 ^ 215) ^ 5

/-- Is `m * 10 ^ e` zero, or of a magnitude that rounds to zero? -/
def underflows (m : Int) (e : Int) : Bool :=
  m == 0 || (decide (e < 0) && decide (m.natAbs * underflowScale ≤ 10 ^ e.natAbs))

/-- The value of a number literal with digits `m`, decimal exponent `e` and
a minus sign when `negative`: an infinity or a zero when `m * 10 ^ e` is out
of range, else the number itself. -/
def mkNumber (negative : Bool) (m : Nat) (e : Int) : JSValue :=
  if overflows m e then .inf negative
  else if underflows m e then (if negative then .negZero else .num 0)
  else if 0 ≤ e then .num ((if negative then -(m : Int) else (m : Int)) * 10 ^ e.toNat)
  else normDec (if negative then -(m : Int) else (m : Int)) e.natAbs

/-- The integer part of a number literal: `0`, or digits not starting
with `0`. -/
def parseIntPart : List Char → Option (List Char × List Char)
  | [] => none
  | c :: cs =>
    if c = '0' then some (['0'], cs)
    else if isDigit c then some (spanDigits (c :: cs))
    else none

/-- The optional fraction of a number literal: its digits (none when there is
no fraction) and the rest. -/
def parseFraction : List Char → Option (List Char × List Char)
  | '.' :: cs =>
    match spanDigits cs with
    | ([], _) => none
    | (ds, rest) => some (ds, rest)
  | cs => some ([], cs)

/-- The optional exponent of a number literal and the rest. -/
def parseExponent : List Char → Option (Int × List Char)
  | [] => some (0, [])
  | c :: cs =>
    if c = 'e' ∨ c = 'E' then
      match cs with
      | '-' :: cs1 =>
        match spanDigits cs1 with
        | ([], _) => none
        | (ds, rest) => some (-(natOfDigits ds : Int), rest)
      | '+' :: cs1 =>
        match spanDigits cs1 with
        | ([], _) => none
        | (ds, rest) => some ((natOfDigits ds : Int), rest)
      | _ =>
        match spanDigits cs with
        | ([], _) => none
        | (ds, rest) => some ((natOfDigits ds : Int), rest)
    else some (0, c :: cs)

/-- An unsigned number literal, with the sign to apply to it. -/
def parseUnsigned (negative : Bool) (cs : List Char) : Option (JSValue × List Char) :=
  match parseIntPart cs with
  | none => none
  | some (ip, r1) =>
    match parseFraction r1 with
    | none => none
    | some (fp, r2) =>
      match parseExponent r2 with
      | none => none
      | some (ex, r3) =>
        some (mkNumber negative (natOfDigits (ip ++ fp)) (ex - (fp.length : Int)), r3)

/-- A number literal. -/
def parseNumber : List Char → Option (JSValue × List Char)
  | '-' :: cs => parseUnsigned true cs
  | cs => parseUnsigned false cs

/-- The text after the literal `lit`, when the text starts with it. -/
def dropLiteral : List Char → List Char → Option (List Char)
  | [], cs => some cs
  | _ :: _, [] => none
  | l :: ls, c :: cs => if l = c then dropLiteral ls cs else none

/-- One of the literals `null`, `true`, `false`, or a number. -/
def parseLiteral (cs : List Char) : Option (JSValue × List Char) :=
  match dropLiteral ['n', 'u', 'l', 'l'] cs with
  | some r => some (.null, r)
  | none =>
    match dropLiteral ['t', 'r', 'u', 'e'] cs with
    | some r => some (.bool true, r)
    | none =>
      match dropLiteral ['f', 'a', 'l', 's', 'e'] cs with
      | some r => some (.bool false, r)
      | none => parseNumber cs

/-- Is the key an array index, the canonical decimal text of an integer
below `2 ^ 32 - 1`? Such properties are enumerated first, in numeric order. -/
def isArrayIndex (k : String) : Bool :=
  k.data.all isDigit && (k.data == natToString (natOfDigits k.data))
    && decide (natOfDigits k.data < 4294967295)

/-- The property list after `CreateDataProperty(obj, k, v)`: an existing
property keeps its place, a new array index is placed among the array indices
in numeric order, any other new key goes last. -/
def objSet (k : String) (v : JSValue) : List (String × JSValue) → List (String × JSValue)
  | [] => [(k, v)]
  | (k1, v1) :: kvs =>
    if k1 = k then (k, v) :: kvs
    else if kvs.any (fun p => p.1 == k) then (k1, v1) :: objSet k v kvs
    else if isArrayIndex k &&
        (!isArrayIndex k1 || decide (natOfDigits k.data < natOfDigits k1.data)) then
      (k, v) :: (k1, v1) :: kvs
    else (k1, v1) :: objSet k v kvs

/-- The properties of the object built from the members of an object literal,
in the order of the text. -/
def mkObject (members : List (String × JSValue)) : List (String × JSValue) :=
  members.foldl (fun kvs p => objSet p.1 p.2 kvs) []

mutual
/-- A JSON value at the head of the text, and the text after it. The fuel
bounds the nesting of recursive calls. -/
def parseValue : Nat → List Char → Option (JSValue × List Char)
  | 0, _ => none
  | fuel + 1, cs =>
    match skipWs cs with
    | [] => none
    | c :: rest =>
      if c = '"' then
        (parseChars rest).map (fun p => (JSValue.str (String.mk p.1), p.2))
      else if c = '[' then
        match skipWs rest with
        | [] => none
        | c1 :: rest1 =>
          if c1 = ']' then some (.arr [], rest1)
          else (parseElems fuel (c1 :: rest1)).map (fun p => (JSValue.arr p.1, p.2))
      else if c = '{' then
        match skipWs rest with
        | [] => none
        | c1 :: rest1 =>
          if c1 = '}' then some (.obj [], rest1)
          else (parseMembers fuel (c1 :: rest1)).map (fun p => (JSValue.obj (mkObject p.1), p.2))
      else parseLiteral (c :: rest)
/-- The items of a non-empty array up to the closing bracket. -/
def parseElems : Nat → List Char → Option (List JSValue × List Char)
  | 0, _ => none
  | fuel + 1, cs =>
    match parseValue fuel cs with
    | none => none
    | some (v, r) =>
      match skipWs r with
      | [] => none
      | c :: r1 =>
        if c = ',' then (parseElems fuel r1).map (fun p => (v :: p.1, p.2))
        else if c = ']' then some ([v], r1)
        else none
/-- The members of a non-empty object up to the closing brace. -/
def parseMembers : Nat → List Char → Option (List (String × JSValue) × List Char)
  | 0, _ => none
  | fuel + 1, cs =>
    match skipWs cs with
    | [] => none
    | q :: r0 =>
      if q = '"' then
        match parseChars r0 with
        | none => none
        | some (k, r1) =>
          match skipWs r1 with
          | [] => none
          | c :: r2 =>
            if c = ':' then
              match parseValue fuel r2 with
              | none => none
              | some (v, r3) =>
                match skipWs r3 with
                | [] => none
                | c1 :: r4 =>
                  if c1 = ',' then
                    (parseMembers fuel r4).map (fun p => ((String.mk k, v) :: p.1, p.2))
                  else if c1 = '}' then some ([(String.mk k, v)], r4)
                  else none
            else none
      else none
end

/-- `JSON.parse(text)`: the value of the text, or the message of the
`SyntaxError`. The fuel `2 * length + 2` is never exhausted: a value found
with any fuel is found with this much (`parse_fuel_enough`). -/
def parse (text : String) : Except String JSValue :=
  match parseValue (2 * text.length + 2) text.data with
  | none => .error "Unexpected token in JSON"
  | some (v, rest) =>
    match skipWs rest with
    | [] => .ok v
    | _ :: _ => .error "Unexpected non-whitespace character after JSON"

/-- `JSON.stringify(value)`. -/
def stringify (value : JSValue) : String := String.mk (serialize [] [] value)

/-- `JSON.stringify(value, null, 2)`. -/
def stringifyIndent2 (value : JSValue) : String := String.mk (serialize [' ', ' '] [] value)

end JSON

/-! ## Session helpers -/

/-- The derived constant
`currentSession = sessions.find(s => s.id === currentSessionId) || sessions[0]`. -/
def currentSession (st : AppState) : Option Session :=
  match st.sessions.find? (fun s => some s.id == st.currentSessionId) with
  | some s => some s
  | none => st.sessions.head?

/-- The derived constant `messages = currentSession?.messages || []`. -/
def messages (st : AppState) : List Message :=
  match currentSession st with
  | some s => s.messages
  | none => []

/-- The helper `updateCurrentSession`:
`setSessions(prev => prev.map(s => s.id === currentSessionId ? updater(s) : s))`,
with `cur` the `currentSessionId` captured by the calling closure. -/
def updateCurrentSession (cur : Option String) (updater : Session → Session)
    (sessions : List Session) : List Session :=
  sessions.map (fun s => if some s.id == cur then updater s else s)

/-- The handler `newTab`; `id` is the value returned by `uid()`. -/
def newTab (st : AppState) (id : String) : AppState :=
  { st with
    sessions := st.sessions ++
      [{ id := id, name := "Chat " ++ toString (st.sessions.length + 1), messages := [] }]
    currentSessionId := some id }

/-- The handler `closeTab`. `next?.id` is `undefined` (here `none`) when no
session has another id. -/
def closeTab (st : AppState) (id : String) : AppState :=
  let sessions := st.sessions.filter (fun s => s.id != id)
  if st.currentSessionId == some id && decide (st.sessions.length > 1) then
    let next := st.sessions.find? (fun s => s.id != id)
    { st with sessions := sessions, currentSessionId := next.map (·.id) }
  else
    { st with sessions := sessions }

/-- Clicking the tab of session `id`: `setCurrentSessionId(s.id)`. -/
def selectTab (st : AppState) (id : String) : AppState :=
  { st with currentSessionId := some id }

/-- The "New Chat" button: `updateCurrentSession(s => ({ ...s, messages: [] }))`. -/
def newChat (st : AppState) : AppState :=
  { st with
    sessions := updateCurrentSession st.currentSessionId
      (fun s => { s with messages := [] }) st.sessions }

/-! ## Message actions -/

/-- The handler `togglePin`:
`prev.includes(id) ? prev.filter(x => x !== id) : [...prev, id]`. -/
def togglePin (pinnedIds : List String) (id : String) : List String :=
  if pinnedIds.contains id then pinnedIds.filter (fun x => x != id) else pinnedIds ++ [id]

/-- The in-place replacement
`messages.map(m => m.id === target ? { ...m, text: newText } : m)`. -/
def replaceText (msgs : List Message) (target : String) (newText : String) : List Message :=
  msgs.map (fun m => if m.id == target then { m with text := newText } else m)

/-- The handler `startEdit`. -/
def startEdit (st : AppState) (msg : Message) : AppState :=
  if msg.role != "user" then st
  else { st with editingId := some msg.id, editValue := msg.text }

/-- `Array.prototype.findIndex`: the position of the first element
satisfying `p` (`none` stands for the result `-1`). -/
def findIndex (p : α → Bool) : List α → Option Nat
  | [] => none
  | x :: xs => if p x then some 0 else (findIndex p xs).map (· + 1)

/-- White space and line terminators removed by `String.prototype.trim`. -/
def isTrimSpace (c : Char) : Bool :=
  [0x09, 0x0A, 0x0B, 0x0C, 0x0D, 0x20, 0xA0, 0x1680, 0x2000, 0x2001, 0x2002, 0x2003,
    0x2004, 0x2005, 0x2006, 0x2007, 0x2008, 0x2009, 0x200A, 0x2028, 0x2029, 0x202F,
    0x205F, 0x3000, 0xFEFF].contains c.toNat

/-- `String.prototype.trim`: white space removed from both ends. -/
def trim (s : String) : String :=
  String.mk ((s.data.dropWhile isTrimSpace).reverse.dropWhile isTrimSpace).reverse

/-- The prompt sent to the completion service:
`tone === "Default" ? text : "[Tone: " + tone + "] " + text`. -/
def promptWithTone (tone text : String) : String :=
  if tone == "Default" then text else "[Tone: " ++ tone ++ "] " ++ text

/-! ## Exchange: send, typing effect, edit and re-run -/

/-- What a handler that talks to the completion service leaves behind: the
state, the prompts posted to `/api/ask`, and the timer armed for the typing
effect, if any. -/
structure Outcome where
  state : AppState
  requests : List String
  timer : Option TickTask

/-- The handler `sendMessage`. `userId` and `aiId` are the two values of
`uid()`; `completion` is `some r` when the request resolves with response text
`r` (then `fullText = r || ""` is `r`) and `none` when it is rejected. The
updates queued before and after the `await` are applied in order, with no
other event in between. -/
def sendMessage (st : AppState) (userId aiId : String) (completion : Option String) :
    Outcome :=
  if trim st.input = "" then { state := st, requests := [], timer := none }
  else
    let cur := st.currentSessionId
    let userMsg : Message := { id := userId, role := "user", text := st.input }
    let st1 : AppState :=
      { st with
        sessions := updateCurrentSession cur
          (fun s => { s with messages := s.messages ++ [userMsg] }) st.sessions
        input := ""
        loading := true
        error := "" }
    let prompt := promptWithTone st.tone userMsg.text
    match completion with
    | none =>
      { state := { st1 with
          error := "Something went wrong. Check your backend server."
          loading := false }
        requests := [prompt]
        timer := none }
    | some fullText =>
      if !st.typingEffect then
        { state := { st1 with
            sessions := updateCurrentSession cur
              (fun s => { s with
                messages := s.messages ++ [{ id := aiId, role := "ai", text := fullText }] })
              st1.sessions
            loading := false }
          requests := [prompt]
          timer := none }
      else
        { state := { st1 with
            sessions := updateCurrentSession cur
              (fun s => { s with
                messages := s.messages ++ [{ id := aiId, role := "ai", text := "" }] })
              st1.sessions
            loading := false }
          requests := [prompt]
          timer := some
            { sessionId := cur, aiId := aiId, fullText := fullText
              typingSpeed := st.typingSpeed, i := 0 } }

/-- The UTF-16 code units of a character: the character itself below U+10000,
a pair of surrogates above. -/
def utf16 (c : Char) : List Nat :=
  if c.toNat < 0x10000 then [c.toNat]
  else [0xD800 + (c.toNat - 0x10000) / 0x400, 0xDC00 + (c.toNat - 0x10000) % 0x400]

/-- The UTF-16 code units of a string, which `length` and `slice` count. -/
def toUnits (s : String) : List Nat := (s.data.map utf16).flatten

/-- The value of `s.length`. -/
def jsLength (s : String) : Nat := (toUnits s).length

/-- The value of `s.slice(0, i)`: the first `i` code units. When the cut
leaves the first half of a surrogate pair at the end, that half has no
character of its own and is shown as U+FFFD. -/
def sliceTo (s : String) (i : Nat) : String :=
  String.mk (JSON.decodeUnits ((toUnits s).take i))

/-- One run of the `tick` closure of `sendMessage`: advance `i`, show
`fullText.slice(0, i)` in the message `aiId`, and arm the timer again while
`i < fullText.length`; both count UTF-16 code units. -/
def tick (st : AppState) (task : TickTask) : AppState × Option TickTask :=
  let i := task.i + task.typingSpeed
  let st1 : AppState :=
    { st with
      sessions := updateCurrentSession task.sessionId
        (fun s => { s with messages := replaceText s.messages task.aiId (sliceTo task.fullText i) })
        st.sessions }
  if i < jsLength task.fullText then (st1, some { task with i := i }) else (st1, none)

/-- The constant `nextIsAI` of `applyEdit`:
`idx = messages.findIndex(m => m.id === msg.id)` and
`messages[idx + 1]?.role === "ai" ? messages[idx + 1] : null`; when no message
has the id, `idx + 1` is `0`. -/
def nextIsAI (msgs : List Message) (msg : Message) : Option Message :=
  let next : Option Message :=
    match findIndex (fun m => m.id == msg.id) msgs with
    | some idx => msgs.get? (idx + 1)
    | none => msgs.get? 0
  match next with
  | some m => if m.role == "ai" then some m else none
  | none => none

/-- The handler `applyEdit`, called with the message being edited; `aiId` is
the value of `uid()` used when a new message is appended, `completion` is as
for `sendMessage`. -/
def applyEdit (st : AppState) (msg : Message) (aiId : String) (completion : Option String) :
    Outcome :=
  let cur := st.currentSessionId
  let st1 : AppState :=
    { st with
      sessions := updateCurrentSession cur
        (fun s => { s with messages := replaceText s.messages msg.id st.editValue })
        st.sessions
      editingId := none }
  let prompt := promptWithTone st.tone st.editValue
  match completion with
  | none =>
    { state := { st1 with error := "Re-run failed. Check backend.", loading := false }
      requests := [prompt]
      timer := none }
  | some response =>
    match nextIsAI (messages st) msg with
    | some target =>
      { state := { st1 with
          sessions := updateCurrentSession cur
            (fun s => { s with messages := replaceText s.messages target.id response })
            st1.sessions
          loading := false }
        requests := [prompt]
        timer := none }
    | none =>
      { state := { st1 with
          sessions := updateCurrentSession cur
            (fun s => { s with
              messages := s.messages ++ [{ id := aiId, role := "ai", text := response }] })
            st1.sessions
          loading := false }
        requests := [prompt]
        timer := none }

/-! ## Saved chats -/

/-- A message as the object `{ id, role, text }`. -/
def Message.toJS (m : Message) : JSValue :=
  .obj [("id", .str m.id), ("role", .str m.role), ("text", .str m.text)]

/-- A saved chat as `saveChat` builds it: `{ id, name, messages }` with a
numeric id. -/
structure ArchiveEntry where
  id : Int
  name : String
  messages : List Message
  deriving DecidableEq, Repr

/-- A saved chat as the object `{ id, name, messages }`. -/
def ArchiveEntry.toJS (e : ArchiveEntry) : JSValue :=
  .obj [("id", .num e.id), ("name", .str e.name),
    ("messages", .arr (e.messages.map Message.toJS))]

/-- Is the value a finite number other than `-0`, in the form in which the
numbers are held: an integer in the range of the doubles, or a decimal in
that range, written without trailing zeros, that is not rounded to zero? -/
def JSValue.isFiniteNumber : JSValue → Bool
  | .num n => !JSON.overflows n 0
  | .dec m e =>
    decide (e < 0) && decide (m % 10 ≠ 0) && !JSON.overflows m e && !JSON.underflows m e
  | _ => false

/-- A saved chat `{ id, name, messages }` whose id is any value; the saved
chats of a backup have the ids that the backup gives them. -/
structure SavedChat where
  id : JSValue
  name : String
  messages : List Message

/-- A saved chat as the object `{ id, name, messages }`. -/
def SavedChat.toJS (c : SavedChat) : JSValue :=
  .obj [("id", c.id), ("name", .str c.name),
    ("messages", .arr (c.messages.map Message.toJS))]

/-- The handler `saveChat`; `now` is the value of `Date.now()`. The payload is
`{ id: Date.now(), name: currentSession.name, messages }`. -/
def saveChat (st : AppState) (now : Int) : AppState :=
  if (messages st).length = 0 then st
  else
    match currentSession st with
    | none => st
    | some s =>
      let payload : JSValue :=
        ArchiveEntry.toJS { id := now, name := s.name, messages := messages st }
      let updated := st.savedChats ++ [payload]
      { st with
        savedChats := updated
        storedChats := some (JSON.stringify (.arr updated)) }

/-- The text of the file downloaded by `exportAll`:
`JSON.stringify(savedChats, null, 2)`. -/
def exportAll (st : AppState) : String :=
  JSON.stringifyIndent2 (.arr st.savedChats)

/-- The handler `importAll` applied to the text of the chosen file: the state
afterwards and the text of the alert. Writing to `localStorage` is assumed to
succeed. -/
def importAll (st : AppState) (txt : String) : AppState × String :=
  match JSON.parse txt with
  | .error message => (st, "Failed to import: " ++ message)
  | .ok data =>
    match data with
    | .arr xs =>
      ({ st with savedChats := xs, storedChats := some (JSON.stringify data) },
        "Imported chats successfully ✔")
    | _ => (st, "Failed to import: " ++ "Invalid backup format")

/-! ## Renaming and clearing saved chats, the startup load -/

mutual
/-- The value as `JSON.stringify` writes it and `JSON.parse` reads it back:
`null` for an infinity and for `undefined` as an item of an array, `0` for
`-0`, and an object without the properties whose value is `undefined`. -/
def JSValue.carried : JSValue → JSValue
  | .undefined => .null
  | .null => .null
  | .bool b => .bool b
  | .num n => .num n
  | .dec m e => .dec m e
  | .negZero => .num 0
  | .inf _ => .null
  | .str s => .str s
  | .arr xs => .arr (JSValue.carriedElems xs)
  | .obj kvs => .obj (JSValue.carriedMembers kvs)
/-- The items as they are carried over. -/
def JSValue.carriedElems : List JSValue → List JSValue
  | [] => []
  | x :: xs => JSValue.carried x :: JSValue.carriedElems xs
/-- The members as they are carried over. -/
def JSValue.carriedMembers : List (String × JSValue) → List (String × JSValue)
  | [] => []
  | (k, v) :: kvs =>
    match v with
    | .undefined => JSValue.carriedMembers kvs
    | _ => (k, JSValue.carried v) :: JSValue.carriedMembers kvs
end

mutual
/-- Does the value hold no infinity, no `-0` and no `undefined`? -/
def JSValue.plain : JSValue → Bool
  | .undefined => false
  | .null => true
  | .bool _ => true
  | .num _ => true
  | .dec _ _ => true
  | .negZero => false
  | .inf _ => false
  | .str _ => true
  | .arr xs => JSValue.plainElems xs
  | .obj kvs => JSValue.plainMembers kvs
/-- Are the items plain? -/
def JSValue.plainElems : List JSValue → Bool
  | [] => true
  | x :: xs => JSValue.plain x && JSValue.plainElems xs
/-- Are the member values plain? -/
def JSValue.plainMembers : List (String × JSValue) → Bool
  | [] => true
  | (_, v) :: kvs => JSValue.plain v && JSValue.plainMembers kvs
end

/-- The comparison `a === b` of two values that are not one and the same
object: numbers, strings, booleans, `null` and `undefined` are compared by
value (`-0` equals `0`), an array or object is equal only to itself. -/
def JSValue.strictEq : JSValue → JSValue → Bool
  | .undefined, .undefined => true
  | .null, .null => true
  | .bool a, .bool b => a == b
  | .num a, .num b => a == b
  | .dec m e, .dec m1 e1 => m == m1 && e == e1
  | .negZero, .negZero => true
  | .negZero, .num b => b == 0
  | .num a, .negZero => a == 0
  | .inf a, .inf b => a == b
  | .str a, .str b => a == b
  | _, _ => false

/-- The comparison `a === b`, `none` standing for `undefined`. -/
def strictEquals (a b : Option JSValue) : Bool :=
  JSValue.strictEq (a.getD .undefined) (b.getD .undefined)

/-- The value of `c.id` or `c.name` (a property name that is neither `length`
nor an array index): `none` when reading throws a `TypeError` (`c` is `null`
or `undefined`), `some none` when the value is `undefined`. -/
def readProp (k : String) : JSValue → Option (Option JSValue)
  | .null => none
  | .undefined => none
  | .obj kvs =>
    match kvs.lookup k with
    | some .undefined => some none
    | r => some r
  | _ => some none

/-- The items of an array or the code units of a string as properties named
by their positions, from position `i` on. -/
def indexed : Nat → List JSValue → List (String × JSValue)
  | _, [] => []
  | i, x :: xs => (String.mk (JSON.natToString i), x) :: indexed (i + 1) xs

/-- The own enumerable properties that `{ ...c }` copies; those of a string
are its code units, each a string of length one. -/
def ownProps : JSValue → List (String × JSValue)
  | .obj kvs => kvs
  | .arr xs => indexed 0 xs
  | .str s =>
    indexed 0 ((toUnits s).map (fun u => JSValue.str (String.singleton (JSON.unitChar u))))
  | _ => []

/-- The test `c.id === id` for the saved chat at position `j` whose id is
`cid`. The argument `id` of `renameChat` is the id of the saved chat at
position `clicked` when the call comes from the Save button of that chat
(`clicked = none`: a value from elsewhere). An id that is an array or an
object is equal only to itself, and no two saved chats share such an id:
`JSON.parse` and the object spread build a new object for every chat. -/
def idEquals (clicked : Option Nat) (id : Option JSValue) (j : Nat) (cid : Option JSValue) :
    Bool :=
  match id with
  | some (.arr _) => clicked == some j
  | some (.obj _) => clicked == some j
  | _ => strictEquals cid id

/-- The value as a condition (`ToBoolean`): `undefined`, `null`, `false`, `0`,
`-0` and the empty string are falsy, every other value is truthy. -/
def JSValue.truthy : JSValue → Bool
  | .undefined => false
  | .null => false
  | .bool b => b
  | .num n => n != 0
  | .dec m _ => m != 0
  | .negZero => false
  | .inf _ => true
  | .str s => s != ""
  | .arr _ => true
  | .obj _ => true

/-- One step of the `map` of `renameChat`, for the saved chat `c` at position
`j`: `c.id === id ? { ...c, name: renameValue || c.name } : c`; `none` when
reading `c.id` throws. When the rename value is falsy and `c.name` is
`undefined` the copy has a property `name` whose value is `undefined`. -/
def renameEntry (clicked : Option Nat) (id : Option JSValue) (renameValue : JSValue) (j : Nat)
    (c : JSValue) : Option JSValue :=
  match readProp "id" c with
  | none => none
  | some cid =>
    if idEquals clicked id j cid then
      let name : JSValue :=
        if renameValue.truthy then renameValue
        else
          match readProp "name" c with
          | some (some v) => v
          | _ => .undefined
      some (.obj (JSON.objSet "name" name (JSON.mkObject (ownProps c))))
    else some c

/-- The `map` of `renameChat` over the saved chats from position `j` on;
`none` when it throws. -/
def renameAll (clicked : Option Nat) (id : Option JSValue) (renameValue : JSValue) :
    Nat → List JSValue → Option (List JSValue)
  | _, [] => some []
  | j, c :: cs =>
    match renameEntry clicked id renameValue j c with
    | none => none
    | some c1 => (renameAll clicked id renameValue (j + 1) cs).map (fun rest => c1 :: rest)

/-- The body of `renameChat` when the hook `renameValue` holds `value`; `none`
when the `map` throws a `TypeError`, which ends the handler before any update.
`setRenamingId(null)` concerns the view only. -/
def renameChatFrom (st : AppState) (value : JSValue) (clicked : Option Nat)
    (id : Option JSValue) : Option AppState :=
  (renameAll clicked id value 0 st.savedChats).map (fun updated =>
    { st with
      savedChats := updated
      storedChats := some (JSON.stringify (.arr updated))
      renameValue := "" })

/-- The handler `renameChat` called with the value `id` (`none` for
`undefined`), which is no object of the saved chats, when the hook
`renameValue` holds a string. -/
def renameChat (st : AppState) (id : Option JSValue) : AppState :=
  (renameChatFrom st (.str st.renameValue) none id).getD st

/-- The rename field, `onChange={(e) => setRenameValue(e.target.value)}`. -/
def setRenameValue (st : AppState) (value : String) : AppState :=
  { st with renameValue := value }

/-- The handler `clearAllSaved`. -/
def clearAllSaved (st : AppState) : AppState :=
  { st with savedChats := [], storedChats := none }

/-- The saved chats part of the startup effect:
`stored = localStorage.getItem("savedChats"); if (stored) setSavedChats(JSON.parse(stored))`.
An empty text is falsy. `none` when the stored text is not the text of an
array: then `JSON.parse` throws inside the effect, or `savedChats` becomes a
value that is not an array, which `AppState` cannot hold. That does not
happen when the text was stored by the handlers above (`archiveInv_reload`). -/
def startupLoad (st : AppState) : Option AppState :=
  match st.storedChats with
  | none => some st
  | some stored =>
    if stored = "" then some st
    else
      match JSON.parse stored with
      | .ok (.arr xs) => some { st with savedChats := xs }
      | _ => none

/-- Loading the page again: the state hooks start afresh (`id0` is the new
`uid()`), `localStorage` is what it was, and the startup effect runs. -/
def reload (st : AppState) (id0 : String) : Option AppState :=
  startupLoad { initialState id0 with storedChats := st.storedChats }

/-- The state hooks together with the value of the hook `renameValue` when it
is not a string: the Rename button sets the hook to `chat.name`, which is any
value for a saved chat of an imported backup. `held = none` when the hook
holds the string `app.renameValue`. -/
structure ArchiveState where
  app : AppState
  held : Option JSValue

/-- The value of the hook `renameValue`. -/
def ArchiveState.renameValue (a : ArchiveState) : JSValue :=
  a.held.getD (.str a.app.renameValue)

/-- The handler `renameChat` in a state whose rename value is any value; after
it the hook holds the empty string. -/
def ArchiveState.renameChat (a : ArchiveState) (clicked : Option Nat) (id : Option JSValue) :
    ArchiveState :=
  match renameChatFrom a.app a.renameValue clicked id with
  | none => a
  | some app => { app := app, held := none }

/-- The Rename button of the saved chat at position `k`,
`onClick={() => { setRenamingId(chat.id); setRenameValue(chat.name); }}`: the
hook `renameValue` becomes `chat.name`. Nothing happens when there is no such
chat or reading `chat.id` throws. -/
def renameButton (a : ArchiveState) (k : Nat) : ArchiveState :=
  match a.app.savedChats.get? k with
  | none => a
  | some chat =>
    match readProp "id" chat with
    | none => a
    | some _ =>
      match readProp "name" chat with
      | none => a
      | some none => { a with held := some .undefined }
      | some (some (.str s)) => { app := setRenameValue a.app s, held := none }
      | some (some v) => { a with held := some v }

/-- The Save button of the saved chat at position `i`,
`onClick={() => renameChat(chat.id)}`: `renameChat` called with the id of
that chat. Nothing happens when there is no such chat or reading `chat.id`
throws. The view shows the button only while `renamingId === chat.id`; here
it can be pressed in every state. -/
def saveButton (a : ArchiveState) (i : Nat) : ArchiveState :=
  match a.app.savedChats.get? i with
  | none => a
  | some chat =>
    match readProp "id" chat with
    | none => a
    | some id => a.renameChat (some i) id

/-- What changes the saved chats, what is stored of them or the rename value,
and `other`: any of the handlers that write none of them (`sendMessage`,
`tick`, `applyEdit`, the tab, pin and settings handlers), after which the
other state hooks are those of `st1`. The event `renameChat` is a call of the
handler with any value as id. -/
inductive ArchiveEvent where
  | saveChat (now : Int) : ArchiveEvent
  | setRenameValue (value : String) : ArchiveEvent
  | renameChat (id : Option JSValue) : ArchiveEvent
  | renameButton (k : Nat) : ArchiveEvent
  | saveButton (i : Nat) : ArchiveEvent
  | clearAllSaved : ArchiveEvent
  | importAll (txt : String) : ArchiveEvent
  | reload (id0 : String) : ArchiveEvent
  | other (st1 : AppState) : ArchiveEvent

/-- The handler run by an event; `none` when a load of the page leaves the
states of this model (`startupLoad`). -/
def ArchiveEvent.run (a : ArchiveState) : ArchiveEvent → Option ArchiveState
  | .saveChat now => some { a with app := AIMentor.saveChat a.app now }
  | .setRenameValue value => some { app := AIMentor.setRenameValue a.app value, held := none }
  | .renameChat id => some (a.renameChat none id)
  | .renameButton k => some (AIMentor.renameButton a k)
  | .saveButton i => some (AIMentor.saveButton a i)
  | .clearAllSaved => some { a with app := AIMentor.clearAllSaved a.app }
  | .importAll txt => some { a with app := (AIMentor.importAll a.app txt).1 }
  | .reload id0 => (AIMentor.reload a.app id0).map (fun app => { app := app, held := none })
  | .other st1 =>
    some { a with
      app := { st1 with
        savedChats := a.app.savedChats
        storedChats := a.app.storedChats
        renameValue := a.app.renameValue } }

/-- Is the clock that the event reads a finite number, as every value of
`Date.now()` is? -/
def ArchiveEvent.clockFinite : ArchiveEvent → Bool
  | .saveChat now => !JSON.overflows now 0
  | _ => true

/-- The state after a sequence of events. -/
def runArchive : ArchiveState → List ArchiveEvent → Option ArchiveState
  | a, [] => some a
  | a, ev :: evs =>
    match ev.run a with
    | none => none
    | some a1 => runArchive a1 evs

/-- The state of the first render, with the empty string as rename value. -/
def initialArchive (id0 : String) : ArchiveState :=
  { app := initialState id0, held := none }

/-- The stored `"savedChats"` text decodes to the saved chats in memory; no
stored text stands for no saved chat. -/
def persistedMatches (st : AppState) : Prop :=
  match st.storedChats with
  | none => st.savedChats = []
  | some stored => JSON.parse stored = .ok (.arr st.savedChats)

/-- The stored `"savedChats"` text decodes to the saved chats in memory as
`JSON.stringify` carries them over; no stored text stands for no saved chat. -/
def persistedCarried (st : AppState) : Prop :=
  match st.storedChats with
  | none => st.savedChats = []
  | some stored => JSON.parse stored = .ok (.arr (JSValue.carriedElems st.savedChats))

/-! ## Text written by `JSON.stringify`, as read by `JSON.parse` -/

namespace JSON

/-- What can follow a value in JSON text written by `serialize`: nothing, a
comma, a line feed, or a closing bracket. -/
def Delim (rest : List Char) : Prop :=
  rest = [] ∨ ∃ c r, rest = c :: r ∧ (c = ',' ∨ c = '\n' ∨ c = ']' ∨ c = '}')

/-- A list of white-space characters. -/
def Blank (l : List Char) : Prop := ∀ c ∈ l, isWs c = true

/-- The first character of a number: a digit or the minus sign. -/
def NumberStart (c : Char) : Prop := c = '-' ∨ isDigit c = true

mutual
/-- Number of values in a value, itself included. -/
def nodes : JSValue → Nat
  | .null => 1
  | .bool _ => 1
  | .num _ => 1
  | .dec _ _ => 1
  | .negZero => 1
  | .inf _ => 1
  | .undefined => 1
  | .str _ => 1
  | .arr xs => 1 + nodesElems xs
  | .obj kvs => 1 + nodesMembers kvs
/-- Number of values in the items of an array, one more for each item. -/
def nodesElems : List JSValue → Nat
  | [] => 0
  | x :: xs => 1 + nodes x + nodesElems xs
/-- Number of values in the members of an object, one more for each member. -/
def nodesMembers : List (String × JSValue) → Nat
  | [] => 0
  | (_, v) :: kvs => 1 + nodes v + nodesMembers kvs
end

mutual
/-- Values that `JSON.parse` returns for the text `JSON.stringify` writes for
them: the numbers are finite, a decimal is written without trailing zeros,
and the objects list their properties in the order in which an object built
from them enumerates them. -/
def Canonical : JSValue → Prop
  | .null => True
  | .bool _ => True
  | .num n => overflows n 0 = false
  | .dec m e => e < 0 ∧ m % 10 ≠ 0 ∧ overflows m e = false ∧ underflows m e = false
  | .negZero => False
  | .inf _ => False
  | .undefined => False
  | .str _ => True
  | .arr xs => CanonicalElems xs
  | .obj kvs => mkObject kvs = kvs ∧ CanonicalMembers kvs
/-- Every item is canonical. -/
def CanonicalElems : List JSValue → Prop
  | [] => True
  | x :: xs => Canonical x ∧ CanonicalElems xs
/-- Every member value is canonical. -/
def CanonicalMembers : List (String × JSValue) → Prop
  | [] => True
  | (_, v) :: kvs => Canonical v ∧ CanonicalMembers kvs
end

/-- Enumeration order of two properties of an object: the keys differ, and
when the later key is an array index the earlier one is a smaller array
index. -/
def KeyBefore (a b : String × JSValue) : Prop :=
  a.1 ≠ b.1 ∧
    (isArrayIndex b.1 = true →
      isArrayIndex a.1 = true ∧ natOfDigits a.1.data < natOfDigits b.1.data)

/-- A property list in enumeration order. -/
def Ordered (kvs : List (String × JSValue)) : Prop := kvs.Pairwise KeyBefore

/-- The white space that precedes a closing bracket: none, or a line feed and
the indentation. -/
def Closing (cl : List Char) : Prop := Blank cl ∧ (cl = [] ∨ ∃ t, cl = '\n' :: t)

end JSON

namespace JSON

mutual
/-- Values as they are held in memory: a number in the range of the doubles
and without trailing zeros, an object with its properties in the order in
which an object built from them enumerates them. -/
def WellFormed : JSValue → Prop
  | .undefined => True
  | .null => True
  | .bool _ => True
  | .num n => overflows n 0 = false
  | .dec m e => e < 0 ∧ m % 10 ≠ 0 ∧ overflows m e = false ∧ underflows m e = false
  | .negZero => True
  | .inf _ => True
  | .str _ => True
  | .arr xs => WellFormedElems xs
  | .obj kvs => mkObject kvs = kvs ∧ WellFormedMembers kvs
/-- Every item is well formed. -/
def WellFormedElems : List JSValue → Prop
  | [] => True
  | x :: xs => WellFormed x ∧ WellFormedElems xs
/-- Every member value is well formed. -/
def WellFormedMembers : List (String × JSValue) → Prop
  | [] => True
  | (_, v) :: kvs => WellFormed v ∧ WellFormedMembers kvs
end

end JSON

/-- The invariant of the saved chats: the stored text decodes to them as they
are carried over, and they are well formed. -/
def ArchiveInv (st : AppState) : Prop :=
  persistedCarried st ∧ JSON.WellFormedElems st.savedChats

/-- The invariant of the saved chats together with the rename value: a rename
value that is not a string is well formed. -/
def PanelInv (a : ArchiveState) : Prop :=
  ArchiveInv a.app ∧ ∀ v, a.held = some v → JSON.WellFormed v

/-! ## Sequences of tab events -/

/-- The close button of a tab is rendered only when `sessions.length > 1`. -/
def closeButtonShown (st : AppState) : Bool := decide (st.sessions.length > 1)

/-- The three events of the tab bar, with the id they carry: the value of
`uid()` for `newTab`, the id of the tab for the other two. -/
inductive TabEvent where
  | newTab (id : String) : TabEvent
  | closeTab (id : String) : TabEvent
  | selectTab (id : String) : TabEvent
  deriving DecidableEq, Repr

/-- The handler run by an event. -/
def TabEvent.run (st : AppState) : TabEvent → AppState
  | .newTab id => AIMentor.newTab st id
  | .closeTab id => AIMentor.closeTab st id
  | .selectTab id => AIMentor.selectTab st id

/-- Can the event occur in state `st`? `uid()` returns an id that no open
session has, and a tab that is selected is one of the registry. With
`viaButton` tabs are closed only while the close buttons are rendered;
without it `closeTab` is called in any state. -/
def TabEvent.enabled (viaButton : Bool) (st : AppState) : TabEvent → Bool
  | .newTab id => !(st.sessions.map (·.id)).contains id
  | .closeTab _ => if viaButton then closeButtonShown st else true
  | .selectTab id => (st.sessions.map (·.id)).contains id

/-- The state after a sequence of events, each of which must be enabled when
it occurs. -/
def runTabs (viaButton : Bool) : AppState → List TabEvent → Option AppState
  | st, [] => some st
  | st, ev :: evs =>
    if ev.enabled viaButton st then runTabs viaButton (ev.run st) evs else none

/-- The registry is not empty and `currentSessionId` is the id of one of its
sessions. -/
def activeInRegistry (st : AppState) : Prop :=
  st.sessions ≠ [] ∧ ∃ s ∈ st.sessions, st.currentSessionId = some s.id

/-- The invariant of the tab bar: the ids of the registry are pairwise distinct
and `currentSessionId` is one of them. -/
def TabInv (st : AppState) : Prop :=
  (st.sessions.map (·.id)).Nodup ∧
    ∃ c, st.currentSessionId = some c ∧ c ∈ st.sessions.map (·.id)

/-- What edit-and-regenerate is specified to do to the messages `post` that
follow the edited one, with answer `r`: a first message of role `"ai"` takes
the text `r`; otherwise a new `"ai"` message with id `aiId` and text `r` is
added at the end. -/
def regenerated (post : List Message) (aiId r : String) : List Message :=
  match post with
  | [] => [{ id := aiId, role := "ai", text := r }]
  | n :: rest =>
    if n.role = "ai" then { n with text := r } :: rest
    else n :: rest ++ [{ id := aiId, role := "ai", text := r }]

/-! ## Typing effect: the chain of ticks -/

/-- The state and the timer after `k` runs of `tick`, each armed by the one
before; the chain ends at the first run that does not arm the timer again. -/
def afterTicks : Nat → AppState → TickTask → AppState × Option TickTask
  | 0, st, task => (st, some task)
  | k + 1, st, task =>
    match tick st task with
    | (st1, some task1) => afterTicks k st1 task1
    | (st1, none) => (st1, none)

/-- The number of runs of `tick` up to and including the first that does not
arm the timer again, when it comes within `fuel` runs. -/
def tickCount : Nat → AppState → TickTask → Option Nat
  | 0, _, _ => none
  | fuel + 1, st, task =>
    match tick st task with
    | (st1, some task1) => (tickCount fuel st1 task1).map (· + 1)
    | (_, none) => some 1

/-- The state shown by the chain of ticks of `task` once the counter is `i`. -/
def shown (st : AppState) (task : TickTask) (i : Nat) : AppState :=
  { st with
    sessions := updateCurrentSession task.sessionId
      (fun s => { s with messages := replaceText s.messages task.aiId (sliceTo task.fullText i) })
      st.sessions }

/-- The number of ticks the reveal of a text of length `L` (in code units)
takes with step `s`: `max(1, ceil(L / s))`. -/
def tickTotal (L s : Nat) : Nat := max 1 ((L + s - 1) / s)

/-- What renaming is specified to do to one saved chat: the chat with id `e`
takes the name `n`, or keeps its name when `n` is empty; any other chat is
left as it is. -/
def ArchiveEntry.rename (e : Int) (n : String) (x : ArchiveEntry) : ArchiveEntry :=
  if x.id = e then { x with name := if n = "" then x.name else n } else x

/-! # Theorems -/

/-! ## In-place text replacement -/

theorem replaceText_length (msgs : List Message) (target newText : String) :
    (replaceText msgs target newText).length = msgs.length := by
  simp [replaceText]

theorem replaceText_get? (msgs : List Message) (target newText : String) (i : Nat) :
    (replaceText msgs target newText).get? i =
      (msgs.get? i).map
        (fun m => if m.id = target then { m with text := newText } else m) := by
  simp [replaceText, List.getElem?_map]

theorem replaceText_absent (msgs : List Message) (target newText : String)
    (h : ∀ m ∈ msgs, m.id ≠ target) : replaceText msgs target newText = msgs := by
  induction msgs with
  | nil => rfl
  | cons m ms ih =>
    have hm : m.id ≠ target := h m (List.mem_cons_self _ _)
    have hms : ∀ x ∈ ms, x.id ≠ target := fun x hx => h x (List.mem_cons_of_mem _ hx)
    have ih' := ih hms
    simp only [replaceText, beq_iff_eq] at ih' ⊢
    simp [hm, ih']

/-- C10: `replaceText` maps over the list; with a target id that occurs in no
message the list is returned as it is, and in every case the result has the
same length and the same ids and roles at the same positions, a message whose
id is the target has the new text, and every other message is unchanged. -/
theorem replaceText_frame (msgs : List Message) (target newText : String) :
    ((∀ m ∈ msgs, m.id ≠ target) → replaceText msgs target newText = msgs) ∧
    (replaceText msgs target newText).length = msgs.length ∧
    (replaceText msgs target newText).map (·.id) = msgs.map (·.id) ∧
    (replaceText msgs target newText).map (·.role) = msgs.map (·.role) ∧
    (∀ i m, msgs.get? i = some m →
      ∃ m', (replaceText msgs target newText).get? i = some m' ∧
        m'.id = m.id ∧ m'.role = m.role ∧
        (m.id = target → m'.text = newText) ∧ (m.id ≠ target → m' = m)) := by
  refine ⟨replaceText_absent msgs target newText, replaceText_length msgs target newText,
    ?_, ?_, ?_⟩
  · simp only [replaceText, List.map_map]
    apply List.map_congr_left
    intro m _
    by_cases h : m.id = target <;> simp [h]
  · simp only [replaceText, List.map_map]
    apply List.map_congr_left
    intro m _
    by_cases h : m.id = target <;> simp [h]
  · intro i m hm
    rw [replaceText_get?, hm]
    by_cases h : m.id = target
    · exact ⟨{ m with text := newText }, by simp [h], rfl, rfl, fun _ => rfl,
        fun hne => absurd h hne⟩
    · exact ⟨m, by simp [h], rfl, rfl, fun he => absurd he h, fun _ => rfl⟩

/-- C10 on a three-message list: replacing the text of `"m2"` touches only the
second message, and replacing the text of the absent id `"zz"` changes
nothing. -/
theorem replaceText_frame_witness :
    replaceText [⟨"m1", "user", "a"⟩, ⟨"m2", "ai", "b"⟩, ⟨"m3", "user", "c"⟩] "m2" "new" =
        [⟨"m1", "user", "a"⟩, ⟨"m2", "ai", "new"⟩, ⟨"m3", "user", "c"⟩] ∧
      replaceText [⟨"m1", "user", "a"⟩, ⟨"m2", "ai", "b"⟩, ⟨"m3", "user", "c"⟩] "zz" "new" =
        [⟨"m1", "user", "a"⟩, ⟨"m2", "ai", "b"⟩, ⟨"m3", "user", "c"⟩] :=
  ⟨by decide,
    (replaceText_frame [⟨"m1", "user", "a"⟩, ⟨"m2", "ai", "b"⟩, ⟨"m3", "user", "c"⟩]
      "zz" "new").1 (by decide)⟩

/-! ## Pins -/

/-- C7: `togglePin` flips the membership of the toggled id and of no other
id, and toggling the same id twice gives back the original membership. -/
theorem togglePin_flip (pinnedIds : List String) (x : String) :
    (x ∈ togglePin pinnedIds x ↔ x ∉ pinnedIds) ∧
    (∀ y, y ≠ x → (y ∈ togglePin pinnedIds x ↔ y ∈ pinnedIds)) ∧
    (∀ y, y ∈ togglePin (togglePin pinnedIds x) x ↔ y ∈ pinnedIds) := by
  have flip : ∀ P : List String, (x ∈ togglePin P x ↔ x ∉ P) := by
    intro P
    unfold togglePin
    by_cases h : x ∈ P <;> simp [h]
  have keep : ∀ P : List String, ∀ y, y ≠ x → (y ∈ togglePin P x ↔ y ∈ P) := by
    intro P y hy
    unfold togglePin
    by_cases h : x ∈ P <;> simp [h, hy]
  refine ⟨flip pinnedIds, keep pinnedIds, ?_⟩
  intro y
  by_cases hy : y = x
  · subst hy
    rw [flip, flip]
    exact not_not
  · rw [keep _ y hy, keep _ y hy]

/-! ## Tabs -/

theorem closeTab_sessions (st : AppState) (id : String) :
    (closeTab st id).sessions = st.sessions.filter (fun s => s.id != id) := by
  unfold closeTab
  split <;> rfl

theorem closeTab_current_of_ne (st : AppState) (id : String)
    (h : st.currentSessionId ≠ some id) :
    (closeTab st id).currentSessionId = st.currentSessionId := by
  unfold closeTab
  simp [h]

theorem closeTab_current_of_eq (st : AppState) (id : String)
    (h : st.currentSessionId = some id) (hlen : 1 < st.sessions.length) :
    (closeTab st id).currentSessionId =
      (st.sessions.find? (fun s => s.id != id)).map (·.id) := by
  unfold closeTab
  simp [h, hlen]

/-- Removing the one session with a given id from a registry with distinct
ids splits the registry around it. -/
theorem filter_ne_of_nodup (l : List Session) (s : Session)
    (hnd : (l.map (·.id)).Nodup) (hs : s ∈ l) :
    ∃ l1 l2, l = l1 ++ s :: l2 ∧ l.filter (fun x => x.id != s.id) = l1 ++ l2 := by
  obtain ⟨l1, l2, rfl⟩ := List.append_of_mem hs
  refine ⟨l1, l2, rfl, ?_⟩
  simp only [List.map_append, List.map_cons] at hnd
  have h1 : ∀ x ∈ l1, x.id ≠ s.id := by
    intro x hx he
    have hd := (List.nodup_append.1 hnd).2.2
    exact hd (List.mem_map_of_mem _ hx) (by rw [he]; exact List.mem_cons_self _ _)
  have h2 : ∀ x ∈ l2, x.id ≠ s.id := by
    intro x hx he
    have hc := (List.nodup_cons.1 (List.nodup_append.1 hnd).2.1).1
    exact hc (by rw [← he]; exact List.mem_map_of_mem _ hx)
  have f1 : l1.filter (fun x => x.id != s.id) = l1 :=
    List.filter_eq_self.2 (fun x hx => by simpa using h1 x hx)
  have f2 : l2.filter (fun x => x.id != s.id) = l2 :=
    List.filter_eq_self.2 (fun x hx => by simpa using h2 x hx)
  simp [List.filter_append, List.filter_cons, f1, f2]

/-- Closing the active tab while a session with another id exists activates
the first session with another id. -/
theorem closeTab_next (st : AppState) (c : String)
    (hcur : st.currentSessionId = some c)
    (hmem : c ∈ st.sessions.map (·.id))
    (hother : ∃ s ∈ st.sessions, s.id ≠ c) :
    ∃ n l1 l2, st.sessions = l1 ++ n :: l2 ∧ (∀ s ∈ l1, s.id = c) ∧ n.id ≠ c ∧
      (closeTab st c).currentSessionId = some n.id ∧ n ∈ (closeTab st c).sessions := by
  obtain ⟨s, hs, hsne⟩ := hother
  obtain ⟨s0, hs0, hs0id⟩ := List.mem_map.1 hmem
  have hlen : 1 < st.sessions.length := by
    rcases hl : st.sessions with _ | ⟨x, _ | ⟨y, t⟩⟩
    · rw [hl] at hs
      cases hs
    · rw [hl] at hs hs0
      simp only [List.mem_singleton] at hs hs0
      subst hs
      subst hs0
      exact absurd hs0id hsne
    · simp
  have hsome : (st.sessions.find? (fun x => x.id != c)).isSome = true :=
    List.find?_isSome.2 ⟨s, hs, by simpa using hsne⟩
  obtain ⟨n, hn⟩ := Option.isSome_iff_exists.1 hsome
  obtain ⟨hpn, l1, l2, hsplit, hbefore⟩ := List.find?_eq_some.1 hn
  have hnid : n.id ≠ c := by simpa using hpn
  refine ⟨n, l1, l2, hsplit, ?_, hnid, ?_, ?_⟩
  · intro x hx
    simpa using hbefore x hx
  · rw [closeTab_current_of_eq st c hcur hlen, hn]
    rfl
  · rw [closeTab_sessions, List.mem_filter]
    exact ⟨List.mem_of_find?_eq_some hn, hpn⟩

/-- C8: in a registry with distinct ids whose active id `c` is present,
`closeTab id` removes exactly the session with that id and keeps the others in
order; closing another tab leaves the active id alone; closing the active tab
while another session exists activates the first session of the registry with
another id, which is in the registry afterwards. -/
theorem closeTab_spec (st : AppState) (c id : String)
    (hnd : (st.sessions.map (·.id)).Nodup)
    (hcur : st.currentSessionId = some c)
    (hmem : c ∈ st.sessions.map (·.id)) :
    (∀ s, s ∈ (closeTab st id).sessions ↔ s ∈ st.sessions ∧ s.id ≠ id) ∧
    (closeTab st id).sessions.Sublist st.sessions ∧
    (∀ s ∈ st.sessions, s.id = id →
      ∃ l1 l2, st.sessions = l1 ++ s :: l2 ∧ (closeTab st id).sessions = l1 ++ l2) ∧
    (id ≠ c → (closeTab st id).currentSessionId = some c) ∧
    (id = c → (∃ s ∈ st.sessions, s.id ≠ id) →
      ∃ n l1 l2, st.sessions = l1 ++ n :: l2 ∧ (∀ s ∈ l1, s.id = id) ∧ n.id ≠ id ∧
        (closeTab st id).currentSessionId = some n.id ∧ n ∈ (closeTab st id).sessions) := by
  refine ⟨?_, ?_, ?_, ?_, ?_⟩
  · intro s
    rw [closeTab_sessions, List.mem_filter]
    simp
  · rw [closeTab_sessions]
    exact List.filter_sublist _
  · intro s hs hid
    subst hid
    rw [closeTab_sessions]
    exact filter_ne_of_nodup st.sessions s hnd hs
  · intro hne
    rw [closeTab_current_of_ne st id (by rw [hcur]; simpa using fun h => hne h.symm), hcur]
  · intro hid hother
    subst hid
    exact closeTab_next st id hcur hmem hother

/-- C8 on a three-tab registry with active tab `"b"`: closing `"b"` leaves
`"a"` and `"c"` and makes `"a"` the active tab. -/
theorem closeTab_spec_witness :
    (closeTab { initialState "a" with
        sessions := [⟨"a", "Chat 1", []⟩, ⟨"b", "Chat 2", []⟩, ⟨"c", "Chat 3", []⟩]
        currentSessionId := some "b" } "b").currentSessionId = some "a" ∧
      (closeTab { initialState "a" with
        sessions := [⟨"a", "Chat 1", []⟩, ⟨"b", "Chat 2", []⟩, ⟨"c", "Chat 3", []⟩]
        currentSessionId := some "b" } "a").currentSessionId = some "b" :=
  ⟨by decide,
    (closeTab_spec { initialState "a" with
        sessions := [⟨"a", "Chat 1", []⟩, ⟨"b", "Chat 2", []⟩, ⟨"c", "Chat 3", []⟩]
        currentSessionId := some "b" } "b" "a" (by decide) rfl (by decide)).2.2.2.1
      (by decide)⟩

/-! ## The active tab is always a tab of the registry -/

theorem tabInv_initial (id0 : String) : TabInv (initialState id0) := by
  refine ⟨?_, id0, rfl, ?_⟩ <;> simp [initialState]

theorem tabInv_newTab (st : AppState) (id : String) (h : TabInv st)
    (hfresh : id ∉ st.sessions.map (·.id)) : TabInv (newTab st id) := by
  refine ⟨?_, id, rfl, ?_⟩
  · simp only [newTab, List.map_append, List.map_cons, List.map_nil]
    refine List.nodup_append.2 ⟨h.1, List.nodup_singleton _, ?_⟩
    intro x hx hx'
    rw [List.mem_singleton] at hx'
    exact hfresh (hx' ▸ hx)
  · simp [newTab]

theorem tabInv_closeTab (st : AppState) (id : String) (h : TabInv st)
    (hlen : 1 < st.sessions.length) : TabInv (closeTab st id) := by
  obtain ⟨hnd, c, hcur, hmem⟩ := h
  have hnd' : ((closeTab st id).sessions.map (·.id)).Nodup := by
    rw [closeTab_sessions]
    exact List.Nodup.sublist (List.Sublist.map _ (List.filter_sublist _)) hnd
  refine ⟨hnd', ?_⟩
  by_cases hc : c = id
  · subst hc
    have hother : ∃ s ∈ st.sessions, s.id ≠ c := by
      rcases hl : st.sessions with _ | ⟨x, _ | ⟨y, t⟩⟩
      · rw [hl] at hlen
        simp at hlen
      · rw [hl] at hlen
        simp at hlen
      · rw [hl] at hnd
        have hxy : x.id ≠ y.id := by
          intro he
          simp [he] at hnd
        by_cases hx : x.id = c
        · exact ⟨y, by simp, fun hy => hxy (hx.trans hy.symm)⟩
        · exact ⟨x, by simp, hx⟩
    obtain ⟨n, _, _, _, _, _, hn, hnmem⟩ := closeTab_next st c hcur hmem hother
    exact ⟨n.id, hn, List.mem_map_of_mem _ hnmem⟩
  · refine ⟨c, ?_, ?_⟩
    · rw [closeTab_current_of_ne st id (by rw [hcur]; simpa using hc), hcur]
    · obtain ⟨s0, hs0, hs0id⟩ := List.mem_map.1 hmem
      rw [closeTab_sessions]
      refine List.mem_map.2 ⟨s0, List.mem_filter.2 ⟨hs0, ?_⟩, hs0id⟩
      simpa [hs0id] using hc

theorem tabInv_step (st : AppState) (ev : TabEvent) (h : TabInv st)
    (hen : ev.enabled true st = true) : TabInv (ev.run st) := by
  cases ev with
  | newTab id =>
    have hfresh : id ∉ st.sessions.map (·.id) := by
      simpa [TabEvent.enabled] using hen
    exact tabInv_newTab st id h hfresh
  | closeTab id =>
    have hlen : 1 < st.sessions.length := by
      simpa [TabEvent.enabled, closeButtonShown] using hen
    exact tabInv_closeTab st id h hlen
  | selectTab id =>
    have hmem : id ∈ st.sessions.map (·.id) := by
      simpa [TabEvent.enabled] using hen
    exact ⟨h.1, id, rfl, hmem⟩

theorem tabInv_run (evs : List TabEvent) (st st' : AppState) (h : TabInv st)
    (hrun : runTabs true st evs = some st') : TabInv st' := by
  induction evs generalizing st with
  | nil =>
    simp only [runTabs, Option.some.injEq] at hrun
    exact hrun ▸ h
  | cons ev evs ih =>
    simp only [runTabs] at hrun
    by_cases hen : ev.enabled true st = true
    · rw [if_pos hen] at hrun
      exact ih (ev.run st) (tabInv_step st ev h hen) hrun
    · rw [if_neg hen] at hrun
      cases hrun

theorem activeInRegistry_of_tabInv (st : AppState) (h : TabInv st) : activeInRegistry st := by
  obtain ⟨_, c, hcur, hmem⟩ := h
  obtain ⟨s, hs, hsid⟩ := List.mem_map.1 hmem
  exact ⟨List.ne_nil_of_mem hs, s, hs, by rw [hcur, hsid]⟩

/-- C9, as amended: from the initial state, after any sequence of `newTab`
(with a fresh id), `closeTab` of any id while the close buttons are rendered
(the registry has more than one session) and selecting a tab of the registry,
the registry is not empty and `currentSessionId` is the id of one of its
sessions. -/
theorem active_tab_in_registry (id0 : String) (evs : List TabEvent) (st : AppState)
    (hrun : runTabs true (initialState id0) evs = some st) : activeInRegistry st :=
  activeInRegistry_of_tabInv st (tabInv_run evs (initialState id0) st (tabInv_initial id0) hrun)

/-- C9, as amended, on a run: open a second tab, select the first, close it;
the second tab is left and is active. -/
theorem active_tab_in_registry_witness :
    activeInRegistry (closeTab (selectTab (newTab (initialState "a") "b") "a") "a") :=
  active_tab_in_registry "a" [.newTab "b", .selectTab "a", .closeTab "a"] _ rfl

/-- C9 as stated fails: `closeTab` called on the only session of the initial
state is a run of the three events, and it leaves the registry empty. -/
theorem closeTab_last_empties_registry :
    runTabs false (initialState "a") [.closeTab "a"] = some (closeTab (initialState "a") "a") ∧
      (closeTab (initialState "a") "a").sessions = [] ∧
      ¬ activeInRegistry (closeTab (initialState "a") "a") :=
  ⟨rfl, by decide, fun h => h.1 (by decide)⟩

/-! ## Sending a message -/

theorem dropWhile_nil_of_all (p : Char → Bool) (l : List Char)
    (h : ∀ x ∈ l.dropWhile p, p x = true) : l.dropWhile p = [] := by
  induction l with
  | nil => rfl
  | cons a t ih =>
    by_cases ha : p a = true
    · rw [List.dropWhile_cons_of_pos ha] at h ⊢
      exact ih h
    · rw [List.dropWhile_cons_of_neg ha] at h
      exact absurd (h a (List.mem_cons_self _ _)) ha

/-- The trimmed text is empty exactly when every character of the text is
white space. -/
theorem trim_eq_empty_iff (s : String) :
    trim s = "" ↔ ∀ c ∈ s.data, isTrimSpace c = true := by
  unfold trim
  rw [String.ext_iff]
  show ((s.data.dropWhile isTrimSpace).reverse.dropWhile isTrimSpace).reverse = [] ↔ _
  rw [List.reverse_eq_nil_iff, List.dropWhile_eq_nil_iff]
  constructor
  · intro h
    have h' : ∀ x ∈ s.data.dropWhile isTrimSpace, isTrimSpace x = true :=
      fun x hx => h x (List.mem_reverse.2 hx)
    exact List.dropWhile_eq_nil_iff.1 (dropWhile_nil_of_all _ _ h')
  · intro h x hx
    rw [List.dropWhile_eq_nil_iff.2 h] at hx
    cases hx

/-- C2: with an input that is empty or white space only, `sendMessage`
returns at once: the state (all sessions, input, loading, error) is the
state before the call, no prompt is posted and no timer is armed. -/
theorem sendMessage_blank (st : AppState) (userId aiId : String) (completion : Option String)
    (hblank : ∀ c ∈ st.input.data, isTrimSpace c = true) :
    (sendMessage st userId aiId completion).state = st ∧
    (sendMessage st userId aiId completion).requests = [] ∧
    (sendMessage st userId aiId completion).timer = none := by
  have h : trim st.input = "" := (trim_eq_empty_iff st.input).2 hblank
  unfold sendMessage
  rw [if_pos h]
  exact ⟨rfl, rfl, rfl⟩

/-- C2 on the inputs `" \t\n"` and `""`, with the completion service ready to
answer. -/
theorem sendMessage_blank_witness :
    (sendMessage { initialState "s1" with input := " \t\n" } "u" "a" (some "Hi")).requests = [] ∧
      (sendMessage { initialState "s1" with input := "" } "u" "a" (some "Hi")).requests = [] :=
  ⟨(sendMessage_blank { initialState "s1" with input := " \t\n" } "u" "a" (some "Hi")
      (by decide)).2.1,
    (sendMessage_blank { initialState "s1" with input := "" } "u" "a" (some "Hi")
      (by decide)).2.1⟩

theorem updateCurrentSession_append_twice (cur : Option String) (a b : Message)
    (sessions : List Session) :
    updateCurrentSession cur (fun s => { s with messages := s.messages ++ [b] })
        (updateCurrentSession cur (fun s => { s with messages := s.messages ++ [a] }) sessions) =
      sessions.map (fun s =>
        if some s.id = cur then { s with messages := s.messages ++ [a, b] } else s) := by
  simp only [updateCurrentSession, List.map_map]
  apply List.map_congr_left
  intro s _
  by_cases h : some s.id = cur <;> simp [h]

/-- The current session after an update that keeps the ids. -/
theorem currentSession_map (st st' : AppState) (f : Session → Session)
    (hid : ∀ s, (f s).id = s.id)
    (hs : st'.sessions = st.sessions.map f)
    (hc : st'.currentSessionId = st.currentSessionId) :
    currentSession st' = (currentSession st).map f := by
  unfold currentSession
  rw [hs, hc, List.find?_map]
  have hp : ((fun s : Session => some s.id == st.currentSessionId) ∘ f) =
      (fun s : Session => some s.id == st.currentSessionId) := by
    funext s
    simp [hid]
  rw [hp]
  cases hf : st.sessions.find? (fun s => some s.id == st.currentSessionId) with
  | some s => rfl
  | none =>
    cases hl : st.sessions with
    | nil => rfl
    | cons x t => rfl

theorem sendMessage_sessions (st : AppState) (userId aiId r : String)
    (hin : trim st.input ≠ "") (hte : st.typingEffect = false) :
    (sendMessage st userId aiId (some r)).state.sessions =
      st.sessions.map (fun s =>
        if some s.id = st.currentSessionId then
          { s with messages := s.messages ++
              [⟨userId, "user", st.input⟩, ⟨aiId, "ai", r⟩] }
        else s) := by
  unfold sendMessage
  rw [if_neg hin]
  simp only [hte, Bool.not_false, if_true]
  exact updateCurrentSession_append_twice _ _ _ _

theorem sendMessage_current (st : AppState) (userId aiId : String) (completion : Option String) :
    (sendMessage st userId aiId completion).state.currentSessionId = st.currentSessionId := by
  unfold sendMessage
  split
  · rfl
  · cases completion with
    | none => rfl
    | some r =>
      by_cases hte : st.typingEffect = true <;> simp [hte]

/-- C1: with a non-blank input, the typing effect off and the completion
service answering `r`, `sendMessage` appends to every session whose id is the
active id the user message with the input text and then the `"ai"` message
with text `r`, and leaves every other session as it was; the messages of the
active session are the previous ones followed by these two; from the initial
state with input `"Hello"` the session holds exactly the two messages. -/
theorem sendMessage_user_then_ai :
    (∀ (st : AppState) (userId aiId r : String),
      trim st.input ≠ "" → st.typingEffect = false →
      (sendMessage st userId aiId (some r)).state.sessions =
          st.sessions.map (fun s =>
            if some s.id = st.currentSessionId then
              { s with messages := s.messages ++
                  [⟨userId, "user", st.input⟩, ⟨aiId, "ai", r⟩] }
            else s) ∧
        (∀ s, st.sessions.find? (fun s => some s.id == st.currentSessionId) = some s →
          messages (sendMessage st userId aiId (some r)).state =
            s.messages ++ [⟨userId, "user", st.input⟩, ⟨aiId, "ai", r⟩]) ∧
        (sendMessage st userId aiId (some r)).timer = none) ∧
    (∀ id0 userId aiId r : String,
      (sendMessage { initialState id0 with input := "Hello", typingEffect := false }
          userId aiId (some r)).state.sessions =
        [⟨id0, "Chat 1", [⟨userId, "user", "Hello"⟩, ⟨aiId, "ai", r⟩]⟩]) := by
  refine ⟨?_, ?_⟩
  · intro st userId aiId r hin hte
    refine ⟨sendMessage_sessions st userId aiId r hin hte, ?_, ?_⟩
    · intro s hs
      have hcs := currentSession_map st (sendMessage st userId aiId (some r)).state
        (fun s => if some s.id = st.currentSessionId then
            { s with messages := s.messages ++
                [⟨userId, "user", st.input⟩, ⟨aiId, "ai", r⟩] }
          else s)
        (by intro s; by_cases h : some s.id = st.currentSessionId <;> simp [h])
        (sendMessage_sessions st userId aiId r hin hte)
        (sendMessage_current st userId aiId (some r))
      have hsid : some s.id = st.currentSessionId := by
        simpa using List.find?_some hs
      have hcur : currentSession st = some s := by
        unfold currentSession
        rw [hs]
      unfold messages
      rw [hcs, hcur]
      simp [hsid]
    · unfold sendMessage
      rw [if_neg hin]
      simp [hte]
  · intro id0 userId aiId r
    have hin : trim "Hello" ≠ "" := by decide
    rw [sendMessage_sessions _ userId aiId r hin rfl]
    simp [initialState]

/-- C1 on the end-to-end scenario: one empty session `"Chat 1"`, input
`"Hello"`, answer `"Hi there"`. -/
theorem sendMessage_user_then_ai_witness :
    messages (sendMessage { initialState "s1" with input := "Hello", typingEffect := false }
        "u1" "a1" (some "Hi there")).state =
      [⟨"u1", "user", "Hello"⟩, ⟨"a1", "ai", "Hi there"⟩] :=
  (sendMessage_user_then_ai.1 { initialState "s1" with input := "Hello", typingEffect := false }
    "u1" "a1" "Hi there" (by decide) rfl).2.1 ⟨"s1", "Chat 1", []⟩ rfl

/-! ## Edit and re-run -/

theorem replaceText_split (pre post : List Message) (m : Message) (t : String)
    (hpre : ∀ x ∈ pre, x.id ≠ m.id) (hpost : ∀ x ∈ post, x.id ≠ m.id) :
    replaceText (pre ++ m :: post) m.id t = pre ++ { m with text := t } :: post := by
  have h1 := replaceText_absent pre m.id t hpre
  have h2 := replaceText_absent post m.id t hpost
  simp only [replaceText, beq_iff_eq] at h1 h2 ⊢
  simp [h1, h2]

theorem get?_after_split (pre post : List Message) (m : Message) :
    (pre ++ m :: post).get? (pre.length + 1) = post.get? 0 := by
  induction pre with
  | nil => rfl
  | cons a t ih => simpa using ih

theorem findIndex_split (p : Message → Bool) (pre post : List Message) (m : Message)
    (hpre : ∀ x ∈ pre, p x = false) (hm : p m = true) :
    findIndex p (pre ++ m :: post) = some pre.length := by
  induction pre with
  | nil => simp [findIndex, hm]
  | cons a t ih =>
    have ha : p a = false := hpre a (List.mem_cons_self _ _)
    have ht : ∀ x ∈ t, p x = false := fun x hx => hpre x (List.mem_cons_of_mem _ hx)
    simp [findIndex, ha, ih ht]

/-- In a list with distinct ids, the ids before and after a position differ
from the id at that position. -/
theorem ids_ne_of_nodup (pre post : List Message) (m : Message)
    (hnd : ((pre ++ m :: post).map (·.id)).Nodup) :
    (∀ x ∈ pre, x.id ≠ m.id) ∧ (∀ x ∈ post, x.id ≠ m.id) := by
  simp only [List.map_append, List.map_cons] at hnd
  constructor
  · intro x hx he
    have hd := (List.nodup_append.1 hnd).2.2
    exact hd (List.mem_map_of_mem _ hx) (by rw [he]; exact List.mem_cons_self _ _)
  · intro x hx he
    have hc := (List.nodup_cons.1 (List.nodup_append.1 hnd).2.1).1
    exact hc (by rw [← he]; exact List.mem_map_of_mem _ hx)

theorem nextIsAI_split (pre post : List Message) (m : Message)
    (hpre : ∀ x ∈ pre, x.id ≠ m.id) :
    nextIsAI (pre ++ m :: post) m =
      match post with
      | [] => none
      | n :: _ => if n.role = "ai" then some n else none := by
  unfold nextIsAI
  rw [findIndex_split _ pre post m (fun x hx => by simpa using hpre x hx) (by simp)]
  simp only [get?_after_split]
  cases post with
  | nil => rfl
  | cons n rest =>
    by_cases h : n.role = "ai" <;> simp [h]

theorem applyEdit_sessions (st : AppState) (msg : Message) (aiId r : String) :
    (applyEdit st msg aiId (some r)).state.sessions =
      st.sessions.map (fun x =>
        if some x.id = st.currentSessionId then
          { x with messages :=
              match nextIsAI (messages st) msg with
              | some target =>
                replaceText (replaceText x.messages msg.id st.editValue) target.id r
              | none =>
                replaceText x.messages msg.id st.editValue ++ [⟨aiId, "ai", r⟩] }
        else x) := by
  unfold applyEdit
  cases h : nextIsAI (messages st) msg with
  | some target =>
    simp only [updateCurrentSession, List.map_map]
    apply List.map_congr_left
    intro x _
    by_cases hx : some x.id = st.currentSessionId <;> simp [hx]
  | none =>
    simp only [updateCurrentSession, List.map_map]
    apply List.map_congr_left
    intro x _
    by_cases hx : some x.id = st.currentSessionId <;> simp [hx]

theorem applyEdit_current (st : AppState) (msg : Message) (aiId : String)
    (completion : Option String) :
    (applyEdit st msg aiId completion).state.currentSessionId = st.currentSessionId := by
  unfold applyEdit
  cases completion with
  | none => rfl
  | some r =>
    cases h : nextIsAI (messages st) msg <;> rfl

theorem messages_of_find (st : AppState) (s : Session)
    (hcur : st.sessions.find? (fun x => some x.id == st.currentSessionId) = some s) :
    currentSession st = some s ∧ messages st = s.messages := by
  have h : currentSession st = some s := by
    unfold currentSession
    rw [hcur]
  exact ⟨h, by unfold messages; rw [h]⟩

/-- The messages of the active session after `applyEdit` succeeds. -/
theorem applyEdit_messages (st : AppState) (s : Session) (pre post : List Message)
    (m : Message) (aiId r : String)
    (hcur : st.sessions.find? (fun x => some x.id == st.currentSessionId) = some s)
    (hsplit : s.messages = pre ++ m :: post)
    (hnd : (s.messages.map (·.id)).Nodup) :
    messages (applyEdit st m aiId (some r)).state =
      pre ++ { m with text := st.editValue } :: regenerated post aiId r := by
  obtain ⟨hcs, hmsgs⟩ := messages_of_find st s hcur
  have hsid : some s.id = st.currentSessionId := by
    simpa using List.find?_some hcur
  rw [hsplit] at hnd
  obtain ⟨hpre, hpost⟩ := ids_ne_of_nodup pre post m hnd
  have hnext := nextIsAI_split pre post m hpre
  have hcm := currentSession_map st (applyEdit st m aiId (some r)).state _
    (by intro x; by_cases h : some x.id = st.currentSessionId <;> simp [h])
    (applyEdit_sessions st m aiId r) (applyEdit_current st m aiId (some r))
  rw [hmsgs] at hcm
  have hout : messages (applyEdit st m aiId (some r)).state =
      match nextIsAI s.messages m with
      | some target => replaceText (replaceText s.messages m.id st.editValue) target.id r
      | none => replaceText s.messages m.id st.editValue ++ [⟨aiId, "ai", r⟩] := by
    unfold messages
    rw [hcm, hcs]
    simp only [Option.map_some', hsid, if_true]
  rw [hout, hsplit, hnext, replaceText_split pre post m st.editValue hpre hpost]
  cases post with
  | nil => simp [regenerated]
  | cons n rest =>
    by_cases hrole : n.role = "ai"
    · simp only [regenerated, hrole, if_true]
      have hnd2 : (((pre ++ [({ m with text := st.editValue } : Message)]) ++ n :: rest).map
          (·.id)).Nodup := by
        simpa using hnd
      obtain ⟨hpre2, hpost2⟩ := ids_ne_of_nodup _ rest n hnd2
      have := replaceText_split (pre ++ [{ m with text := st.editValue }]) rest n r hpre2 hpost2
      simpa [hrole] using this
    · simp [regenerated, hrole]

/-- C3 (amended): in the active session `s` with distinct message ids, `applyEdit` on the
message `m` (found between `pre` and `post`) with the completion service
answering `r` gives `m` the text of the edit buffer; when the message right
after `m` has role `"ai"` that message gets the text `r` and the length is
unchanged, otherwise (no message after `m`, or one of another role) a new
`"ai"` message with text `r` is appended and the length grows by one; all other
messages keep their place and content, and sessions with another id are
unchanged. -/
theorem applyEdit_regenerate (st : AppState) (s : Session) (pre post : List Message)
    (m : Message) (aiId r : String)
    (hcur : st.sessions.find? (fun x => some x.id == st.currentSessionId) = some s)
    (hsplit : s.messages = pre ++ m :: post)
    (hnd : (s.messages.map (·.id)).Nodup) :
    messages (applyEdit st m aiId (some r)).state =
        pre ++ { m with text := st.editValue } :: regenerated post aiId r ∧
      (∀ n rest, post = n :: rest → n.role = "ai" →
        (messages (applyEdit st m aiId (some r)).state).length = s.messages.length) ∧
      ((post = [] ∨ ∃ n rest, post = n :: rest ∧ n.role ≠ "ai") →
        (messages (applyEdit st m aiId (some r)).state).length = s.messages.length + 1) ∧
      (∀ i x, st.sessions.get? i = some x → some x.id ≠ st.currentSessionId →
        (applyEdit st m aiId (some r)).state.sessions.get? i = some x) := by
  have hmain := applyEdit_messages st s pre post m aiId r hcur hsplit hnd
  refine ⟨hmain, ?_, ?_, ?_⟩
  · intro n rest hp hrole
    rw [hmain, hsplit, hp]
    simp [regenerated, hrole]
  · intro h
    rw [hmain, hsplit]
    rcases h with hp | ⟨n, rest, hp, hrole⟩
    · rw [hp]
      simp [regenerated]
    · rw [hp]
      simp [regenerated, hrole]
      omega
  · intro i x hx hne
    rw [applyEdit_sessions]
    simp only [List.get?_eq_getElem?] at hx ⊢
    simp [List.getElem?_map, hx, hne]

/-- C3 on a session `[user "q1", ai "a1", user "q2"]` with edit buffer `"new"`
and answer `"r"`: editing `q1` rewrites `a1` in place, editing `q2` appends. -/
theorem applyEdit_regenerate_witness :
    messages (applyEdit { initialState "s1" with
        sessions := [⟨"s1", "Chat 1", [⟨"q1", "user", "x"⟩, ⟨"a1", "ai", "y"⟩, ⟨"q2", "user", "z"⟩]⟩]
        editValue := "new" } ⟨"q1", "user", "x"⟩ "a2" (some "r")).state =
        [⟨"q1", "user", "new"⟩, ⟨"a1", "ai", "r"⟩, ⟨"q2", "user", "z"⟩] ∧
      messages (applyEdit { initialState "s1" with
        sessions := [⟨"s1", "Chat 1", [⟨"q1", "user", "x"⟩, ⟨"a1", "ai", "y"⟩, ⟨"q2", "user", "z"⟩]⟩]
        editValue := "new" } ⟨"q2", "user", "z"⟩ "a2" (some "r")).state =
        [⟨"q1", "user", "x"⟩, ⟨"a1", "ai", "y"⟩, ⟨"q2", "user", "new"⟩, ⟨"a2", "ai", "r"⟩] :=
  ⟨(applyEdit_regenerate { initialState "s1" with
        sessions := [⟨"s1", "Chat 1", [⟨"q1", "user", "x"⟩, ⟨"a1", "ai", "y"⟩, ⟨"q2", "user", "z"⟩]⟩]
        editValue := "new" }
      ⟨"s1", "Chat 1", [⟨"q1", "user", "x"⟩, ⟨"a1", "ai", "y"⟩, ⟨"q2", "user", "z"⟩]⟩
      [] [⟨"a1", "ai", "y"⟩, ⟨"q2", "user", "z"⟩] ⟨"q1", "user", "x"⟩ "a2" "r"
      rfl rfl (by decide)).1,
    by decide⟩

/-- C3, counterexample: in an active session whose user message and its answer
share the id `"q"`, `applyEdit` on the user message with edit buffer `"t"` and
the completion service answering `"r"` leaves the user message with the text
`"r"` and not `"t"`: both replacements go by id, so the second one overwrites
the edited text. -/
theorem applyEdit_shared_id :
    messages (applyEdit { initialState "s1" with
        sessions := [⟨"s1", "Chat 1", [⟨"q", "user", "x"⟩, ⟨"q", "ai", "y"⟩]⟩]
        editValue := "t" } ⟨"q", "user", "x"⟩ "a2" (some "r")).state =
      [⟨"q", "user", "r"⟩, ⟨"q", "ai", "r"⟩] := by
  decide

/-! ## Saving a chat -/

theorem Message.message_toJS_injective (a b : Message) (h : a.toJS = b.toJS) : a = b := by
  cases a
  cases b
  simp only [Message.toJS, JSValue.obj.injEq, List.cons.injEq, Prod.mk.injEq,
    JSValue.str.injEq, true_and, and_true] at h
  obtain ⟨h1, h2, h3⟩ := h
  subst h1
  subst h2
  subst h3
  rfl

theorem map_toJS_injective (xs ys : List Message)
    (h : xs.map Message.toJS = ys.map Message.toJS) : xs = ys := by
  induction xs generalizing ys with
  | nil =>
    cases ys with
    | nil => rfl
    | cons y t => simp at h
  | cons x t ih =>
    cases ys with
    | nil => simp at h
    | cons y t' =>
      simp only [List.map_cons, List.cons.injEq] at h
      rw [Message.message_toJS_injective x y h.1, ih t' h.2]

theorem sendMessage_saved (st : AppState) (userId aiId : String) (completion : Option String) :
    (sendMessage st userId aiId completion).state.savedChats = st.savedChats ∧
    (sendMessage st userId aiId completion).state.storedChats = st.storedChats := by
  unfold sendMessage
  split
  · exact ⟨rfl, rfl⟩
  · cases completion with
    | none => exact ⟨rfl, rfl⟩
    | some r =>
      by_cases hte : st.typingEffect = true <;> simp [hte]

theorem applyEdit_saved (st : AppState) (msg : Message) (aiId : String)
    (completion : Option String) :
    (applyEdit st msg aiId completion).state.savedChats = st.savedChats ∧
    (applyEdit st msg aiId completion).state.storedChats = st.storedChats := by
  unfold applyEdit
  cases completion with
  | none => exact ⟨rfl, rfl⟩
  | some r =>
    cases h : nextIsAI (messages st) msg <;> exact ⟨rfl, rfl⟩

theorem tick_saved (st : AppState) (task : TickTask) :
    (tick st task).1.savedChats = st.savedChats ∧
    (tick st task).1.storedChats = st.storedChats := by
  unfold tick
  by_cases h : task.i + task.typingSpeed < jsLength task.fullText <;> simp [h]

/-- C4: `saveChat` on a current session without messages changes nothing.
On a current session `s` with a message it appends one entry to the saved
chats (the earlier entries stay, the length grows by one) with id `now`, the
name of `s` and the messages of `s`, and stores the text of the whole
collection. The handlers that change the live session afterwards
(`sendMessage`, `tick`, `applyEdit`, the New Chat button) leave the saved chats
and the stored text as they are. -/
theorem saveChat_entry :
    (∀ (st : AppState) (now : Int), messages st = [] → saveChat st now = st) ∧
    (∀ (st : AppState) (now : Int) (s : Session),
      currentSession st = some s → s.messages ≠ [] →
      (saveChat st now).savedChats = st.savedChats ++
          [.obj [("id", .num now), ("name", .str s.name),
            ("messages", .arr (s.messages.map Message.toJS))]] ∧
        (saveChat st now).savedChats.length = st.savedChats.length + 1 ∧
        (saveChat st now).storedChats =
          some (JSON.stringify (.arr (saveChat st now).savedChats)) ∧
        (saveChat st now).sessions = st.sessions ∧
        (∀ msgs : List Message,
          msgs.map Message.toJS = s.messages.map Message.toJS → msgs = s.messages)) ∧
    (∀ (st : AppState) (userId aiId : String) (msg : Message) (completion : Option String)
        (task : TickTask),
      ((sendMessage st userId aiId completion).state.savedChats = st.savedChats ∧
        (sendMessage st userId aiId completion).state.storedChats = st.storedChats) ∧
      ((tick st task).1.savedChats = st.savedChats ∧
        (tick st task).1.storedChats = st.storedChats) ∧
      ((applyEdit st msg aiId completion).state.savedChats = st.savedChats ∧
        (applyEdit st msg aiId completion).state.storedChats = st.storedChats) ∧
      ((newChat st).savedChats = st.savedChats ∧ (newChat st).storedChats = st.storedChats)) := by
  refine ⟨?_, ?_, ?_⟩
  · intro st now h
    unfold saveChat
    simp [h]
  · intro st now s hs hne
    have hm : messages st = s.messages := by
      unfold messages
      rw [hs]
    have hlen : ¬ (messages st).length = 0 := by
      rw [hm]
      exact fun h => hne (List.length_eq_zero.1 h)
    have hsave : saveChat st now =
        { st with
          savedChats := st.savedChats ++
            [.obj [("id", .num now), ("name", .str s.name),
              ("messages", .arr (s.messages.map Message.toJS))]]
          storedChats := some (JSON.stringify (.arr (st.savedChats ++
            [.obj [("id", .num now), ("name", .str s.name),
              ("messages", .arr (s.messages.map Message.toJS))]]))) } := by
      unfold saveChat
      rw [if_neg hlen, hs, hm]
      rfl
    rw [hsave]
    exact ⟨rfl, by simp, rfl, rfl, fun msgs h => map_toJS_injective msgs s.messages h⟩
  · intro st userId aiId msg completion task
    exact ⟨sendMessage_saved st userId aiId completion, tick_saved st task,
      applyEdit_saved st msg aiId completion, rfl, rfl⟩

/-- C4 on a session `"Chat 1"` with two messages saved at time `1700000000000`:
one entry, with that name and those messages. -/
theorem saveChat_entry_witness :
    (saveChat { initialState "s1" with
        sessions := [⟨"s1", "Chat 1", [⟨"u1", "user", "Hello"⟩, ⟨"a1", "ai", "Hi"⟩]⟩] }
        1700000000000).savedChats =
      [.obj [("id", .num 1700000000000), ("name", .str "Chat 1"),
        ("messages", .arr [
          .obj [("id", .str "u1"), ("role", .str "user"), ("text", .str "Hello")],
          .obj [("id", .str "a1"), ("role", .str "ai"), ("text", .str "Hi")]])]] :=
  (saveChat_entry.2.1 { initialState "s1" with
      sessions := [⟨"s1", "Chat 1", [⟨"u1", "user", "Hello"⟩, ⟨"a1", "ai", "Hi"⟩]⟩] }
    1700000000000 ⟨"s1", "Chat 1", [⟨"u1", "user", "Hello"⟩, ⟨"a1", "ai", "Hi"⟩]⟩ rfl
    (by decide)).1

/-! ## Importing a backup -/

/-- C5: when the text does not parse, or parses to a value that is not an
array, `importAll` leaves the state (so the saved chats and the stored text)
as it was and alerts a failure: `"Failed to import: "` followed by the message
of the syntax error, or by `"Invalid backup format"` for a parsed value that is
not an array. -/
theorem importAll_rejects (st : AppState) (txt : String)
    (h : ∀ xs, JSON.parse txt ≠ .ok (.arr xs)) :
    (importAll st txt).1 = st ∧
    (importAll st txt).1.savedChats = st.savedChats ∧
    (importAll st txt).1.storedChats = st.storedChats ∧
    (∀ message, JSON.parse txt = .error message →
      (importAll st txt).2 = "Failed to import: " ++ message) ∧
    (∀ v, JSON.parse txt = .ok v →
      (importAll st txt).2 = "Failed to import: " ++ "Invalid backup format") := by
  unfold importAll
  cases hp : JSON.parse txt with
  | error message =>
    refine ⟨rfl, rfl, rfl, ?_, ?_⟩
    · intro m hm
      cases hm
      rfl
    · intro v hv
      cases hv
  | ok v =>
    cases v with
    | arr xs => exact absurd hp (h xs)
    | null | bool b | num n | dec m e | negZero | inf negative | undefined | str s | obj kvs =>
      refine ⟨rfl, rfl, rfl, ?_, ?_⟩
      · intro m hm
        cases hm
      · intro v hv
        rfl

/-- C5 on an object, a string, a number, a boolean, `null` and a text that is
not JSON: each is refused and the saved chats stay. -/
theorem importAll_rejects_witness :
    (importAll (initialState "s1") "\x7b\"id\": 1, \"name\": \"x\", \"messages\": []\x7d").2 =
        "Failed to import: Invalid backup format" ∧
      (importAll (initialState "s1") "\"chats\"").2 = "Failed to import: Invalid backup format" ∧
      (importAll (initialState "s1") "42").2 = "Failed to import: Invalid backup format" ∧
      (importAll (initialState "s1") "true").2 = "Failed to import: Invalid backup format" ∧
      (importAll (initialState "s1") "null").2 = "Failed to import: Invalid backup format" ∧
      (importAll (initialState "s1") "[1, 2").1.savedChats = [] :=
  ⟨(importAll_rejects (initialState "s1") "\x7b\"id\": 1, \"name\": \"x\", \"messages\": []\x7d"
      (fun xs hx => by
        rw [show JSON.parse "\x7b\"id\": 1, \"name\": \"x\", \"messages\": []\x7d" =
          .ok (.obj [("id", .num 1), ("name", .str "x"), ("messages", .arr [])]) from rfl] at hx
        cases hx)).2.2.2.2 _ rfl,
    (importAll_rejects (initialState "s1") "\"chats\""
      (fun xs hx => by
        rw [show JSON.parse "\"chats\"" = .ok (.str "chats") from rfl] at hx
        cases hx)).2.2.2.2 _ rfl,
    (importAll_rejects (initialState "s1") "42"
      (fun xs hx => by
        rw [show JSON.parse "42" = .ok (.num 42) from rfl] at hx
        cases hx)).2.2.2.2 _ rfl,
    (importAll_rejects (initialState "s1") "true"
      (fun xs hx => by
        rw [show JSON.parse "true" = .ok (.bool true) from rfl] at hx
        cases hx)).2.2.2.2 _ rfl,
    (importAll_rejects (initialState "s1") "null"
      (fun xs hx => by
        rw [show JSON.parse "null" = .ok .null from rfl] at hx
        cases hx)).2.2.2.2 _ rfl,
    (importAll_rejects (initialState "s1") "[1, 2"
      (fun xs hx => by
        rw [show JSON.parse "[1, 2" = .error "Unexpected token in JSON" from rfl] at hx
        cases hx)).2.1⟩

/-! ## `JSON.parse` reads back what `JSON.stringify` writes -/

namespace JSON

theorem unitChar_toNat (c : Char) : unitChar c.toNat = c := by
  have hv := c.valid
  have hn : ¬ (0xD800 ≤ c.toNat ∧ c.toNat ≤ 0xDFFF) := by
    intro h
    rcases hv with h1 | h1
    · have : c.toNat < 0xD800 := h1
      omega
    · have : 0xDFFF < c.toNat := h1.1
      omega
  unfold unitChar
  rw [if_neg hn]
  exact Char.ofNat_toNat c

theorem decodeUnits_toNat (cs : List Char) : decodeUnits (cs.map Char.toNat) = cs := by
  induction cs with
  | nil => rfl
  | cons c t ih =>
    cases t with
    | nil => simp [decodeUnits, unitChar_toNat]
    | cons d t' =>
      have hv := c.valid
      have hn : ¬ ((0xD800 ≤ c.toNat ∧ c.toNat ≤ 0xDBFF) ∧ (0xDC00 ≤ d.toNat ∧ d.toNat ≤ 0xDFFF)) := by
        intro h
        rcases hv with h1 | h1
        · have : c.toNat < 0xD800 := h1
          omega
        · have : 0xDFFF < c.toNat := h1.1
          omega
      simp only [List.map_cons, decodeUnits] at ih ⊢
      rw [if_neg hn, unitChar_toNat]
      rw [ih]

theorem parseUnits_quote (rest : List Char) : parseUnits ('"' :: rest) = some ([], rest) := by
  rw [parseUnits.eq_def]
  simp

theorem parseUnits_plain (c : Char) (rest : List Char) (h1 : c ≠ '"') (h2 : c ≠ '\\')
    (h3 : ¬ c.toNat < 32) :
    parseUnits (c :: rest) = (parseUnits rest).map (fun p => (c.toNat :: p.1, p.2)) := by
  rw [parseUnits.eq_def]
  simp [h1, h2, h3]

theorem parseUnits_escape (e ch : Char) (rest : List Char) (h1 : e ≠ 'u')
    (h2 : unescape e = some ch) :
    parseUnits ('\\' :: e :: rest) = (parseUnits rest).map (fun p => (ch.toNat :: p.1, p.2)) := by
  rw [parseUnits.eq_def]
  simp [h1, h2]

theorem parseUnits_hex (a b c d : Char) (n : Nat) (rest : List Char)
    (h : hex4 a b c d = some n) :
    parseUnits ('\\' :: 'u' :: a :: b :: c :: d :: rest) =
      (parseUnits rest).map (fun p => (n :: p.1, p.2)) := by
  rw [parseUnits.eq_def]
  simp [h]

theorem hex4_control : ∀ n, n < 32 →
    hex4 '0' '0' (hexDigit (n / 16)) (hexDigit (n % 16)) = some n := by
  decide

theorem parseUnits_quoteChar (c : Char) (rest : List Char) :
    parseUnits (quoteChar c ++ rest) = (parseUnits rest).map (fun p => (c.toNat :: p.1, p.2)) := by
  unfold quoteChar
  by_cases h1 : c = '"'
  · subst h1
    exact parseUnits_escape '"' '"' rest (by decide) rfl
  by_cases h2 : c = '\\'
  · subst h2
    exact parseUnits_escape '\\' '\\' rest (by decide) rfl
  by_cases h3 : c = '\x08'
  · subst h3
    exact parseUnits_escape 'b' '\x08' rest (by decide) rfl
  by_cases h4 : c = '\x0c'
  · subst h4
    exact parseUnits_escape 'f' '\x0c' rest (by decide) rfl
  by_cases h5 : c = '\n'
  · subst h5
    exact parseUnits_escape 'n' '\n' rest (by decide) rfl
  by_cases h6 : c = '\r'
  · subst h6
    exact parseUnits_escape 'r' '\r' rest (by decide) rfl
  by_cases h7 : c = '\t'
  · subst h7
    exact parseUnits_escape 't' '\t' rest (by decide) rfl
  by_cases h8 : c.toNat < 32
  · simp only [h1, h2, h3, h4, h5, h6, h7, h8, if_false, if_true]
    exact parseUnits_hex _ _ _ _ _ rest (hex4_control c.toNat h8)
  · simp only [h1, h2, h3, h4, h5, h6, h7, h8, if_false]
    exact parseUnits_plain c rest h1 h2 h8

theorem parseUnits_quoteChars (cs rest : List Char) :
    parseUnits (quoteChars cs ++ rest) = some (cs.map Char.toNat, rest) := by
  induction cs with
  | nil => exact parseUnits_quote rest
  | cons c t ih =>
    simp only [quoteChars, List.append_assoc]
    rw [parseUnits_quoteChar, ih]
    rfl

theorem parseChars_quoteChars (cs rest : List Char) :
    parseChars (quoteChars cs ++ rest) = some (cs, rest) := by
  unfold parseChars
  rw [parseUnits_quoteChars]
  simp [decodeUnits_toNat]

theorem digitChar_toNat : ∀ k, k < 10 → (digitChar k).toNat = 48 + k := by
  decide

theorem isDigit_digitChar : ∀ k, k < 10 → isDigit (digitChar k) = true := by
  decide

theorem natOfDigits_snoc (ds : List Char) (d : Char) :
    natOfDigits (ds ++ [d]) = 10 * natOfDigits ds + (d.toNat - 48) := by
  simp [natOfDigits, List.foldl_append]

/-- The digits printed for `n` are decimal digits that denote `n`, and the
first of them is `0` only for `n = 0`. -/
theorem natDigits_spec (fuel : Nat) : ∀ n, n < fuel →
    natDigits fuel n ≠ [] ∧ (∀ c ∈ natDigits fuel n, isDigit c = true) ∧
      natOfDigits (natDigits fuel n) = n ∧
      (∀ c t, natDigits fuel n = c :: t → c = '0' → n = 0 ∧ t = []) := by
  induction fuel with
  | zero => intro n h; omega
  | succ f ih =>
    intro n hn
    by_cases h10 : n < 10
    · have hd : natDigits (f + 1) n = [digitChar n] := by simp [natDigits, h10]
      rw [hd]
      refine ⟨by simp, ?_, ?_, ?_⟩
      · intro c hc
        rw [List.mem_singleton] at hc
        rw [hc]
        exact isDigit_digitChar n h10
      · simp [natOfDigits, digitChar_toNat n h10]
      · intro c t hct hc0
        simp only [List.cons.injEq] at hct
        obtain ⟨h1, h2⟩ := hct
        refine ⟨?_, h2.symm⟩
        have := digitChar_toNat n h10
        rw [h1, hc0] at this
        have h48 : ('0' : Char).toNat = 48 := rfl
        omega
    · have hd : natDigits (f + 1) n = natDigits f (n / 10) ++ [digitChar (n % 10)] := by
        simp [natDigits, h10]
      have hlt : n / 10 < f := by omega
      obtain ⟨hne, hall, hval, hhead⟩ := ih (n / 10) hlt
      have hm : n % 10 < 10 := Nat.mod_lt _ (by decide)
      rw [hd]
      refine ⟨by simp, ?_, ?_, ?_⟩
      · intro c hc
        rcases List.mem_append.1 hc with h | h
        · exact hall c h
        · rw [List.mem_singleton] at h
          rw [h]
          exact isDigit_digitChar _ hm
      · rw [natOfDigits_snoc, hval, digitChar_toNat _ hm]
        omega
      · intro c t hct hc0
        cases hnd : natDigits f (n / 10) with
        | nil => exact absurd hnd hne
        | cons c' t' =>
          rw [hnd] at hct
          simp only [List.cons_append, List.cons.injEq] at hct
          have := (hhead c' t' hnd (hct.1.trans hc0)).1
          omega

theorem spanDigits_append (ds rest : List Char) (hds : ∀ c ∈ ds, isDigit c = true)
    (hrest : ∀ c r, rest = c :: r → isDigit c = false) :
    spanDigits (ds ++ rest) = (ds, rest) := by
  induction ds with
  | nil =>
    cases rest with
    | nil => rfl
    | cons c r => simp [spanDigits, hrest c r rfl]
  | cons d t ih =>
    have hd : isDigit d = true := hds d (List.mem_cons_self _ _)
    have ht : ∀ c ∈ t, isDigit c = true := fun c hc => hds c (List.mem_cons_of_mem _ hc)
    simp [spanDigits, hd, ih ht]

theorem Delim.not_digit {rest : List Char} (h : Delim rest) :
    ∀ c r, rest = c :: r → isDigit c = false := by
  intro c r hr
  rcases h with h | ⟨c', r', h, hc⟩
  · rw [h] at hr
    cases hr
  · rw [h] at hr
    simp only [List.cons.injEq] at hr
    rw [← hr.1]
    rcases hc with hc | hc | hc | hc <;> rw [hc] <;> decide

theorem parseFraction_delim {rest : List Char} (h : Delim rest) :
    parseFraction rest = some ([], rest) := by
  rcases h with h | ⟨c, r, h, hc⟩
  · rw [h]
    rfl
  · rw [h]
    rcases hc with hc | hc | hc | hc <;> rw [hc] <;> rfl

theorem parseExponent_delim {rest : List Char} (h : Delim rest) :
    parseExponent rest = some (0, rest) := by
  rcases h with h | ⟨c, r, h, hc⟩
  · rw [h]
    rfl
  · rw [h]
    rcases hc with hc | hc | hc | hc <;> rw [hc] <;> simp [parseExponent]

theorem parseIntPart_natToString (n : Nat) (rest : List Char) (h : Delim rest) :
    parseIntPart (natToString n ++ rest) = some (natToString n, rest) := by
  obtain ⟨hne, hall, _, hhead⟩ := natDigits_spec (n + 1) n (Nat.lt_succ_self n)
  unfold natToString
  cases hd : natDigits (n + 1) n with
  | nil => exact absurd hd hne
  | cons c t =>
    rw [hd] at hall
    by_cases hc0 : c = '0'
    · obtain ⟨_, ht⟩ := hhead c t hd hc0
      subst ht
      subst hc0
      simp [parseIntPart]
    · have hcd : isDigit c = true := hall c (List.mem_cons_self _ _)
      have hsp := spanDigits_append (c :: t) rest hall h.not_digit
      simp only [List.cons_append] at hsp ⊢
      simp [parseIntPart, hc0, hcd, hsp]

theorem overflows_neg (m e : Int) : overflows (-m) e = overflows m e := by
  simp [overflows]

theorem underflows_neg (m e : Int) : underflows (-m) e = underflows m e := by
  unfold underflows
  rw [Int.natAbs_neg]
  have h0 : (-m == 0) = (m == 0) := by
    by_cases h : m = 0
    · subst h
      rfl
    · have h2 : -m ≠ 0 := by omega
      simp [h, h2]
  rw [h0]

theorem overflows_sign (negative : Bool) (n : Nat) (e : Int) :
    overflows (if negative then -(n : Int) else (n : Int)) e = overflows (n : Int) e := by
  cases negative
  · rfl
  · simp only [if_true]
    exact overflows_neg _ _

theorem underflows_sign (negative : Bool) (n : Nat) (e : Int) :
    underflows (if negative then -(n : Int) else (n : Int)) e = underflows (n : Int) e := by
  cases negative
  · rfl
  · simp only [if_true]
    exact underflows_neg _ _

/-- An integer literal: the integer, when it is in range. -/
theorem mkNumber_zero (negative : Bool) (n : Nat)
    (h : overflows (if negative then -(n : Int) else (n : Int)) 0 = false)
    (hneg : negative = true → n ≠ 0) :
    mkNumber negative n 0 = .num (if negative then -(n : Int) else (n : Int)) := by
  rw [overflows_sign] at h
  unfold mkNumber
  rw [h]
  by_cases hn : n = 0
  · subst hn
    cases negative
    · simp [underflows]
    · exact absurd rfl (hneg rfl)
  · have hu : underflows (n : Int) 0 = false := by
      simp [underflows, hn]
    simp [hu]

theorem parseUnsigned_natToString (negative : Bool) (n : Nat) (rest : List Char)
    (h : Delim rest) (ho : overflows (if negative then -(n : Int) else (n : Int)) 0 = false)
    (hneg : negative = true → n ≠ 0) :
    parseUnsigned negative (natToString n ++ rest) =
      some (.num (if negative then -(n : Int) else (n : Int)), rest) := by
  have hval : natOfDigits (natToString n) = n :=
    (natDigits_spec (n + 1) n (Nat.lt_succ_self n)).2.2.1
  unfold parseUnsigned
  rw [parseIntPart_natToString n rest h]
  simp only [parseFraction_delim h, parseExponent_delim h, List.append_nil, hval,
    List.length_nil, Int.Nat.cast_ofNat_Int, sub_zero, mkNumber_zero negative n ho hneg]

theorem natToString_head (n : Nat) :
    ∃ c t, natToString n = c :: t ∧ isDigit c = true := by
  obtain ⟨hne, hall, _, _⟩ := natDigits_spec (n + 1) n (Nat.lt_succ_self n)
  unfold natToString
  cases hd : natDigits (n + 1) n with
  | nil => exact absurd hd hne
  | cons c t =>
    rw [hd] at hall
    exact ⟨c, t, rfl, hall c (List.mem_cons_self _ _)⟩

theorem parseNumber_intToString (z : Int) (rest : List Char) (h : Delim rest)
    (ho : overflows z 0 = false) :
    parseNumber (intToString z ++ rest) = some (.num z, rest) := by
  unfold intToString
  by_cases hz : z < 0
  · rw [if_pos hz]
    have hz' : -((z.natAbs : Nat) : Int) = z := by omega
    have hp := parseUnsigned_natToString true z.natAbs rest h
      (by simp only [if_true, hz']; exact ho) (fun _ => by omega)
    simp only [if_true, hz'] at hp
    simp only [List.cons_append, parseNumber]
    exact hp
  · rw [if_neg hz]
    have hz' : ((z.natAbs : Nat) : Int) = z := by omega
    have hp := parseUnsigned_natToString false z.natAbs rest h
      (by simp only [Bool.false_eq_true, if_false, hz']; exact ho) (fun hf => by cases hf)
    simp only [Bool.false_eq_true, if_false, hz'] at hp
    obtain ⟨c, t, hct, hcd⟩ := natToString_head z.natAbs
    rw [hct] at hp ⊢
    have hne : c ≠ '-' := by
      intro he
      rw [he] at hcd
      exact absurd hcd (by decide)
    simp only [List.cons_append] at hp ⊢
    rw [parseNumber.eq_def]
    simp [hne, hp]

theorem skipWs_blank (lead rest : List Char) (h : Blank lead) :
    skipWs (lead ++ rest) = skipWs rest := by
  induction lead with
  | nil => rfl
  | cons c t ih =>
    have hc : isWs c = true := h c (List.mem_cons_self _ _)
    have ht : Blank t := fun x hx => h x (List.mem_cons_of_mem _ hx)
    simp [skipWs, hc, ih ht]

theorem skipWs_cons (c : Char) (rest : List Char) (h : isWs c = false) :
    skipWs (c :: rest) = c :: rest := by
  simp [skipWs, h]

theorem skipWs_lead (lead : List Char) (c : Char) (rest : List Char) (hl : Blank lead)
    (h : isWs c = false) : skipWs (lead ++ c :: rest) = c :: rest := by
  rw [skipWs_blank lead _ hl, skipWs_cons c rest h]

theorem parseValue_str (f : Nat) (lead rest : List Char) (s : String) (hl : Blank lead) :
    parseValue (f + 1) (lead ++ quote s ++ rest) = some (.str s, rest) := by
  unfold quote
  simp only [List.append_assoc, List.cons_append]
  rw [parseValue, skipWs_lead lead '"' _ hl (by decide)]
  simp [parseChars_quoteChars]

theorem parseValue_null (f : Nat) (lead rest : List Char) (hl : Blank lead) :
    parseValue (f + 1) (lead ++ ['n', 'u', 'l', 'l'] ++ rest) = some (.null, rest) := by
  simp only [List.append_assoc, List.cons_append, List.nil_append]
  rw [parseValue, skipWs_lead lead 'n' _ hl (by decide)]
  simp [parseLiteral, dropLiteral]

theorem parseValue_true (f : Nat) (lead rest : List Char) (hl : Blank lead) :
    parseValue (f + 1) (lead ++ ['t', 'r', 'u', 'e'] ++ rest) = some (.bool true, rest) := by
  simp only [List.append_assoc, List.cons_append, List.nil_append]
  rw [parseValue, skipWs_lead lead 't' _ hl (by decide)]
  simp [parseLiteral, dropLiteral]

theorem parseValue_false (f : Nat) (lead rest : List Char) (hl : Blank lead) :
    parseValue (f + 1) (lead ++ ['f', 'a', 'l', 's', 'e'] ++ rest) = some (.bool false, rest) := by
  simp only [List.append_assoc, List.cons_append, List.nil_append]
  rw [parseValue, skipWs_lead lead 'f' _ hl (by decide)]
  simp [parseLiteral, dropLiteral]

theorem ne_of_isDigit (c d : Char) (hc : isDigit c = true) (hd : isDigit d = false) : c ≠ d := by
  intro h
  rw [h, hd] at hc
  cases hc

theorem NumberStart.ne {c : Char} (h : NumberStart c) (d : Char) (hd : isDigit d = false)
    (hm : d ≠ '-') : c ≠ d := by
  rcases h with h | h
  · rw [h]
    exact fun he => hm he.symm
  · exact ne_of_isDigit c d h hd

theorem NumberStart.not_ws {c : Char} (h : NumberStart c) : isWs c = false := by
  have h1 := h.ne ' ' (by decide) (by decide)
  have h2 := h.ne '\t' (by decide) (by decide)
  have h3 := h.ne '\n' (by decide) (by decide)
  have h4 := h.ne '\r' (by decide) (by decide)
  simp [isWs, h1, h2, h3, h4]

theorem parseValue_numberStart (f : Nat) (lead : List Char) (c : Char) (t : List Char)
    (hl : Blank lead) (hc : NumberStart c) :
    parseValue (f + 1) (lead ++ c :: t) = parseNumber (c :: t) := by
  have h1 := hc.ne '"' (by decide) (by decide)
  have h2 := hc.ne '[' (by decide) (by decide)
  have h3 := hc.ne '{' (by decide) (by decide)
  have h4 := hc.ne 'n' (by decide) (by decide)
  have h5 := hc.ne 't' (by decide) (by decide)
  have h6 := hc.ne 'f' (by decide) (by decide)
  rw [parseValue, skipWs_lead lead c t hl hc.not_ws]
  simp [h1, h2, h3, parseLiteral, dropLiteral, Ne.symm h4, Ne.symm h5, Ne.symm h6]

theorem intToString_head (z : Int) : ∃ c t, intToString z = c :: t ∧ NumberStart c := by
  unfold intToString
  by_cases hz : z < 0
  · rw [if_pos hz]
    exact ⟨'-', _, rfl, Or.inl rfl⟩
  · rw [if_neg hz]
    obtain ⟨c, t, h, hd⟩ := natToString_head z.natAbs
    exact ⟨c, t, h, Or.inr hd⟩

theorem parseValue_num (f : Nat) (lead rest : List Char) (z : Int) (hl : Blank lead)
    (hr : Delim rest) (ho : overflows z 0 = false) :
    parseValue (f + 1) (lead ++ intToString z ++ rest) = some (.num z, rest) := by
  have hp := parseNumber_intToString z rest hr ho
  obtain ⟨c, t, h, hc⟩ := intToString_head z
  rw [h] at hp ⊢
  simp only [List.append_assoc, List.cons_append] at hp ⊢
  rw [parseValue_numberStart f lead c _ hl hc, hp]

theorem natOfDigits_zeros (n : Nat) (ds : List Char) :
    natOfDigits (List.replicate n '0' ++ ds) = natOfDigits ds := by
  have h : ∀ n, List.foldl (fun n c => 10 * n + (c.toNat - 48)) 0 (List.replicate n '0') = 0 := by
    intro n
    induction n with
    | zero => rfl
    | succ k ih =>
      rw [List.replicate_succ, List.foldl_cons]
      exact ih
  unfold natOfDigits
  rw [List.foldl_append, h]

theorem normDec_of_mod (m : Int) (k : Nat) (hk : 0 < k) (hm : m % 10 ≠ 0) :
    normDec m k = .dec m (-(k : Int)) := by
  cases k with
  | zero => omega
  | succ j =>
    rw [normDec, if_neg hm]
    push_cast
    rfl

theorem mkNumber_dec (negative : Bool) (n : Nat) (e : Int) (he : e < 0)
    (hm : (if negative then -(n : Int) else (n : Int)) % 10 ≠ 0)
    (ho : overflows (if negative then -(n : Int) else (n : Int)) e = false)
    (hu : underflows (if negative then -(n : Int) else (n : Int)) e = false) :
    mkNumber negative n e = .dec (if negative then -(n : Int) else (n : Int)) e := by
  have hk : 0 < e.natAbs := by omega
  have hz : -((e.natAbs : Nat) : Int) = e := by omega
  rw [overflows_sign] at ho
  rw [underflows_sign] at hu
  rw [mkNumber, ho, hu, if_neg (by simp), if_neg (by simp), if_neg (by omega),
    normDec_of_mod _ _ hk hm, hz]

theorem mkNumber_of_dec (m e : Int) (he : e < 0) (hm : m % 10 ≠ 0)
    (ho : overflows m e = false) (hu : underflows m e = false) :
    mkNumber (decide (m < 0)) m.natAbs e = .dec m e := by
  by_cases hz : m < 0
  · have hz' : -((m.natAbs : Nat) : Int) = m := by omega
    have := mkNumber_dec true m.natAbs e he (by simp only [if_true, hz']; exact hm)
      (by simp only [if_true, hz']; exact ho) (by simp only [if_true, hz']; exact hu)
    simp only [if_true, hz'] at this
    simp only [hz, decide_True]
    exact this
  · have hz' : ((m.natAbs : Nat) : Int) = m := by omega
    have := mkNumber_dec false m.natAbs e he
      (by simp only [Bool.false_eq_true, if_false, hz']; exact hm)
      (by simp only [Bool.false_eq_true, if_false, hz']; exact ho)
      (by simp only [Bool.false_eq_true, if_false, hz']; exact hu)
    simp only [Bool.false_eq_true, if_false, hz'] at this
    simp only [hz, decide_False]
    exact this

/-- The digits of `decToString`: the digits of the magnitude after enough
zeros to have one digit before the point. -/
theorem padded_spec (m e : Int) :
    let k := e.natAbs
    let ds := natToString m.natAbs
    let padded := List.replicate (k + 1 - ds.length) '0' ++ ds
    k + 1 ≤ padded.length ∧ (∀ c ∈ padded, isDigit c = true) ∧
      natOfDigits padded = m.natAbs := by
  intro k ds padded
  obtain ⟨_, hall, hval, _⟩ := natDigits_spec (m.natAbs + 1) m.natAbs (Nat.lt_succ_self _)
  refine ⟨?_, ?_, ?_⟩
  · simp only [padded, List.length_append, List.length_replicate]
    omega
  · intro c hc
    rcases List.mem_append.1 hc with h | h
    · rw [(List.mem_replicate.1 h).2]
      decide
    · exact hall c h
  · show natOfDigits (List.replicate _ '0' ++ natToString m.natAbs) = m.natAbs
    rw [natOfDigits_zeros]
    exact hval

theorem parseUnsigned_decimal (negative : Bool) (m e : Int) (rest : List Char) (h : Delim rest)
    (he : e < 0) (hm : m % 10 ≠ 0) :
    let ds := natToString m.natAbs
    let padded := List.replicate (e.natAbs + 1 - ds.length) '0' ++ ds
    parseUnsigned negative
        (padded.take (padded.length - e.natAbs) ++
          '.' :: (padded.drop (padded.length - e.natAbs) ++ rest)) =
      some (mkNumber negative m.natAbs e, rest) := by
  intro ds padded
  obtain ⟨hlen, hall, hval⟩ := padded_spec m e
  obtain ⟨hne, hdall, hdval, hhead⟩ :=
    natDigits_spec (m.natAbs + 1) m.natAbs (Nat.lt_succ_self _)
  have hk : 0 < e.natAbs := by omega
  have hm0 : m.natAbs ≠ 0 := by
    intro h0
    have : m = 0 := Int.natAbs_eq_zero.1 h0
    rw [this] at hm
    exact hm rfl
  have hfrac : ∀ c ∈ padded.drop (padded.length - e.natAbs), isDigit c = true :=
    fun c hc => hall c (List.mem_of_mem_drop hc)
  have hint : ∀ c ∈ padded.take (padded.length - e.natAbs), isDigit c = true :=
    fun c hc => hall c (List.mem_of_mem_take hc)
  have hfl : (padded.drop (padded.length - e.natAbs)).length = e.natAbs := by
    rw [List.length_drop]
    have : e.natAbs + 1 ≤ padded.length := hlen
    omega
  have hfne : padded.drop (padded.length - e.natAbs) ≠ [] := by
    intro h0
    rw [h0] at hfl
    simp at hfl
    omega
  -- the integer part
  have hip : parseIntPart (padded.take (padded.length - e.natAbs) ++
        '.' :: (padded.drop (padded.length - e.natAbs) ++ rest)) =
      some (padded.take (padded.length - e.natAbs),
        '.' :: (padded.drop (padded.length - e.natAbs) ++ rest)) := by
    by_cases hL : ds.length ≤ e.natAbs
    · -- one zero before the point
      have hp : padded = '0' :: (List.replicate (e.natAbs - ds.length) '0' ++ ds) := by
        show List.replicate (e.natAbs + 1 - ds.length) '0' ++ ds = _
        have : e.natAbs + 1 - ds.length = (e.natAbs - ds.length) + 1 := by omega
        rw [this, List.replicate_succ]
        rfl
      have hpl : padded.length - e.natAbs = 1 := by
        have : padded.length = e.natAbs + 1 := by
          show (List.replicate (e.natAbs + 1 - ds.length) '0' ++ ds).length = _
          rw [List.length_append, List.length_replicate]
          omega
        omega
      rw [hpl, hp]
      simp [parseIntPart]
    · -- the leading digits of the magnitude
      have hp : padded = ds := by
        show List.replicate (e.natAbs + 1 - ds.length) '0' ++ ds = ds
        have : e.natAbs + 1 - ds.length = 0 := by omega
        rw [this]
        rfl
      have hpos : 0 < padded.length - e.natAbs := by
        have : e.natAbs + 1 ≤ padded.length := hlen
        omega
      cases hd : padded.take (padded.length - e.natAbs) with
      | nil =>
        have := congrArg List.length hd
        rw [List.length_take] at this
        simp at this
        omega
      | cons c t =>
        have hcd : isDigit c = true := hint c (by rw [hd]; exact List.mem_cons_self _ _)
        have hc0 : c ≠ '0' := by
          intro hc0
          cases hds : ds with
          | nil => exact hne hds
          | cons c1 t1 =>
            have hc1 : c1 = c := by
              have h1 : (padded.take (padded.length - e.natAbs)).head? = some c := by
                rw [hd]
                rfl
              rw [hp, hds] at h1
              cases hn : (c1 :: t1).length - e.natAbs with
              | zero => rw [hp, hds] at hpos; omega
              | succ j =>
                rw [hn] at h1
                simpa using h1
            have := (hhead c1 t1 hds (hc1.trans hc0)).1
            exact hm0 this
        have hsp := spanDigits_append (c :: t)
          ('.' :: (padded.drop (padded.length - e.natAbs) ++ rest))
          (by rw [← hd]; exact hint) (by
            intro c2 r2 hr2
            simp only [List.cons.injEq] at hr2
            rw [← hr2.1]
            decide)
        simp only [List.cons_append] at hsp ⊢
        simp [parseIntPart, hc0, hcd, hsp]
  have hfp : parseFraction ('.' :: (padded.drop (padded.length - e.natAbs) ++ rest)) =
      some (padded.drop (padded.length - e.natAbs), rest) := by
    have hsp := spanDigits_append (padded.drop (padded.length - e.natAbs)) rest hfrac h.not_digit
    rw [parseFraction.eq_def]
    simp only [hsp]
  unfold parseUnsigned
  rw [hip]
  simp only [hfp, parseExponent_delim h, List.take_append_drop, hval, hfl, zero_sub]
  have hz : -((e.natAbs : Nat) : Int) = e := by omega
  rw [hz]

theorem parseNumber_decToString (m e : Int) (rest : List Char) (h : Delim rest)
    (he : e < 0) (hm : m % 10 ≠ 0) (ho : overflows m e = false)
    (hu : underflows m e = false) :
    parseNumber (decToString m e ++ rest) = some (.dec m e, rest) := by
  have hmk := mkNumber_of_dec m e he hm ho hu
  unfold decToString
  by_cases hz : m < 0
  · have hp := parseUnsigned_decimal true m e rest h he hm
    simp only [hz, decide_True] at hmk
    simp only [hz, if_true, List.cons_append, List.append_assoc, parseNumber]
    rw [hp, hmk]
  · have hp := parseUnsigned_decimal false m e rest h he hm
    dsimp only at hp
    simp only [hz, decide_False] at hmk
    simp only [hz, if_false]
    obtain ⟨hlen, hall, _⟩ := padded_spec m e
    cases hd : (List.replicate (e.natAbs + 1 - (natToString m.natAbs).length) '0' ++
        natToString m.natAbs).take
        ((List.replicate (e.natAbs + 1 - (natToString m.natAbs).length) '0' ++
          natToString m.natAbs).length - e.natAbs) with
    | nil =>
      have := congrArg List.length hd
      rw [List.length_take] at this
      simp only [List.length_nil] at this
      have h2 := hlen
      simp only at h2
      omega
    | cons c t =>
      have hcd : isDigit c = true :=
        hall c (List.mem_of_mem_take (by rw [hd]; exact List.mem_cons_self _ _))
      have hne : c ≠ '-' := by
        intro he1
        rw [he1] at hcd
        exact absurd hcd (by decide)
      rw [hd] at hp
      simp only [List.cons_append, List.append_assoc] at hp ⊢
      generalize List.drop _ _ = fr at hp ⊢
      rw [parseNumber.eq_def]
      simp [hne, hp, hmk]

theorem decToString_head (m e : Int) : ∃ c t, decToString m e = c :: t ∧ NumberStart c := by
  unfold decToString
  by_cases hz : m < 0
  · simp only [hz, if_true]
    exact ⟨'-', _, rfl, Or.inl rfl⟩
  · simp only [hz, if_false]
    obtain ⟨hlen, hall, _⟩ := padded_spec m e
    cases hd : (List.replicate (e.natAbs + 1 - (natToString m.natAbs).length) '0' ++
        natToString m.natAbs).take
        ((List.replicate (e.natAbs + 1 - (natToString m.natAbs).length) '0' ++
          natToString m.natAbs).length - e.natAbs) with
    | nil =>
      have := congrArg List.length hd
      rw [List.length_take] at this
      simp only [List.length_nil] at this
      have h2 := hlen
      simp only at h2
      omega
    | cons c t =>
      exact ⟨c, _, rfl, Or.inr
        (hall c (List.mem_of_mem_take (by rw [hd]; exact List.mem_cons_self _ _)))⟩

theorem parseValue_decimal (f : Nat) (lead rest : List Char) (m e : Int) (hl : Blank lead)
    (hr : Delim rest) (he : e < 0) (hm : m % 10 ≠ 0) (ho : overflows m e = false)
    (hu : underflows m e = false) :
    parseValue (f + 1) (lead ++ decToString m e ++ rest) = some (.dec m e, rest) := by
  have hp := parseNumber_decToString m e rest hr he hm ho hu
  obtain ⟨c, t, h, hc⟩ := decToString_head m e
  rw [h] at hp ⊢
  simp only [List.append_assoc, List.cons_append] at hp ⊢
  rw [parseValue_numberStart f lead c _ hl hc, hp]

theorem parseValue_arr_empty (f : Nat) (lead rest : List Char) (hl : Blank lead) :
    parseValue (f + 1) (lead ++ '[' :: ']' :: rest) = some (.arr [], rest) := by
  rw [parseValue, skipWs_lead lead '[' _ hl (by decide)]
  simp [skipWs, isWs]

theorem parseValue_obj_empty (f : Nat) (lead rest : List Char) (hl : Blank lead) :
    parseValue (f + 1) (lead ++ '{' :: '}' :: rest) = some (.obj [], rest) := by
  rw [parseValue, skipWs_lead lead '{' _ hl (by decide)]
  simp [skipWs, isWs]

theorem parseValue_arr (f : Nat) (lead lead2 : List Char) (c : Char) (body : List Char)
    (hl : Blank lead) (hl2 : Blank lead2) (hws : isWs c = false) (hc : c ≠ ']') :
    parseValue (f + 1) (lead ++ '[' :: (lead2 ++ c :: body)) =
      (parseElems f (c :: body)).map (fun p => (JSValue.arr p.1, p.2)) := by
  rw [parseValue, skipWs_lead lead '[' _ hl (by decide)]
  simp [skipWs_lead lead2 c body hl2 hws, hc]

theorem parseValue_obj (f : Nat) (lead lead2 : List Char) (c : Char) (body : List Char)
    (hl : Blank lead) (hl2 : Blank lead2) (hws : isWs c = false) (hc : c ≠ '}') :
    parseValue (f + 1) (lead ++ '{' :: (lead2 ++ c :: body)) =
      (parseMembers f (c :: body)).map (fun p => (JSValue.obj (mkObject p.1), p.2)) := by
  rw [parseValue, skipWs_lead lead '{' _ hl (by decide)]
  simp [skipWs_lead lead2 c body hl2 hws, hc]

theorem Closing.delim {cl : List Char} (h : Closing cl) (c : Char) (r : List Char)
    (hc : c = ']' ∨ c = '}') : Delim (cl ++ c :: r) := by
  rcases h.2 with h0 | ⟨t, ht⟩
  · rw [h0]
    rcases hc with hc | hc
    · exact Or.inr ⟨c, r, rfl, Or.inr (Or.inr (Or.inl hc))⟩
    · exact Or.inr ⟨c, r, rfl, Or.inr (Or.inr (Or.inr hc))⟩
  · rw [ht]
    exact Or.inr ⟨'\n', t ++ c :: r, rfl, Or.inr (Or.inl rfl)⟩

theorem serialize_obj_nil (gap indent : List Char) :
    serialize gap indent (.obj []) = ['{', '}'] := by
  rw [serialize]
  by_cases h : gap = [] <;> simp [h, serializeMembers]

theorem Canonical.defined {v : JSValue} (h : Canonical v) : v ≠ .undefined := by
  intro he
  rw [he] at h
  simp [Canonical] at h

/-- The text of the members that start with a property that has a value: the
member, and after a separator the members that follow, if any. -/
theorem serializeMembers_cons (gap indent : List Char) (k : String) (v : JSValue)
    (kvs : List (String × JSValue)) (hv : v ≠ .undefined) :
    serializeMembers gap indent ((k, v) :: kvs) =
      match serializeMembers gap indent kvs with
      | [] => quote k ++ ':' :: (if gap = [] then [] else [' ']) ++ serialize gap indent v
      | c :: rest =>
        quote k ++ ':' :: (if gap = [] then [] else [' ']) ++ serialize gap indent v
          ++ separator gap indent ++ c :: rest := by
  cases v with
  | undefined => exact absurd rfl hv
  | null =>
    rw [serializeMembers]
    exact fun h => JSValue.noConfusion h
  | bool b =>
    rw [serializeMembers]
    exact fun h => JSValue.noConfusion h
  | num n =>
    rw [serializeMembers]
    exact fun h => JSValue.noConfusion h
  | dec m e =>
    rw [serializeMembers]
    exact fun h => JSValue.noConfusion h
  | negZero =>
    rw [serializeMembers]
    exact fun h => JSValue.noConfusion h
  | inf negative =>
    rw [serializeMembers]
    exact fun h => JSValue.noConfusion h
  | str s =>
    rw [serializeMembers]
    exact fun h => JSValue.noConfusion h
  | arr xs =>
    rw [serializeMembers]
    exact fun h => JSValue.noConfusion h
  | obj xs =>
    rw [serializeMembers]
    exact fun h => JSValue.noConfusion h

theorem serializeMembers_head (gap indent : List Char) (k : String) (v : JSValue)
    (kvs : List (String × JSValue)) (hv : v ≠ .undefined) :
    ∃ t, serializeMembers gap indent ((k, v) :: kvs) = '"' :: t := by
  rw [serializeMembers_cons gap indent k v kvs hv]
  cases serializeMembers gap indent kvs with
  | nil => exact ⟨_, by rw [quote]; rfl⟩
  | cons c rest => exact ⟨_, by rw [quote]; rfl⟩

theorem serializeMembers_one (gap indent : List Char) (k : String) (v : JSValue)
    (hv : v ≠ .undefined) :
    serializeMembers gap indent [(k, v)] =
      quote k ++ ':' :: (if gap = [] then [] else [' ']) ++ serialize gap indent v := by
  rw [serializeMembers_cons gap indent k v [] hv, serializeMembers]

theorem serializeMembers_two (gap indent : List Char) (k : String) (v : JSValue)
    (y : String × JSValue) (kvs : List (String × JSValue)) (hv : v ≠ .undefined)
    (hy : y.2 ≠ .undefined) :
    serializeMembers gap indent ((k, v) :: y :: kvs) =
      quote k ++ ':' :: (if gap = [] then [] else [' ']) ++ serialize gap indent v
        ++ separator gap indent ++ serializeMembers gap indent (y :: kvs) := by
  obtain ⟨t, ht⟩ := serializeMembers_head gap indent y.1 y.2 kvs hy
  rw [serializeMembers_cons gap indent k v (y :: kvs) hv, ht]

theorem serialize_obj_of_head (gap indent : List Char) (k : String) (v : JSValue)
    (kvs : List (String × JSValue)) (hv : v ≠ .undefined) :
    serialize gap indent (.obj ((k, v) :: kvs)) =
      if gap = [] then '{' :: serializeMembers gap indent ((k, v) :: kvs) ++ ['}']
      else '{' :: '\n' :: (indent ++ gap) ++ serializeMembers gap (indent ++ gap) ((k, v) :: kvs)
        ++ '\n' :: indent ++ ['}'] := by
  rw [serialize]
  by_cases h : gap = []
  · obtain ⟨t, ht⟩ := serializeMembers_head gap indent k v kvs hv
    simp only [if_pos h, ht]
  · obtain ⟨t, ht⟩ := serializeMembers_head gap (indent ++ gap) k v kvs hv
    simp only [if_neg h, ht]

theorem serialize_head (gap indent : List Char) (v : JSValue) (hv : Canonical v) :
    ∃ c t, serialize gap indent v = c :: t ∧ isWs c = false ∧ c ≠ ']' ∧ c ≠ '}' := by
  cases v with
  | null => exact ⟨'n', _, by rw [serialize], by decide, by decide, by decide⟩
  | bool b =>
    cases b
    · exact ⟨'f', ['a', 'l', 's', 'e'], by simp [serialize], by decide, by decide, by decide⟩
    · exact ⟨'t', ['r', 'u', 'e'], by simp [serialize], by decide, by decide, by decide⟩
  | num n =>
    obtain ⟨c, t, h, hc⟩ := intToString_head n
    exact ⟨c, t, by rw [serialize, h], hc.not_ws, hc.ne ']' (by decide) (by decide),
      hc.ne '}' (by decide) (by decide)⟩
  | dec m e =>
    obtain ⟨c, t, h, hc⟩ := decToString_head m e
    exact ⟨c, t, by rw [serialize, h], hc.not_ws, hc.ne ']' (by decide) (by decide),
      hc.ne '}' (by decide) (by decide)⟩
  | inf negative => exact absurd hv (by simp [Canonical])
  | negZero => exact absurd hv (by simp [Canonical])
  | undefined => exact absurd hv (by simp [Canonical])
  | str s => exact ⟨'"', _, by rw [serialize, quote], by decide, by decide, by decide⟩
  | arr xs =>
    cases xs with
    | nil => exact ⟨'[', _, by rw [serialize], by decide, by decide, by decide⟩
    | cons x t =>
      by_cases hg : gap = []
      · exact ⟨'[', _, by rw [serialize]; simp only [hg, if_true]; rfl, by decide, by decide,
          by decide⟩
      · exact ⟨'[', _, by rw [serialize]; simp only [hg, if_false]; rfl, by decide, by decide,
          by decide⟩
  | obj kvs =>
    cases kvs with
    | nil => exact ⟨'{', _, serialize_obj_nil gap indent, by decide, by decide, by decide⟩
    | cons x t =>
      obtain ⟨k, v⟩ := x
      have hd : v ≠ .undefined := by
        simp only [Canonical, CanonicalMembers] at hv
        exact hv.2.1.defined
      by_cases hg : gap = []
      · exact ⟨'{', _, by rw [serialize_obj_of_head gap indent k v t hd]; simp only [hg, if_true]; rfl,
          by decide, by decide, by decide⟩
      · exact ⟨'{', _, by rw [serialize_obj_of_head gap indent k v t hd]; simp only [hg, if_false]; rfl,
          by decide, by decide, by decide⟩

theorem Blank.nil : Blank [] := fun _ h => by cases h

theorem Blank.append {a b : List Char} (ha : Blank a) (hb : Blank b) : Blank (a ++ b) := by
  intro c hc
  rcases List.mem_append.1 hc with h | h
  · exact ha c h
  · exact hb c h

theorem Blank.newline {a : List Char} (ha : Blank a) : Blank ('\n' :: a) := by
  intro c hc
  rcases List.mem_cons.1 hc with h | h
  · rw [h]
    decide
  · exact ha c h

/-- The text of a non-empty array: the bracket, white space, the items at the
inner indentation, white space, the bracket. -/
theorem serialize_arr_cons (gap indent : List Char) (x : JSValue) (xs : List JSValue)
    (hg : Blank gap) (hi : Blank indent) :
    ∃ lead2 ind cl, Blank lead2 ∧ Blank ind ∧ Closing cl ∧
      serialize gap indent (.arr (x :: xs)) =
        '[' :: (lead2 ++ (serializeElems gap ind (x :: xs) ++ (cl ++ [']']))) := by
  by_cases h : gap = []
  · refine ⟨[], indent, [], Blank.nil, hi, ⟨Blank.nil, Or.inl rfl⟩, ?_⟩
    rw [serialize]
    simp [h]
  · refine ⟨'\n' :: (indent ++ gap), indent ++ gap, '\n' :: indent,
      (hi.append hg).newline, hi.append hg, ⟨hi.newline, Or.inr ⟨indent, rfl⟩⟩, ?_⟩
    rw [serialize]
    simp [h]

/-- The text of a non-empty object. -/
theorem serialize_obj_cons (gap indent : List Char) (kv : String × JSValue)
    (kvs : List (String × JSValue)) (hg : Blank gap) (hi : Blank indent)
    (hd : kv.2 ≠ .undefined) :
    ∃ lead2 ind cl, Blank lead2 ∧ Blank ind ∧ Closing cl ∧
      serialize gap indent (.obj (kv :: kvs)) =
        '{' :: (lead2 ++ (serializeMembers gap ind (kv :: kvs) ++ (cl ++ ['}']))) := by
  obtain ⟨k, v⟩ := kv
  by_cases h : gap = []
  · refine ⟨[], indent, [], Blank.nil, hi, ⟨Blank.nil, Or.inl rfl⟩, ?_⟩
    rw [serialize_obj_of_head gap indent k v kvs hd]
    simp [h]
  · refine ⟨'\n' :: (indent ++ gap), indent ++ gap, '\n' :: indent,
      (hi.append hg).newline, hi.append hg, ⟨hi.newline, Or.inr ⟨indent, rfl⟩⟩, ?_⟩
    rw [serialize_obj_of_head gap indent k v kvs hd]
    simp [h]

theorem separator_eq (gap indent : List Char) (hi : Blank indent) :
    ∃ ws, Blank ws ∧ separator gap indent = ',' :: ws := by
  unfold separator
  by_cases h : gap = []
  · exact ⟨[], Blank.nil, by simp [h]⟩
  · exact ⟨'\n' :: indent, hi.newline, by simp [h]⟩

theorem colon_space (gap : List Char) :
    Blank (if gap = [] then ([] : List Char) else [' ']) := by
  by_cases h : gap = []
  · simp [h, Blank.nil]
  · simp only [h, if_false]
    intro c hc
    rw [List.mem_singleton] at hc
    rw [hc]
    decide

theorem serializeElems_head (gap indent : List Char) (x : JSValue) (xs : List JSValue)
    (hx : Canonical x) :
    ∃ c t, serializeElems gap indent (x :: xs) = c :: t ∧ isWs c = false ∧ c ≠ ']' := by
  obtain ⟨c, t, h, hws, hc, _⟩ := serialize_head gap indent x hx
  cases xs with
  | nil => exact ⟨c, t, by rw [serializeElems, h], hws, hc⟩
  | cons y ys => exact ⟨c, _, by rw [serializeElems, h]; rfl, hws, hc⟩

theorem parseElems_last (f : Nat) (cs cl r : List Char) (x : JSValue) (hcl : Closing cl)
    (h : parseValue f cs = some (x, cl ++ ']' :: r)) :
    parseElems (f + 1) cs = some ([x], r) := by
  rw [parseElems, h]
  simp [skipWs_lead cl ']' r hcl.1 (by decide)]

theorem parseElems_more (f : Nat) (cs more r : List Char) (x : JSValue) (xs : List JSValue)
    (h : parseValue f cs = some (x, ',' :: more))
    (hmore : parseElems f more = some (xs, r)) :
    parseElems (f + 1) cs = some (x :: xs, r) := by
  rw [parseElems, h]
  simp [skipWs_cons ',' more (by decide), hmore]

theorem parseMembers_last (f : Nat) (lead sp cs cl r : List Char) (k : String) (v : JSValue)
    (hl : Blank lead) (hcl : Closing cl)
    (h : parseValue f (sp ++ cs) = some (v, cl ++ '}' :: r)) :
    parseMembers (f + 1) (lead ++ quote k ++ ':' :: (sp ++ cs)) = some ([(k, v)], r) := by
  unfold quote
  simp only [List.append_assoc, List.cons_append]
  rw [parseMembers, skipWs_lead lead '"' _ hl (by decide)]
  simp [parseChars_quoteChars, skipWs_cons ':' _ (by decide), h,
    skipWs_lead cl '}' r hcl.1 (by decide)]

theorem parseMembers_more (f : Nat) (lead sp cs more r : List Char) (k : String) (v : JSValue)
    (kvs : List (String × JSValue)) (hl : Blank lead)
    (h : parseValue f (sp ++ cs) = some (v, ',' :: more))
    (hmore : parseMembers f more = some (kvs, r)) :
    parseMembers (f + 1) (lead ++ quote k ++ ':' :: (sp ++ cs)) = some ((k, v) :: kvs, r) := by
  unfold quote
  simp only [List.append_assoc, List.cons_append]
  rw [parseMembers, skipWs_lead lead '"' _ hl (by decide)]
  simp [parseChars_quoteChars, skipWs_cons ':' _ (by decide), h,
    skipWs_cons ',' more (by decide), hmore]

/-- Parsing the text of a canonical value gives the value back, with enough
fuel for the values it contains: for a value, for the items of an array up to
the closing bracket, and for the members of an object up to the closing
brace. -/
theorem parse_serialize_fuel (f : Nat) :
    (∀ v gap indent lead rest, Canonical v → nodes v ≤ f → Blank gap → Blank indent →
      Blank lead → Delim rest →
      parseValue f (lead ++ serialize gap indent v ++ rest) = some (v, rest)) ∧
    (∀ x xs gap indent lead cl r, CanonicalElems (x :: xs) → nodesElems (x :: xs) ≤ f →
      Blank gap → Blank indent → Blank lead → Closing cl →
      parseElems f (lead ++ serializeElems gap indent (x :: xs) ++ (cl ++ ']' :: r)) =
        some (x :: xs, r)) ∧
    (∀ kv kvs gap indent lead cl r, CanonicalMembers (kv :: kvs) →
      nodesMembers (kv :: kvs) ≤ f → Blank gap → Blank indent → Blank lead → Closing cl →
      parseMembers f (lead ++ serializeMembers gap indent (kv :: kvs) ++ (cl ++ '}' :: r)) =
        some (kv :: kvs, r)) := by
  induction f with
  | zero =>
    refine ⟨?_, ?_, ?_⟩
    · intro v gap indent lead rest _ hn
      cases v <;> simp [nodes] at hn
    · intro x xs gap indent lead cl r _ hn
      simp only [nodesElems] at hn
      omega
    · intro kv kvs gap indent lead cl r _ hn
      obtain ⟨k, v⟩ := kv
      simp only [nodesMembers] at hn
      omega
  | succ f ih =>
    obtain ⟨ihV, ihE, ihM⟩ := ih
    refine ⟨?_, ?_, ?_⟩
    · intro v gap indent lead rest hv hn hg hi hl hr
      cases v with
      | null =>
        rw [serialize]
        exact parseValue_null f lead rest hl
      | bool b =>
        cases b
        · have : serialize gap indent (.bool false) = ['f', 'a', 'l', 's', 'e'] := by
            simp [serialize]
          rw [this]
          exact parseValue_false f lead rest hl
        · have : serialize gap indent (.bool true) = ['t', 'r', 'u', 'e'] := by
            simp [serialize]
          rw [this]
          exact parseValue_true f lead rest hl
      | num n =>
        rw [serialize]
        exact parseValue_num f lead rest n hl hr (by simpa [Canonical] using hv)
      | dec m e =>
        rw [serialize]
        have hc : e < 0 ∧ m % 10 ≠ 0 ∧ overflows m e = false ∧ underflows m e = false := by
          simp only [Canonical] at hv
          exact hv
        exact parseValue_decimal f lead rest m e hl hr hc.1 hc.2.1 hc.2.2.1 hc.2.2.2
      | inf negative => exact absurd hv (by simp [Canonical])
      | negZero => exact absurd hv (by simp [Canonical])
      | undefined => exact absurd hv (by simp [Canonical])
      | str s =>
        rw [serialize]
        exact parseValue_str f lead rest s hl
      | arr xs =>
        cases xs with
        | nil =>
          rw [serialize]
          simpa using parseValue_arr_empty f lead rest hl
        | cons x xs =>
          obtain ⟨lead2, ind, cl, hl2, hind, hcl, htext⟩ :=
            serialize_arr_cons gap indent x xs hg hi
          have hcx : CanonicalElems (x :: xs) := by simpa [Canonical] using hv
          have hnx : nodesElems (x :: xs) ≤ f := by
            simp only [nodes] at hn
            omega
          obtain ⟨c, t, hhead, hws, hc⟩ :=
            serializeElems_head gap ind x xs (by simp only [CanonicalElems] at hcx; exact hcx.1)
          have hE := ihE x xs gap ind [] cl rest hcx hnx hg hind Blank.nil hcl
          rw [hhead] at hE
          rw [htext, hhead]
          have hshape : lead ++ '[' :: (lead2 ++ (c :: t ++ (cl ++ [']']))) ++ rest =
              lead ++ '[' :: (lead2 ++ c :: (t ++ (cl ++ ']' :: rest))) := by
            simp
          rw [hshape, parseValue_arr f lead lead2 c _ hl hl2 hws hc]
          simp only [List.nil_append, List.cons_append] at hE
          rw [hE]
          rfl
      | obj kvs =>
        cases kvs with
        | nil =>
          rw [serialize_obj_nil]
          simpa using parseValue_obj_empty f lead rest hl
        | cons kv kvs =>
          have hcan : mkObject (kv :: kvs) = kv :: kvs ∧ CanonicalMembers (kv :: kvs) := by
            simpa [Canonical] using hv
          have hkd : kv.2 ≠ .undefined := by
            have := hcan.2
            simp only [CanonicalMembers] at this
            exact this.1.defined
          obtain ⟨lead2, ind, cl, hl2, hind, hcl, htext⟩ :=
            serialize_obj_cons gap indent kv kvs hg hi hkd
          have hnx : nodesMembers (kv :: kvs) ≤ f := by
            simp only [nodes] at hn
            omega
          obtain ⟨t, hhead⟩ := serializeMembers_head gap ind kv.1 kv.2 kvs hkd
          have hM := ihM kv kvs gap ind [] cl rest hcan.2 hnx hg hind Blank.nil hcl
          rw [hhead] at hM
          rw [htext, hhead]
          have hshape : lead ++ '{' :: (lead2 ++ ('"' :: t ++ (cl ++ ['}']))) ++ rest =
              lead ++ '{' :: (lead2 ++ '"' :: (t ++ (cl ++ '}' :: rest))) := by
            simp
          rw [hshape, parseValue_obj f lead lead2 '"' _ hl hl2 (by decide) (by decide)]
          simp only [List.nil_append, List.cons_append] at hM
          rw [hM]
          simp [hcan.1]
    · intro x xs gap indent lead cl r hc hn hg hi hl hcl
      have hcx : Canonical x ∧ CanonicalElems xs := by simpa [CanonicalElems] using hc
      cases xs with
      | nil =>
        have hnx : nodes x ≤ f := by
          simp only [nodesElems] at hn
          omega
        have hV := ihV x gap indent lead (cl ++ ']' :: r) hcx.1 hnx hg hi hl
          (hcl.delim ']' r (Or.inl rfl))
        rw [serializeElems]
        exact parseElems_last f _ cl r x hcl hV
      | cons y ys =>
        have hnx : nodes x ≤ f ∧ nodesElems (y :: ys) ≤ f := by
          simp only [nodesElems] at hn ⊢
          omega
        obtain ⟨ws, hws, hsep⟩ := separator_eq gap indent hi
        have hE := ihE y ys gap indent ws cl r hcx.2 hnx.2 hg hi hws hcl
        have hV := ihV x gap indent lead
          (',' :: (ws ++ serializeElems gap indent (y :: ys) ++ (cl ++ ']' :: r)))
          hcx.1 hnx.1 hg hi hl (Or.inr ⟨',', _, rfl, Or.inl rfl⟩)
        rw [serializeElems, hsep]
        have hshape : lead ++ (serialize gap indent x ++ ',' :: ws ++
              serializeElems gap indent (y :: ys)) ++ (cl ++ ']' :: r) =
            lead ++ serialize gap indent x ++
              ',' :: (ws ++ serializeElems gap indent (y :: ys) ++ (cl ++ ']' :: r)) := by
          simp
        rw [hshape]
        exact parseElems_more f _ _ r x (y :: ys) hV hE
    · intro kv kvs gap indent lead cl r hc hn hg hi hl hcl
      obtain ⟨k, v⟩ := kv
      have hcx : Canonical v ∧ CanonicalMembers kvs := by simpa [CanonicalMembers] using hc
      cases kvs with
      | nil =>
        have hnx : nodes v ≤ f := by
          simp only [nodesMembers] at hn
          omega
        have hV := ihV v gap indent (if gap = [] then [] else [' ']) (cl ++ '}' :: r)
          hcx.1 hnx hg hi (colon_space gap) (hcl.delim '}' r (Or.inr rfl))
        rw [serializeMembers_one gap indent k v hcx.1.defined]
        have hshape : lead ++ (quote k ++ ':' :: (if gap = [] then [] else [' ']) ++
              serialize gap indent v) ++ (cl ++ '}' :: r) =
            lead ++ quote k ++ ':' :: ((if gap = [] then [] else [' ']) ++
              (serialize gap indent v ++ (cl ++ '}' :: r))) := by
          simp
        rw [hshape]
        rw [List.append_assoc] at hV
        exact parseMembers_last f lead _ _ cl r k v hl hcl hV
      | cons y ys =>
        have hnx : nodes v ≤ f ∧ nodesMembers (y :: ys) ≤ f := by
          simp only [nodesMembers] at hn ⊢
          omega
        obtain ⟨ws, hws, hsep⟩ := separator_eq gap indent hi
        have hM := ihM y ys gap indent ws cl r hcx.2 hnx.2 hg hi hws hcl
        have hV := ihV v gap indent (if gap = [] then [] else [' '])
          (',' :: (ws ++ serializeMembers gap indent (y :: ys) ++ (cl ++ '}' :: r)))
          hcx.1 hnx.1 hg hi (colon_space gap) (Or.inr ⟨',', _, rfl, Or.inl rfl⟩)
        have hyd : y.2 ≠ .undefined := by
          have := hcx.2
          simp only [CanonicalMembers] at this
          exact this.1.defined
        rw [serializeMembers_two gap indent k v y ys hcx.1.defined hyd, hsep]
        have hshape : lead ++ (quote k ++ ':' :: (if gap = [] then [] else [' ']) ++
              serialize gap indent v ++ ',' :: ws ++ serializeMembers gap indent (y :: ys)) ++
              (cl ++ '}' :: r) =
            lead ++ quote k ++ ':' :: ((if gap = [] then [] else [' ']) ++
              (serialize gap indent v ++
                ',' :: (ws ++ serializeMembers gap indent (y :: ys) ++ (cl ++ '}' :: r)))) := by
          simp
        rw [hshape]
        rw [List.append_assoc] at hV
        exact parseMembers_more f lead _ _ _ r k v (y :: ys) hl hV hM

theorem serialize_ne_nil_scalar (gap indent : List Char) (v : JSValue) :
    1 ≤ (serialize gap indent v).length := by
  cases v with
  | null => simp [serialize]
  | bool b => cases b <;> simp [serialize]
  | num n =>
    obtain ⟨c, t, h, _⟩ := intToString_head n
    rw [serialize, h]
    simp
  | dec m e =>
    rw [serialize]
    unfold decToString
    by_cases hm : m < 0
    · simp [hm]
    · simp only [hm, if_false, List.length_append, List.length_cons]
      omega
  | inf negative => simp [serialize]
  | negZero => simp [serialize]
  | undefined => simp [serialize]
  | str s =>
    rw [serialize, quote]
    simp
  | arr xs =>
    cases xs with
    | nil => simp [serialize]
    | cons x t =>
      rw [serialize]
      by_cases hg : gap = [] <;> simp [hg]
  | obj kvs =>
    rw [serialize]
    by_cases hg : gap = []
    · cases h : serializeMembers gap indent kvs <;> simp [hg, h]
    · cases h : serializeMembers gap (indent ++ gap) kvs <;> simp [hg, h]

/-- A canonical value has at most as many nodes as its text has characters. -/
theorem nodes_le_length (n : Nat) :
    (∀ v gap indent, Canonical v → nodes v ≤ n → Blank gap → Blank indent →
      nodes v ≤ (serialize gap indent v).length) ∧
    (∀ x xs gap indent, CanonicalElems (x :: xs) → nodesElems (x :: xs) ≤ n → Blank gap →
      Blank indent →
      nodesElems (x :: xs) ≤ (serializeElems gap indent (x :: xs)).length + 1) ∧
    (∀ kv kvs gap indent, CanonicalMembers (kv :: kvs) → nodesMembers (kv :: kvs) ≤ n →
      Blank gap → Blank indent →
      nodesMembers (kv :: kvs) ≤ (serializeMembers gap indent (kv :: kvs)).length + 1) := by
  induction n with
  | zero =>
    refine ⟨?_, ?_, ?_⟩
    · intro v gap indent _ hn
      cases v <;> simp [nodes] at hn
    · intro x xs gap indent _ hn
      simp only [nodesElems] at hn
      omega
    · intro kv kvs gap indent _ hn
      obtain ⟨k, v⟩ := kv
      simp only [nodesMembers] at hn
      omega
  | succ n ih =>
    obtain ⟨ihV, ihE, ihM⟩ := ih
    refine ⟨?_, ?_, ?_⟩
    · intro v gap indent hv hn hg hi
      cases v with
      | null => exact serialize_ne_nil_scalar gap indent _
      | bool b => exact serialize_ne_nil_scalar gap indent _
      | num z => exact serialize_ne_nil_scalar gap indent _
      | dec m e => exact serialize_ne_nil_scalar gap indent _
      | inf negative => exact serialize_ne_nil_scalar gap indent _
      | negZero => exact serialize_ne_nil_scalar gap indent _
      | undefined => exact serialize_ne_nil_scalar gap indent _
      | str s => exact serialize_ne_nil_scalar gap indent _
      | arr xs =>
        cases xs with
        | nil => simp [serialize, nodes, nodesElems]
        | cons x xs =>
          obtain ⟨lead2, ind, cl, _, hind, _, htext⟩ := serialize_arr_cons gap indent x xs hg hi
          have hnx : nodesElems (x :: xs) ≤ n := by
            simp only [nodes] at hn
            omega
          have := ihE x xs gap ind (by simpa [Canonical] using hv) hnx hg hind
          rw [htext]
          simp only [nodes, List.length_cons, List.length_append, List.length_nil]
          omega
      | obj kvs =>
        cases kvs with
        | nil => simp [serialize_obj_nil, nodes, nodesMembers]
        | cons kv kvs =>
          have hcan : CanonicalMembers (kv :: kvs) := by
            simp only [Canonical] at hv
            exact hv.2
          have hkd : kv.2 ≠ .undefined := by
            have := hcan
            simp only [CanonicalMembers] at this
            exact this.1.defined
          obtain ⟨lead2, ind, cl, _, hind, _, htext⟩ :=
            serialize_obj_cons gap indent kv kvs hg hi hkd
          have hnx : nodesMembers (kv :: kvs) ≤ n := by
            simp only [nodes] at hn
            omega
          have := ihM kv kvs gap ind hcan hnx hg hind
          rw [htext]
          simp only [nodes, List.length_cons, List.length_append, List.length_nil]
          omega
    · intro x xs gap indent hc hn hg hi
      have hcx : Canonical x ∧ CanonicalElems xs := by simpa [CanonicalElems] using hc
      cases xs with
      | nil =>
        have hnx : nodes x ≤ n := by
          simp only [nodesElems] at hn
          omega
        have := ihV x gap indent hcx.1 hnx hg hi
        simp only [nodesElems, serializeElems]
        omega
      | cons y ys =>
        have hnx : nodes x ≤ n ∧ nodesElems (y :: ys) ≤ n := by
          simp only [nodesElems] at hn ⊢
          omega
        have h1 := ihV x gap indent hcx.1 hnx.1 hg hi
        have h2 := ihE y ys gap indent hcx.2 hnx.2 hg hi
        obtain ⟨ws, _, hsep⟩ := separator_eq gap indent hi
        rw [serializeElems, hsep]
        simp only [nodesElems, List.length_cons, List.length_append] at h2 ⊢
        omega
    · intro kv kvs gap indent hc hn hg hi
      obtain ⟨k, v⟩ := kv
      have hcx : Canonical v ∧ CanonicalMembers kvs := by simpa [CanonicalMembers] using hc
      cases kvs with
      | nil =>
        have hnx : nodes v ≤ n := by
          simp only [nodesMembers] at hn
          omega
        have := ihV v gap indent hcx.1 hnx hg hi
        rw [serializeMembers_one gap indent k v hcx.1.defined]
        simp only [nodesMembers, List.length_cons, List.length_append]
        omega
      | cons y ys =>
        have hnx : nodes v ≤ n ∧ nodesMembers (y :: ys) ≤ n := by
          simp only [nodesMembers] at hn ⊢
          omega
        have h1 := ihV v gap indent hcx.1 hnx.1 hg hi
        have h2 := ihM y ys gap indent hcx.2 hnx.2 hg hi
        obtain ⟨ws, _, hsep⟩ := separator_eq gap indent hi
        have hyd : y.2 ≠ .undefined := by
          have := hcx.2
          simp only [CanonicalMembers] at this
          exact this.1.defined
        rw [serializeMembers_two gap indent k v y ys hcx.1.defined hyd, hsep]
        simp only [nodesMembers, List.length_cons, List.length_append] at h2 ⊢
        omega

/-- Parsing the text that `serialize` writes for a canonical value, with or
without a gap, gives the value back. -/
theorem parse_serialize (gap : List Char) (v : JSValue) (hg : Blank gap) (hv : Canonical v) :
    parse (String.mk (serialize gap [] v)) = .ok v := by
  have hlen := (nodes_le_length (nodes v)).1 v gap [] hv (Nat.le_refl _) hg Blank.nil
  have hp := (parse_serialize_fuel (2 * (serialize gap [] v).length + 2)).1 v gap [] [] []
    hv (by omega) hg Blank.nil Blank.nil (Or.inl rfl)
  simp only [List.nil_append, List.append_nil] at hp
  unfold parse
  simp only [String.length, hp, skipWs]

end JSON

/-! ## The fuel of `JSON.parse` is enough -/

namespace JSON

theorem skipWs_length (cs : List Char) : (skipWs cs).length ≤ cs.length := by
  induction cs with
  | nil => simp [skipWs]
  | cons c t ih =>
    by_cases h : isWs c = true
    · simp only [skipWs, h, if_true, List.length_cons]
      omega
    · simp [skipWs, h]

theorem parseUnits_length (n : Nat) : ∀ cs p, cs.length ≤ n → parseUnits cs = some p →
    p.2.length < cs.length := by
  induction n with
  | zero =>
    intro cs p hn h
    have : cs = [] := List.length_eq_zero.1 (Nat.le_zero.1 hn)
    subst this
    rw [parseUnits.eq_def] at h
    cases h
  | succ n ih =>
    intro cs p hn h
    rw [parseUnits.eq_def] at h
    cases cs with
    | nil => cases h
    | cons c rest =>
      simp only at h
      by_cases h1 : c = '"'
      · simp only [h1, if_true, Option.some.injEq] at h
        rw [← h]
        simp
      rw [if_neg h1] at h
      by_cases h2 : c = '\\'
      · rw [if_pos h2] at h
        cases rest with
        | nil => cases h
        | cons e rest1 =>
          simp only at h
          by_cases h3 : e = 'u'
          · rw [if_pos h3] at h
            rcases rest1 with _ | ⟨a, _ | ⟨b, _ | ⟨c2, _ | ⟨d, rest2⟩⟩⟩⟩
            · cases h
            · cases h
            · cases h
            · cases h
            · simp only at h
              cases hh : hex4 a b c2 d with
              | none =>
                rw [hh] at h
                cases h
              | some m =>
                rw [hh] at h
                simp only at h
                cases hp : parseUnits rest2 with
                | none =>
                  rw [hp] at h
                  cases h
                | some q =>
                  rw [hp] at h
                  simp only [Option.map_some', Option.some.injEq] at h
                  have := ih rest2 q (by simp only [List.length_cons] at hn; omega) hp
                  rw [← h]
                  simp only [List.length_cons]
                  omega
          · rw [if_neg h3] at h
            cases hu : unescape e with
            | none =>
              rw [hu] at h
              cases h
            | some ch =>
              rw [hu] at h
              simp only at h
              cases hp : parseUnits rest1 with
              | none =>
                rw [hp] at h
                cases h
              | some q =>
                rw [hp] at h
                simp only [Option.map_some', Option.some.injEq] at h
                have := ih rest1 q (by simp only [List.length_cons] at hn; omega) hp
                rw [← h]
                simp only [List.length_cons]
                omega
      · rw [if_neg h2] at h
        by_cases h4 : c.toNat < 32
        · rw [if_pos h4] at h
          cases h
        · rw [if_neg h4] at h
          cases hp : parseUnits rest with
          | none =>
            rw [hp] at h
            cases h
          | some q =>
            rw [hp] at h
            simp only [Option.map_some', Option.some.injEq] at h
            have := ih rest q (by simp only [List.length_cons] at hn; omega) hp
            rw [← h]
            simp only [List.length_cons]
            omega

theorem parseChars_length (cs : List Char) (p : List Char × List Char)
    (h : parseChars cs = some p) : p.2.length < cs.length := by
  unfold parseChars at h
  cases hp : parseUnits cs with
  | none =>
    rw [hp] at h
    cases h
  | some q =>
    rw [hp] at h
    simp only [Option.map_some', Option.some.injEq] at h
    rw [← h]
    exact parseUnits_length cs.length cs q (Nat.le_refl _) hp




theorem spanDigits_length (cs : List Char) :
    (spanDigits cs).2.length ≤ cs.length := by
  induction cs with
  | nil => simp [spanDigits]
  | cons c t ih =>
    by_cases h : isDigit c = true
    · simp only [spanDigits, h, if_true, List.length_cons]
      omega
    · simp [spanDigits, h]

theorem spanDigits_snd_length_of_eq (cs ds rest : List Char)
    (h : spanDigits cs = (ds, rest)) : rest.length ≤ cs.length := by
  have := spanDigits_length cs
  rw [h] at this
  exact this

theorem parseIntPart_length (cs : List Char) (p : List Char × List Char)
    (h : parseIntPart cs = some p) : p.2.length < cs.length := by
  cases cs with
  | nil => simp [parseIntPart] at h
  | cons c t =>
    simp only [parseIntPart] at h
    by_cases h0 : c = '0'
    · simp only [h0, if_true, Option.some.injEq] at h
      rw [← h]
      simp
    · rw [if_neg h0] at h
      by_cases hd : isDigit c = true
      · simp only [hd, if_true, Option.some.injEq] at h
        rw [← h]
        have := spanDigits_length t
        simp only [spanDigits, hd, if_true, List.length_cons]
        omega
      · simp [hd] at h

theorem parseFraction_length (cs : List Char) (p : List Char × List Char)
    (h : parseFraction cs = some p) : p.2.length ≤ cs.length := by
  rw [parseFraction.eq_def] at h
  split at h
  · rename_i cs1
    split at h
    · cases h
    · rename_i ds rest _ heq
      simp only [Option.some.injEq] at h
      have := spanDigits_snd_length_of_eq _ _ _ heq
      rw [← h]
      simp only [List.length_cons]
      omega
  · simp only [Option.some.injEq] at h
    rw [← h]

theorem parseExponent_length (cs : List Char) (p : Int × List Char)
    (h : parseExponent cs = some p) : p.2.length ≤ cs.length := by
  cases cs with
  | nil =>
    simp only [parseExponent, Option.some.injEq] at h
    rw [← h]
  | cons c t =>
    simp only [parseExponent] at h
    by_cases he : c = 'e' ∨ c = 'E'
    · rw [if_pos he] at h
      split at h
      · rename_i cs1
        split at h
        · cases h
        · rename_i ds rest _ heq
          simp only [Option.some.injEq] at h
          have := spanDigits_snd_length_of_eq _ _ _ heq
          rw [← h]
          simp only [List.length_cons]
          omega
      · rename_i cs1
        split at h
        · cases h
        · rename_i ds rest _ heq
          simp only [Option.some.injEq] at h
          have := spanDigits_snd_length_of_eq _ _ _ heq
          rw [← h]
          simp only [List.length_cons]
          omega
      · split at h
        · cases h
        · rename_i ds rest _ heq
          simp only [Option.some.injEq] at h
          have := spanDigits_snd_length_of_eq _ _ _ heq
          rw [← h]
          simp only [List.length_cons]
          omega
    · rw [if_neg he] at h
      simp only [Option.some.injEq] at h
      rw [← h]

theorem parseUnsigned_length (negative : Bool) (cs : List Char) (p : JSValue × List Char)
    (h : parseUnsigned negative cs = some p) : p.2.length < cs.length := by
  unfold parseUnsigned at h
  cases h1 : parseIntPart cs with
  | none => simp [h1] at h
  | some q1 =>
    cases h2 : parseFraction q1.2 with
    | none => simp [h1, h2] at h
    | some q2 =>
      cases h3 : parseExponent q2.2 with
      | none => simp [h1, h2, h3] at h
      | some q3 =>
        simp only [h1, h2, h3, Option.some.injEq] at h
        have a := parseIntPart_length cs q1 h1
        have b := parseFraction_length q1.2 q2 h2
        have c := parseExponent_length q2.2 q3 h3
        rw [← h]
        simp only
        omega

theorem parseNumber_length (cs : List Char) (p : JSValue × List Char)
    (h : parseNumber cs = some p) : p.2.length < cs.length := by
  rw [parseNumber.eq_def] at h
  split at h
  · have := parseUnsigned_length true _ p h
    simp only [List.length_cons]
    omega
  · exact parseUnsigned_length false _ p h

theorem dropLiteral_length (lit cs r : List Char) (h : dropLiteral lit cs = some r) :
    r.length + lit.length = cs.length := by
  induction lit generalizing cs with
  | nil =>
    simp only [dropLiteral, Option.some.injEq] at h
    rw [h]
    simp
  | cons l ls ih =>
    cases cs with
    | nil => simp [dropLiteral] at h
    | cons c t =>
      simp only [dropLiteral] at h
      by_cases hl : l = c
      · rw [if_pos hl] at h
        have := ih t h
        simp only [List.length_cons]
        omega
      · rw [if_neg hl] at h
        cases h




theorem parseLiteral_length (cs : List Char) (p : JSValue × List Char)
    (h : parseLiteral cs = some p) : p.2.length < cs.length := by
  unfold parseLiteral at h
  cases h1 : dropLiteral ['n', 'u', 'l', 'l'] cs with
  | some r =>
    simp only [h1, Option.some.injEq] at h
    have := dropLiteral_length _ _ _ h1
    rw [← h]
    simp only [List.length_cons, List.length_nil] at this ⊢
    omega
  | none =>
    cases h2 : dropLiteral ['t', 'r', 'u', 'e'] cs with
    | some r =>
      simp only [h1, h2, Option.some.injEq] at h
      have := dropLiteral_length _ _ _ h2
      rw [← h]
      simp only [List.length_cons, List.length_nil] at this ⊢
      omega
    | none =>
      cases h3 : dropLiteral ['f', 'a', 'l', 's', 'e'] cs with
      | some r =>
        simp only [h1, h2, h3, Option.some.injEq] at h
        have := dropLiteral_length _ _ _ h3
        rw [← h]
        simp only [List.length_cons, List.length_nil] at this ⊢
        omega
      | none =>
        simp only [h1, h2, h3] at h
        exact parseNumber_length cs p h

/-- More fuel than twice the length of the text changes nothing: a result
obtained with any fuel is obtained with that much, and every successful parse
consumes at least one character. -/
theorem parse_fuel (F : Nat) :
    (∀ cs p, parseValue F cs = some p →
      p.2.length < cs.length ∧ ∀ f, 2 * cs.length + 1 ≤ f → parseValue f cs = some p) ∧
    (∀ cs p, parseElems F cs = some p →
      p.2.length < cs.length ∧ ∀ f, 2 * cs.length + 2 ≤ f → parseElems f cs = some p) ∧
    (∀ cs p, parseMembers F cs = some p →
      p.2.length < cs.length ∧ ∀ f, 2 * cs.length + 2 ≤ f → parseMembers f cs = some p) := by
  induction F with
  | zero =>
    refine ⟨?_, ?_, ?_⟩
    · intro cs p h
      rw [parseValue] at h
      cases h
    · intro cs p h
      rw [parseElems] at h
      cases h
    · intro cs p h
      rw [parseMembers] at h
      cases h
  | succ F ih =>
    obtain ⟨ihV, ihE, ihM⟩ := ih
    refine ⟨?_, ?_, ?_⟩
    · intro cs p h
      rw [parseValue] at h
      have hskl := skipWs_length cs
      cases hsk : skipWs cs with
      | nil =>
        rw [hsk] at h
        cases h
      | cons c rest =>
        rw [hsk] at h hskl
        simp only [List.length_cons] at hskl
        simp only at h
        by_cases h1 : c = '"'
        · rw [if_pos h1] at h
          cases hq : parseChars rest with
          | none =>
            rw [hq] at h
            cases h
          | some q =>
            rw [hq] at h
            simp only [Option.map_some', Option.some.injEq] at h
            have hl := parseChars_length rest q hq
            refine ⟨by rw [← h]; simp only; omega, ?_⟩
            intro f hf
            obtain ⟨f', rfl⟩ : ∃ f', f = f' + 1 := ⟨f - 1, by omega⟩
            rw [parseValue, hsk]
            simp only [if_pos h1, hq, Option.map_some', h]
        rw [if_neg h1] at h
        by_cases h2 : c = '['
        · rw [if_pos h2] at h
          have hskl2 := skipWs_length rest
          cases hsk2 : skipWs rest with
          | nil =>
            rw [hsk2] at h
            cases h
          | cons c1 rest1 =>
            rw [hsk2] at h hskl2
            simp only [List.length_cons] at hskl2
            simp only at h
            by_cases h3 : c1 = ']'
            · rw [if_pos h3] at h
              simp only [Option.some.injEq] at h
              refine ⟨by rw [← h]; simp only; omega, ?_⟩
              intro f hf
              obtain ⟨f', rfl⟩ : ∃ f', f = f' + 1 := ⟨f - 1, by omega⟩
              rw [parseValue, hsk]
              simp only [if_neg h1, if_pos h2, hsk2, if_pos h3, h]
            · rw [if_neg h3] at h
              cases hq : parseElems F (c1 :: rest1) with
              | none =>
                rw [hq] at h
                cases h
              | some q =>
                rw [hq] at h
                simp only [Option.map_some', Option.some.injEq] at h
                obtain ⟨hl, hfuel⟩ := ihE (c1 :: rest1) q hq
                simp only [List.length_cons] at hl hfuel
                refine ⟨by rw [← h]; simp only; omega, ?_⟩
                intro f hf
                obtain ⟨f', rfl⟩ : ∃ f', f = f' + 1 := ⟨f - 1, by omega⟩
                rw [parseValue, hsk]
                simp only [if_neg h1, if_pos h2, hsk2, if_neg h3, hfuel f' (by omega),
                  Option.map_some', h]
        rw [if_neg h2] at h
        by_cases h4 : c = '{'
        · rw [if_pos h4] at h
          have hskl2 := skipWs_length rest
          cases hsk2 : skipWs rest with
          | nil =>
            rw [hsk2] at h
            cases h
          | cons c1 rest1 =>
            rw [hsk2] at h hskl2
            simp only [List.length_cons] at hskl2
            simp only at h
            by_cases h3 : c1 = '}'
            · rw [if_pos h3] at h
              simp only [Option.some.injEq] at h
              refine ⟨by rw [← h]; simp only; omega, ?_⟩
              intro f hf
              obtain ⟨f', rfl⟩ : ∃ f', f = f' + 1 := ⟨f - 1, by omega⟩
              rw [parseValue, hsk]
              simp only [if_neg h1, if_neg h2, if_pos h4, hsk2, if_pos h3, h]
            · rw [if_neg h3] at h
              cases hq : parseMembers F (c1 :: rest1) with
              | none =>
                rw [hq] at h
                cases h
              | some q =>
                rw [hq] at h
                simp only [Option.map_some', Option.some.injEq] at h
                obtain ⟨hl, hfuel⟩ := ihM (c1 :: rest1) q hq
                simp only [List.length_cons] at hl hfuel
                refine ⟨by rw [← h]; simp only; omega, ?_⟩
                intro f hf
                obtain ⟨f', rfl⟩ : ∃ f', f = f' + 1 := ⟨f - 1, by omega⟩
                rw [parseValue, hsk]
                simp only [if_neg h1, if_neg h2, if_pos h4, hsk2, if_neg h3, hfuel f' (by omega),
                  Option.map_some', h]
        rw [if_neg h4] at h
        have hl := parseLiteral_length (c :: rest) p h
        simp only [List.length_cons] at hl
        refine ⟨by omega, ?_⟩
        intro f hf
        obtain ⟨f', rfl⟩ : ∃ f', f = f' + 1 := ⟨f - 1, by omega⟩
        rw [parseValue, hsk]
        simp only [if_neg h1, if_neg h2, if_neg h4, h]
    · intro cs p h
      rw [parseElems] at h
      cases hv : parseValue F cs with
      | none =>
        rw [hv] at h
        cases h
      | some q =>
        obtain ⟨v, r⟩ := q
        rw [hv] at h
        simp only at h
        obtain ⟨hl, hfuel⟩ := ihV cs (v, r) hv
        simp only at hl
        have hskl := skipWs_length r
        cases hsk : skipWs r with
        | nil =>
          rw [hsk] at h
          cases h
        | cons c r1 =>
          rw [hsk] at h hskl
          simp only [List.length_cons] at hskl
          simp only at h
          by_cases h1 : c = ','
          · rw [if_pos h1] at h
            cases hq : parseElems F r1 with
            | none =>
              rw [hq] at h
              cases h
            | some q =>
              rw [hq] at h
              simp only [Option.map_some', Option.some.injEq] at h
              obtain ⟨hl2, hfuel2⟩ := ihE r1 q hq
              refine ⟨by rw [← h]; simp only; omega, ?_⟩
              intro f hf
              obtain ⟨f', rfl⟩ : ∃ f', f = f' + 1 := ⟨f - 1, by omega⟩
              rw [parseElems, hfuel f' (by omega)]
              simp only [hsk, if_pos h1, hfuel2 f' (by omega), Option.map_some', h]
          · rw [if_neg h1] at h
            by_cases h2 : c = ']'
            · rw [if_pos h2] at h
              simp only [Option.some.injEq] at h
              refine ⟨by rw [← h]; simp only; omega, ?_⟩
              intro f hf
              obtain ⟨f', rfl⟩ : ∃ f', f = f' + 1 := ⟨f - 1, by omega⟩
              rw [parseElems, hfuel f' (by omega)]
              simp only [hsk, if_neg h1, if_pos h2, h]
            · rw [if_neg h2] at h
              cases h
    · intro cs p h
      rw [parseMembers] at h
      have hskl := skipWs_length cs
      cases hsk : skipWs cs with
      | nil =>
        rw [hsk] at h
        cases h
      | cons q0 r0 =>
        rw [hsk] at h hskl
        simp only [List.length_cons] at hskl
        simp only at h
        by_cases h1 : q0 = '"'
        · rw [if_pos h1] at h
          cases hk : parseChars r0 with
          | none =>
            rw [hk] at h
            cases h
          | some kq =>
            obtain ⟨k, r1⟩ := kq
            rw [hk] at h
            simp only at h
            have hkl := parseChars_length r0 (k, r1) hk
            simp only at hkl
            have hskl1 := skipWs_length r1
            cases hsk1 : skipWs r1 with
            | nil =>
              rw [hsk1] at h
              cases h
            | cons c r2 =>
              rw [hsk1] at h hskl1
              simp only [List.length_cons] at hskl1
              simp only at h
              by_cases h2 : c = ':'
              · rw [if_pos h2] at h
                cases hv : parseValue F r2 with
                | none =>
                  rw [hv] at h
                  cases h
                | some vq =>
                  obtain ⟨v, r3⟩ := vq
                  rw [hv] at h
                  simp only at h
                  obtain ⟨hl, hfuel⟩ := ihV r2 (v, r3) hv
                  simp only at hl
                  have hskl3 := skipWs_length r3
                  cases hsk3 : skipWs r3 with
                  | nil =>
                    rw [hsk3] at h
                    cases h
                  | cons c1 r4 =>
                    rw [hsk3] at h hskl3
                    simp only [List.length_cons] at hskl3
                    simp only at h
                    by_cases h3 : c1 = ','
                    · rw [if_pos h3] at h
                      cases hq : parseMembers F r4 with
                      | none =>
                        rw [hq] at h
                        cases h
                      | some q =>
                        rw [hq] at h
                        simp only [Option.map_some', Option.some.injEq] at h
                        obtain ⟨hl2, hfuel2⟩ := ihM r4 q hq
                        refine ⟨by rw [← h]; simp only; omega, ?_⟩
                        intro f hf
                        obtain ⟨f', rfl⟩ : ∃ f', f = f' + 1 := ⟨f - 1, by omega⟩
                        rw [parseMembers, hsk]
                        simp only [if_pos h1, hk, hsk1, if_pos h2, hfuel f' (by omega), hsk3,
                          if_pos h3, hfuel2 f' (by omega), Option.map_some', h]
                    · rw [if_neg h3] at h
                      by_cases h5 : c1 = '}'
                      · rw [if_pos h5] at h
                        simp only [Option.some.injEq] at h
                        refine ⟨by rw [← h]; simp only; omega, ?_⟩
                        intro f hf
                        obtain ⟨f', rfl⟩ : ∃ f', f = f' + 1 := ⟨f - 1, by omega⟩
                        rw [parseMembers, hsk]
                        simp only [if_pos h1, hk, hsk1, if_pos h2, hfuel f' (by omega), hsk3,
                          if_neg h3, if_pos h5, h]
                      · rw [if_neg h5] at h
                        cases h
              · rw [if_neg h2] at h
                cases h
        · rw [if_neg h1] at h
          cases h

/-- The fuel `JSON.parse` gives the parser is enough: a value that any amount
of fuel finds at the head of the text is found with `2 * length + 2`. -/
theorem parse_fuel_enough (F : Nat) (text : String) (p : JSValue × List Char)
    (h : parseValue F text.data = some p) :
    parseValue (2 * text.length + 2) text.data = some p :=
  ((parse_fuel F).1 text.data p h).2 _ (by simp only [String.length]; omega)

end JSON

/-! ## Export and import of the saved chats -/

theorem mkObject_message (a b c : JSValue) :
    JSON.mkObject [("id", a), ("role", b), ("text", c)] = [("id", a), ("role", b), ("text", c)] :=
  rfl

theorem mkObject_entry (a b c : JSValue) :
    JSON.mkObject [("id", a), ("name", b), ("messages", c)] =
      [("id", a), ("name", b), ("messages", c)] :=
  rfl

theorem canonical_message (m : Message) : JSON.Canonical m.toJS := by
  simp [Message.toJS, JSON.Canonical, JSON.CanonicalMembers, mkObject_message]

theorem canonical_messages (ms : List Message) :
    JSON.CanonicalElems (ms.map Message.toJS) := by
  induction ms with
  | nil => simp [JSON.CanonicalElems]
  | cons m t ih => exact ⟨canonical_message m, ih⟩

theorem canonical_entry (e : ArchiveEntry) (h : JSON.overflows e.id 0 = false) :
    JSON.Canonical e.toJS := by
  simp [ArchiveEntry.toJS, JSON.Canonical, JSON.CanonicalMembers, mkObject_entry,
    canonical_messages, h]

theorem canonical_of_isFiniteNumber (v : JSValue) (h : v.isFiniteNumber = true) :
    JSON.Canonical v := by
  cases v with
  | num n =>
    simp only [JSValue.isFiniteNumber, Bool.not_eq_true'] at h
    simp only [JSON.Canonical]
    exact h
  | dec m e =>
    simp only [JSValue.isFiniteNumber, Bool.and_eq_true, decide_eq_true_eq,
      Bool.not_eq_true'] at h
    simp only [JSON.Canonical]
    exact ⟨h.1.1.1, h.1.1.2, h.1.2, h.2⟩
  | undefined => simp [JSValue.isFiniteNumber] at h
  | null => simp [JSValue.isFiniteNumber] at h
  | bool b => simp [JSValue.isFiniteNumber] at h
  | negZero => simp [JSValue.isFiniteNumber] at h
  | inf negative => simp [JSValue.isFiniteNumber] at h
  | str s => simp [JSValue.isFiniteNumber] at h
  | arr xs => simp [JSValue.isFiniteNumber] at h
  | obj kvs => simp [JSValue.isFiniteNumber] at h

theorem canonical_chat (c : SavedChat) (h : c.id.isFiniteNumber = true) :
    JSON.Canonical c.toJS := by
  simp [SavedChat.toJS, JSON.Canonical, JSON.CanonicalMembers, mkObject_entry,
    canonical_messages, canonical_of_isFiniteNumber c.id h]

theorem canonical_chats (chats : List SavedChat)
    (h : ∀ c ∈ chats, c.id.isFiniteNumber = true) :
    JSON.Canonical (.arr (chats.map SavedChat.toJS)) := by
  rw [JSON.Canonical]
  induction chats with
  | nil => simp [JSON.CanonicalElems]
  | cons c t ih =>
    exact ⟨canonical_chat c (h c (List.mem_cons_self _ _)),
      ih (fun x hx => h x (List.mem_cons_of_mem _ hx))⟩

theorem SavedChat.chat_toJS_injective (a b : SavedChat) (h : a.toJS = b.toJS) : a = b := by
  cases a
  cases b
  simp only [SavedChat.toJS, JSValue.obj.injEq, List.cons.injEq, Prod.mk.injEq,
    JSValue.str.injEq, JSValue.arr.injEq, true_and, and_true] at h
  obtain ⟨h1, h2, h3⟩ := h
  subst h1
  subst h2
  rw [map_toJS_injective _ _ h3]

theorem map_chat_toJS_injective (xs ys : List SavedChat)
    (h : xs.map SavedChat.toJS = ys.map SavedChat.toJS) : xs = ys := by
  induction xs generalizing ys with
  | nil =>
    cases ys with
    | nil => rfl
    | cons y t => simp at h
  | cons x t ih =>
    cases ys with
    | nil => simp at h
    | cons y t' =>
      simp only [List.map_cons, List.cons.injEq] at h
      rw [SavedChat.chat_toJS_injective x y h.1, ih t' h.2]

/-- C6 (amended): for every collection `chats` of saved chats (an id, a
name, messages with string id, role and text) whose ids are finite numbers
other than `-0`, whole or fractional, and whatever state the import runs in,
`importAll` applied to the text `exportAll` writes for the collection
succeeds, sets the saved chats to exactly that collection, stores its text,
and the stored text parses back to the collection; the objects determine the
saved chats, so length, order, ids, names and messages are the same. -/
theorem export_import_roundtrip (chats : List SavedChat) (st held : AppState)
    (hid : ∀ c ∈ chats, c.id.isFiniteNumber = true) :
    importAll held (exportAll { st with savedChats := chats.map SavedChat.toJS }) =
        ({ held with
            savedChats := chats.map SavedChat.toJS
            storedChats := some (JSON.stringify (.arr (chats.map SavedChat.toJS))) },
          "Imported chats successfully ✔") ∧
      JSON.parse (JSON.stringify (.arr (chats.map SavedChat.toJS))) =
        .ok (.arr (chats.map SavedChat.toJS)) ∧
      (∀ other : List SavedChat,
        other.map SavedChat.toJS = chats.map SavedChat.toJS → other = chats) := by
  have hgap : JSON.Blank [' ', ' '] := by
    intro c hc
    simp only [List.mem_cons, List.mem_singleton, List.not_mem_nil, or_false, or_self] at hc
    rw [hc]
    decide
  have h2 : JSON.parse (JSON.stringifyIndent2 (.arr (chats.map SavedChat.toJS))) =
      .ok (.arr (chats.map SavedChat.toJS)) :=
    JSON.parse_serialize [' ', ' '] _ hgap (canonical_chats chats hid)
  have h0 : JSON.parse (JSON.stringify (.arr (chats.map SavedChat.toJS))) =
      .ok (.arr (chats.map SavedChat.toJS)) :=
    JSON.parse_serialize [] _ JSON.Blank.nil (canonical_chats chats hid)
  refine ⟨?_, h0, fun other h => map_chat_toJS_injective other chats h⟩
  unfold importAll exportAll
  simp only [h2]

set_option exponentiation.threshold 1000 in
set_option maxRecDepth 8000 in
/-- C6, counterexample: a saved chat whose id is the number `Infinity`, as
held after importing a backup that gives the id `1e999`. `exportAll` writes
the id as `null`, and `importAll` applied to that text succeeds and leaves a
saved chat whose id is `null`, in memory and in the stored text. An id `-0`
comes back as `0`. -/
theorem export_import_infinity_id :
    (importAll (initialState "s0")
        "[\x7b\"id\": 1e999, \"name\": \"Chat 1\", \"messages\": []\x7d]").1.savedChats =
      [SavedChat.toJS ⟨.inf false, "Chat 1", []⟩] ∧
    exportAll { initialState "s1" with
        savedChats := [SavedChat.toJS ⟨.inf false, "Chat 1", []⟩] } =
      "[\n  \x7b\n    \"id\": null,\n    \"name\": \"Chat 1\",\n    \"messages\": []\n  \x7d\n]" ∧
    importAll (initialState "s2")
        (exportAll { initialState "s1" with
          savedChats := [SavedChat.toJS ⟨.inf false, "Chat 1", []⟩] }) =
      ({ initialState "s2" with
          savedChats := [SavedChat.toJS ⟨.null, "Chat 1", []⟩]
          storedChats := some "[\x7b\"id\":null,\"name\":\"Chat 1\",\"messages\":[]\x7d]" },
        "Imported chats successfully ✔") ∧
    [SavedChat.toJS ⟨.null, "Chat 1", []⟩] ≠ [SavedChat.toJS ⟨.inf false, "Chat 1", []⟩] ∧
    (importAll (initialState "s2")
        (exportAll { initialState "s1" with
          savedChats := [SavedChat.toJS ⟨.negZero, "Chat 1", []⟩] })).1.savedChats =
      [SavedChat.toJS ⟨.num 0, "Chat 1", []⟩] := by
  refine ⟨by rfl, by rfl, by rfl, ?_, by rfl⟩
  intro h
  simp [SavedChat.toJS] at h

set_option maxRecDepth 8000 in
/-- C6 on two saved chats, one with a fractional id: the text written by
`exportAll`, and the saved chats after importing it into another state. -/
theorem export_import_roundtrip_witness :
    (∀ c ∈ [(⟨.num 1700000000000, "Chat 1", [⟨"u1", "user", "Hello"⟩]⟩ : SavedChat),
          ⟨.dec 15 (-1), "Chat 2", []⟩],
        c.id.isFiniteNumber = true) ∧
    exportAll { initialState "s1" with
        savedChats := List.map SavedChat.toJS
          [⟨.num 1700000000000, "Chat 1", [⟨"u1", "user", "Hello"⟩]⟩,
            ⟨.dec 15 (-1), "Chat 2", []⟩] } =
        "[\n  \x7b\n    \"id\": 1700000000000,\n    \"name\": \"Chat 1\",\n    \"messages\": [\n      \x7b\n        \"id\": \"u1\",\n        \"role\": \"user\",\n        \"text\": \"Hello\"\n      \x7d\n    ]\n  \x7d,\n  \x7b\n    \"id\": 1.5,\n    \"name\": \"Chat 2\",\n    \"messages\": []\n  \x7d\n]" ∧
      (importAll (initialState "s2")
        (exportAll { initialState "s1" with
          savedChats := List.map SavedChat.toJS
            [⟨.num 1700000000000, "Chat 1", [⟨"u1", "user", "Hello"⟩]⟩,
              ⟨.dec 15 (-1), "Chat 2", []⟩] })).1.savedChats =
        List.map SavedChat.toJS
          [⟨.num 1700000000000, "Chat 1", [⟨"u1", "user", "Hello"⟩]⟩,
            ⟨.dec 15 (-1), "Chat 2", []⟩] :=
  ⟨by decide, by rfl, by
    rw [(export_import_roundtrip
      [⟨.num 1700000000000, "Chat 1", [⟨"u1", "user", "Hello"⟩]⟩, ⟨.dec 15 (-1), "Chat 2", []⟩]
      (initialState "s1") (initialState "s2") (by decide)).1]⟩

/-! ## A failed completion -/

theorem sendMessage_loading (st : AppState) (userId aiId : String) (completion : Option String)
    (hin : trim st.input ≠ "") :
    (sendMessage st userId aiId completion).state.loading = false := by
  unfold sendMessage
  rw [if_neg hin]
  cases completion with
  | none => rfl
  | some r => by_cases hte : st.typingEffect = true <;> simp [hte]

theorem sendMessage_failed_sessions (st : AppState) (userId aiId : String)
    (hin : trim st.input ≠ "") :
    (sendMessage st userId aiId none).state.sessions =
      st.sessions.map (fun s =>
        if some s.id = st.currentSessionId then
          { s with messages := s.messages ++ [⟨userId, "user", st.input⟩] }
        else s) := by
  unfold sendMessage
  rw [if_neg hin]
  simp only [updateCurrentSession]
  apply List.map_congr_left
  intro s _
  by_cases h : some s.id = st.currentSessionId <;> simp [h]

/-- C13: with a non-blank input and a failing completion request,
`sendMessage` leaves the user message appended to the active session (and no
other message), the error text set and not empty, and `loading` false; and
whatever the completion does, `loading` is false when `sendMessage` is done
with a non-blank input. -/
theorem sendMessage_failure :
    (∀ (st : AppState) (userId aiId : String), trim st.input ≠ "" →
      (sendMessage st userId aiId none).state.sessions =
          st.sessions.map (fun s =>
            if some s.id = st.currentSessionId then
              { s with messages := s.messages ++ [⟨userId, "user", st.input⟩] }
            else s) ∧
        (∀ s, st.sessions.find? (fun s => some s.id == st.currentSessionId) = some s →
          messages (sendMessage st userId aiId none).state =
            s.messages ++ [⟨userId, "user", st.input⟩]) ∧
        (sendMessage st userId aiId none).state.error =
          "Something went wrong. Check your backend server." ∧
        (sendMessage st userId aiId none).state.error ≠ "" ∧
        (sendMessage st userId aiId none).state.loading = false ∧
        (sendMessage st userId aiId none).timer = none) ∧
    (∀ (st : AppState) (userId aiId : String) (completion : Option String),
      trim st.input ≠ "" → (sendMessage st userId aiId completion).state.loading = false) := by
  refine ⟨?_, fun st userId aiId completion hin =>
    sendMessage_loading st userId aiId completion hin⟩
  intro st userId aiId hin
  have herr : (sendMessage st userId aiId none).state.error =
      "Something went wrong. Check your backend server." := by
    unfold sendMessage
    rw [if_neg hin]
  refine ⟨sendMessage_failed_sessions st userId aiId hin, ?_, herr, ?_,
    sendMessage_loading st userId aiId none hin, ?_⟩
  · intro s hs
    have hcs := currentSession_map st (sendMessage st userId aiId none).state
      (fun s => if some s.id = st.currentSessionId then
          { s with messages := s.messages ++ [⟨userId, "user", st.input⟩] }
        else s)
      (by intro s; by_cases h : some s.id = st.currentSessionId <;> simp [h])
      (sendMessage_failed_sessions st userId aiId hin)
      (sendMessage_current st userId aiId none)
    have hsid : some s.id = st.currentSessionId := by
      simpa using List.find?_some hs
    have hcur : currentSession st = some s := (messages_of_find st s hs).1
    unfold messages
    rw [hcs, hcur]
    simp [hsid]
  · rw [herr]
    decide
  · unfold sendMessage
    rw [if_neg hin]

/-- C13 on the scenario of one empty session and input `"Hello"` with the
backend down. -/
theorem sendMessage_failure_witness :
    messages (sendMessage { initialState "s1" with input := "Hello" } "u1" "a1" none).state =
        [⟨"u1", "user", "Hello"⟩] ∧
      (sendMessage { initialState "s1" with input := "Hello" } "u1" "a1" none).state.loading =
        false :=
  ⟨(sendMessage_failure.1 { initialState "s1" with input := "Hello" } "u1" "a1"
      (by decide)).2.1 ⟨"s1", "Chat 1", []⟩ rfl,
    sendMessage_failure.2 { initialState "s1" with input := "Hello" } "u1" "a1" none
      (by decide)⟩

/-! ## Starting an edit -/

/-- C15: `startEdit` on a message whose role is not `"user"` returns the state
as it is (editing id, edit buffer, sessions); on a `"user"` message it sets the
editing id to the id of the message and the edit buffer to its text, and
changes nothing else of the sessions. -/
theorem startEdit_user_only :
    (∀ (st : AppState) (msg : Message), msg.role ≠ "user" → startEdit st msg = st) ∧
    (∀ (st : AppState) (msg : Message), msg.role = "user" →
      (startEdit st msg).editingId = some msg.id ∧
        (startEdit st msg).editValue = msg.text ∧
        (startEdit st msg).sessions = st.sessions ∧
        (startEdit st msg).currentSessionId = st.currentSessionId) := by
  refine ⟨?_, ?_⟩
  · intro st msg h
    unfold startEdit
    simp [h]
  · intro st msg h
    unfold startEdit
    simp [h]

/-- C15 on an `"ai"` message and on a `"user"` message. -/
theorem startEdit_user_only_witness :
    (startEdit (initialState "s1") ⟨"a1", "ai", "Hi"⟩).editingId = none ∧
      (startEdit (initialState "s1") ⟨"u1", "user", "Hello"⟩).editingId = some "u1" :=
  ⟨congrArg AppState.editingId
      (startEdit_user_only.1 (initialState "s1") ⟨"a1", "ai", "Hi"⟩ (by decide)),
    (startEdit_user_only.2 (initialState "s1") ⟨"u1", "user", "Hello"⟩ rfl).1⟩

/-! ## The typing effect -/

/-- The state after a tick that shows the first `i` code units. -/
theorem tick_eq (st : AppState) (task : TickTask) :
    tick st task =
      ({ st with
          sessions := updateCurrentSession task.sessionId
            (fun s => { s with
              messages := replaceText s.messages task.aiId
                (sliceTo task.fullText (task.i + task.typingSpeed)) })
            st.sessions },
        if task.i + task.typingSpeed < jsLength task.fullText then
          some { task with i := task.i + task.typingSpeed }
        else none) := by
  unfold tick
  by_cases h : task.i + task.typingSpeed < jsLength task.fullText <;> simp [h]

theorem replaceText_twice (msgs : List Message) (target a b : String) :
    replaceText (replaceText msgs target a) target b = replaceText msgs target b := by
  simp only [replaceText, List.map_map]
  apply List.map_congr_left
  intro m _
  by_cases h : m.id = target <;> simp [h]

theorem updateCurrentSession_replace_twice (cur : Option String) (target a b : String)
    (sessions : List Session) :
    updateCurrentSession cur (fun s => { s with messages := replaceText s.messages target b })
        (updateCurrentSession cur
          (fun s => { s with messages := replaceText s.messages target a }) sessions) =
      updateCurrentSession cur
        (fun s => { s with messages := replaceText s.messages target b }) sessions := by
  simp only [updateCurrentSession, List.map_map]
  apply List.map_congr_left
  intro s _
  by_cases h : some s.id = cur <;> simp [h, replaceText_twice]

theorem shown_shown (st : AppState) (task task' : TickTask) (i j : Nat)
    (h1 : task'.sessionId = task.sessionId) (h2 : task'.aiId = task.aiId)
    (h3 : task'.fullText = task.fullText) :
    shown (shown st task i) task' j = shown st task j := by
  unfold shown
  simp only [h1, h2, h3, updateCurrentSession_replace_twice]

/-- After `k ≥ 1` ticks, all but the last of which left text to show, the
counter has advanced `k` steps, the message shows that many code units, and
the timer is armed again only if text is left. -/
theorem afterTicks_eq (k : Nat) : ∀ (st : AppState) (task : TickTask),
    (∀ j, 1 ≤ j → j < k + 1 → task.i + j * task.typingSpeed < jsLength task.fullText) →
    afterTicks (k + 1) st task =
      (shown st task (task.i + (k + 1) * task.typingSpeed),
        if task.i + (k + 1) * task.typingSpeed < jsLength task.fullText then
          some { task with i := task.i + (k + 1) * task.typingSpeed }
        else none) := by
  induction k with
  | zero =>
    intro st task _
    simp only [afterTicks, tick_eq, Nat.zero_add, Nat.one_mul]
    by_cases h : task.i + task.typingSpeed < jsLength task.fullText
    · simp only [h, if_true, afterTicks]
      rfl
    · simp only [h, if_false]
      rfl
  | succ k ih =>
    intro st task hlt
    have h1 : task.i + task.typingSpeed < jsLength task.fullText := by
      have := hlt 1 (Nat.le_refl 1) (by omega)
      simpa using this
    rw [afterTicks, tick_eq]
    simp only [h1, if_true]
    have hstep := ih
      { st with
        sessions := updateCurrentSession task.sessionId
          (fun s => { s with
            messages := replaceText s.messages task.aiId
              (sliceTo task.fullText (task.i + task.typingSpeed)) })
          st.sessions }
      { task with i := task.i + task.typingSpeed }
      (by
        intro j hj1 hj2
        have := hlt (j + 1) (by omega) (by omega)
        simp only at this ⊢
        rw [Nat.add_mul, Nat.one_mul] at this
        omega)
    rw [hstep]
    have harith : task.i + task.typingSpeed + (k + 1) * task.typingSpeed =
        task.i + (k + 1 + 1) * task.typingSpeed := by
      rw [Nat.add_mul (k + 1) 1, Nat.one_mul]
      omega
    simp only [harith]
    have hsh : shown
        { st with
          sessions := updateCurrentSession task.sessionId
            (fun s => { s with
              messages := replaceText s.messages task.aiId
                (sliceTo task.fullText (task.i + task.typingSpeed)) })
            st.sessions }
        { task with i := task.i + task.typingSpeed }
        (task.i + (k + 1 + 1) * task.typingSpeed) =
        shown st task (task.i + (k + 1 + 1) * task.typingSpeed) :=
      shown_shown st task _ (task.i + task.typingSpeed) _ rfl rfl rfl
    rw [hsh]

theorem tickTotal_pos (L s : Nat) : 1 ≤ tickTotal L s := Nat.le_max_left _ _

theorem tickTotal_before (L s j : Nat) (hj : 1 ≤ j) (hlt : j < tickTotal L s) :
    j * s < L := by
  unfold tickTotal at hlt
  by_cases hs : s = 0
  · subst hs
    simp at hlt
    omega
  have hs' : 0 < s := Nat.pos_of_ne_zero hs
  have hq : j + 1 ≤ (L + s - 1) / s := by
    rcases Nat.lt_or_ge j ((L + s - 1) / s) with h | h
    · exact h
    · have : max 1 ((L + s - 1) / s) ≤ j := Nat.max_le.2 ⟨hj, h⟩
      omega
  have hmul := (Nat.le_div_iff_mul_le hs').1 hq
  rw [Nat.add_mul, Nat.one_mul] at hmul
  omega

theorem tickTotal_done (L s : Nat) (hs : 0 < s) : ¬ (tickTotal L s * s < L) := by
  unfold tickTotal
  have h1 := Nat.div_add_mod (L + s - 1) s
  have h2 := Nat.mod_lt (L + s - 1) hs
  have h3 : (L + s - 1) / s * s ≤ max 1 ((L + s - 1) / s) * s :=
    Nat.mul_le_mul_right _ (Nat.le_max_right _ _)
  rw [Nat.mul_comm] at h1
  omega

theorem tickCount_eq (n : Nat) : ∀ (fuel : Nat) (st : AppState) (task : TickTask),
    (∀ j, 1 ≤ j → j < n + 1 → task.i + j * task.typingSpeed < jsLength task.fullText) →
    ¬ (task.i + (n + 1) * task.typingSpeed < jsLength task.fullText) →
    n + 1 ≤ fuel → tickCount fuel st task = some (n + 1) := by
  induction n with
  | zero =>
    intro fuel st task _ hdone hfuel
    obtain ⟨f, rfl⟩ : ∃ f, fuel = f + 1 := ⟨fuel - 1, by omega⟩
    simp only [Nat.zero_add, Nat.one_mul] at hdone
    simp only [tickCount, tick_eq, hdone, if_false, Nat.zero_add]
  | succ n ih =>
    intro fuel st task hlt hdone hfuel
    obtain ⟨f, rfl⟩ : ∃ f, fuel = f + 1 := ⟨fuel - 1, by omega⟩
    have h1 : task.i + task.typingSpeed < jsLength task.fullText := by
      have := hlt 1 (Nat.le_refl 1) (by omega)
      simpa using this
    simp only [tickCount, tick_eq, h1, if_true]
    rw [ih f _ { task with i := task.i + task.typingSpeed }
      (by
        intro j hj1 hj2
        have := hlt (j + 1) (by omega) (by omega)
        simp only at this ⊢
        rw [Nat.add_mul, Nat.one_mul] at this
        omega)
      (by
        simp only
        rw [Nat.add_mul (n + 1) 1, Nat.one_mul] at hdone
        omega)
      (by omega)]
    rfl

theorem char_not_surrogate (c : Char) : ¬ (0xD800 ≤ c.toNat ∧ c.toNat ≤ 0xDFFF) := by
  intro h
  rcases c.valid with h1 | h1
  · have : c.toNat < 0xD800 := h1
    omega
  · have : 0xDFFF < c.toNat := h1.1
    omega

theorem char_lt (c : Char) : c.toNat < 0x110000 := by
  rcases c.valid with h1 | h1
  · have : c.toNat < 0xD800 := h1
    omega
  · exact h1.2

theorem decodeUnits_utf16 (c : Char) (us : List Nat) :
    JSON.decodeUnits (utf16 c ++ us) = c :: JSON.decodeUnits us := by
  have hns := char_not_surrogate c
  have hlt := char_lt c
  unfold utf16
  by_cases hb : c.toNat < 0x10000
  · rw [if_pos hb]
    cases us with
    | nil => simp [JSON.decodeUnits, JSON.unitChar_toNat]
    | cons m rest =>
      have hn : ¬ ((0xD800 ≤ c.toNat ∧ c.toNat ≤ 0xDBFF) ∧ (0xDC00 ≤ m ∧ m ≤ 0xDFFF)) := by
        intro h
        exact hns ⟨h.1.1, by omega⟩
      simp only [List.singleton_append]
      rw [JSON.decodeUnits]
      simp only [if_neg hn, JSON.unitChar_toNat]
  · rw [if_neg hb]
    simp only [List.cons_append, List.nil_append]
    rw [JSON.decodeUnits]
    have hd : (c.toNat - 0x10000) / 0x400 < 0x400 := by omega
    have hm : (c.toNat - 0x10000) % 0x400 < 0x400 := Nat.mod_lt _ (by decide)
    have hc : (0xD800 ≤ 0xD800 + (c.toNat - 0x10000) / 0x400 ∧
        0xD800 + (c.toNat - 0x10000) / 0x400 ≤ 0xDBFF) ∧
        (0xDC00 ≤ 0xDC00 + (c.toNat - 0x10000) % 0x400 ∧
          0xDC00 + (c.toNat - 0x10000) % 0x400 ≤ 0xDFFF) := by
      omega
    simp only [if_pos hc]
    have hval : 0x10000 + (0xD800 + (c.toNat - 0x10000) / 0x400 - 0xD800) * 0x400 +
        (0xDC00 + (c.toNat - 0x10000) % 0x400 - 0xDC00) = c.toNat := by
      have := Nat.div_add_mod (c.toNat - 0x10000) 0x400
      omega
    rw [hval, Char.ofNat_toNat]

theorem decodeUnits_toUnits (cs : List Char) :
    JSON.decodeUnits ((cs.map utf16).flatten) = cs := by
  induction cs with
  | nil => rfl
  | cons c t ih =>
    rw [List.map_cons, List.flatten_cons, decodeUnits_utf16, ih]

/-- Taking the whole string. -/
theorem sliceTo_all (r : String) (i : Nat) (h : jsLength r ≤ i) : sliceTo r i = r := by
  unfold sliceTo
  unfold jsLength at h
  rw [List.take_of_length_le h]
  unfold toUnits
  rw [decodeUnits_toUnits]

theorem utf16_lt (c : Char) : ∀ u ∈ utf16 c, u < 0x10000 := by
  have hlt := char_lt c
  intro u hu
  unfold utf16 at hu
  by_cases hb : c.toNat < 0x10000
  · rw [if_pos hb] at hu
    simp only [List.mem_singleton] at hu
    omega
  · rw [if_neg hb] at hu
    simp only [List.mem_cons, List.mem_singleton, List.not_mem_nil, or_false] at hu
    have hm : (c.toNat - 0x10000) % 0x400 < 0x400 := Nat.mod_lt _ (by decide)
    rcases hu with hu | hu <;> omega

theorem toUnits_lt (cs : List Char) : ∀ u ∈ (cs.map utf16).flatten, u < 0x10000 := by
  intro u hu
  obtain ⟨l, hl, hul⟩ := List.mem_flatten.1 hu
  obtain ⟨c, _, hc⟩ := List.mem_map.1 hl
  rw [← hc] at hul
  exact utf16_lt c u hul

theorem utf16_unitChar (n : Nat) (h : n < 0x10000) : (utf16 (JSON.unitChar n)).length = 1 := by
  unfold JSON.unitChar
  by_cases hs : 0xD800 ≤ n ∧ n ≤ 0xDFFF
  · rw [if_pos hs]
    decide
  · rw [if_neg hs]
    have hv : n.isValidChar := by
      unfold Nat.isValidChar
      omega
    have hto : (Char.ofNat n).toNat = n := by
      unfold Char.ofNat
      rw [dif_pos hv]
      rfl
    unfold utf16
    rw [hto, if_pos h]
    rfl

theorem utf16_pair (n m : Nat) (hn : 0xD800 ≤ n ∧ n ≤ 0xDBFF) (hm : 0xDC00 ≤ m ∧ m ≤ 0xDFFF) :
    (utf16 (Char.ofNat (0x10000 + (n - 0xD800) * 0x400 + (m - 0xDC00)))).length = 2 := by
  have hv : (0x10000 + (n - 0xD800) * 0x400 + (m - 0xDC00)).isValidChar := by
    unfold Nat.isValidChar
    omega
  have hto : (Char.ofNat (0x10000 + (n - 0xD800) * 0x400 + (m - 0xDC00))).toNat =
      0x10000 + (n - 0xD800) * 0x400 + (m - 0xDC00) := by
    unfold Char.ofNat
    rw [dif_pos hv]
    rfl
  unfold utf16
  rw [hto, if_neg (by omega)]
  rfl

/-- Decoding keeps the number of code units. -/
theorem length_decodeUnits (k : Nat) : ∀ us : List Nat, us.length ≤ k →
    (∀ u ∈ us, u < 0x10000) →
    (((JSON.decodeUnits us).map utf16).flatten).length = us.length := by
  induction k with
  | zero =>
    intro us hk _
    cases us with
    | nil => rfl
    | cons u t => simp at hk
  | succ k ih =>
    intro us hk hlt
    cases us with
    | nil => rfl
    | cons n rest =>
      cases rest with
      | nil =>
        simp only [JSON.decodeUnits, List.map_cons, List.map_nil, List.flatten_cons, List.flatten_nil,
          List.append_nil, List.length_singleton]
        exact utf16_unitChar n (hlt n (List.mem_cons_self _ _))
      | cons m rest1 =>
        rw [JSON.decodeUnits]
        simp only [List.length_cons] at hk
        by_cases hc : (0xD800 ≤ n ∧ n ≤ 0xDBFF) ∧ (0xDC00 ≤ m ∧ m ≤ 0xDFFF)
        · simp only [if_pos hc, List.map_cons, List.flatten_cons, List.length_append,
            List.length_cons]
          rw [utf16_pair n m hc.1 hc.2, ih rest1 (by omega)
            (fun u hu => hlt u (List.mem_cons_of_mem _ (List.mem_cons_of_mem _ hu)))]
          omega
        · simp only [if_neg hc, List.map_cons, List.flatten_cons, List.length_append,
            List.length_cons]
          rw [utf16_unitChar n (hlt n (List.mem_cons_self _ _)), ih (m :: rest1)
            (by simp only [List.length_cons]; omega)
            (fun u hu => hlt u (List.mem_cons_of_mem _ hu))]
          simp only [List.length_cons]
          omega

/-- The length of `s.slice(0, i)`. -/
theorem jsLength_sliceTo (r : String) (i : Nat) :
    jsLength (sliceTo r i) = min i (jsLength r) := by
  unfold jsLength sliceTo
  show (((JSON.decodeUnits ((toUnits r).take i)).map utf16).flatten).length = _
  rw [length_decodeUnits _ ((toUnits r).take i) (Nat.le_refl _)
    (fun u hu => toUnits_lt r.data u (List.mem_of_mem_take hu))]
  exact List.length_take _ _

theorem sendMessage_typing (st : AppState) (userId aiId r : String)
    (hin : trim st.input ≠ "") (hte : st.typingEffect = true) :
    (sendMessage st userId aiId (some r)).state.sessions =
        st.sessions.map (fun s =>
          if some s.id = st.currentSessionId then
            { s with messages := s.messages ++
                [⟨userId, "user", st.input⟩, ⟨aiId, "ai", ""⟩] }
          else s) ∧
      (sendMessage st userId aiId (some r)).timer =
        some { sessionId := st.currentSessionId, aiId := aiId, fullText := r
               typingSpeed := st.typingSpeed, i := 0 } := by
  unfold sendMessage
  rw [if_neg hin]
  simp only [hte, Bool.not_true, Bool.false_eq_true, if_false]
  exact ⟨updateCurrentSession_append_twice _ _ _ _, trivial⟩

/-- The messages of the active session while the reveal shows `i` code units. -/
theorem messages_shown (st : AppState) (s : Session) (userId aiId r : String) (i : Nat)
    (hcur : st.sessions.find? (fun x => some x.id == st.currentSessionId) = some s)
    (hin : trim st.input ≠ "") (hte : st.typingEffect = true) :
    messages (shown (sendMessage st userId aiId (some r)).state
        { sessionId := st.currentSessionId, aiId := aiId, fullText := r
          typingSpeed := st.typingSpeed, i := 0 } i) =
      replaceText (s.messages ++ [⟨userId, "user", st.input⟩]) aiId (sliceTo r i) ++
        [⟨aiId, "ai", sliceTo r i⟩] := by
  obtain ⟨hcs, _⟩ := messages_of_find st s hcur
  have hsid : some s.id = st.currentSessionId := by
    simpa using List.find?_some hcur
  have h1 := currentSession_map st (sendMessage st userId aiId (some r)).state _
    (by intro x; by_cases h : some x.id = st.currentSessionId <;> simp [h])
    (sendMessage_typing st userId aiId r hin hte).1 (sendMessage_current st userId aiId (some r))
  have h2 := currentSession_map (sendMessage st userId aiId (some r)).state
    (shown (sendMessage st userId aiId (some r)).state
      { sessionId := st.currentSessionId, aiId := aiId, fullText := r
        typingSpeed := st.typingSpeed, i := 0 } i)
    (fun x => if some x.id == st.currentSessionId then
      { x with messages := replaceText x.messages aiId (sliceTo r i) } else x)
    (by intro x; by_cases h : (some x.id == st.currentSessionId) = true <;> simp [h])
    rfl rfl
  unfold messages
  rw [h2, h1, hcs]
  simp [hsid, replaceText]

/-- C16: with the typing effect on, a positive step `s` and answer `r` of
length `L` (`r.length`, counted in UTF-16 code units as `slice` counts too),
the timer armed by `sendMessage` starts a chain of exactly
`max(1, ceil(L / s))` ticks; after the `k`-th tick the `"ai"` message (the
last of the active session) shows `r.slice(0, k * s)`, the prefix of `r` of
length `min(k * s, L)`, every tick before the last shows a longer prefix than
the one before, the timer is armed again exactly until the last tick, and the
last tick shows all of `r`. -/
theorem typing_reveal (st : AppState) (s : Session) (userId aiId r : String)
    (hcur : st.sessions.find? (fun x => some x.id == st.currentSessionId) = some s)
    (hin : trim st.input ≠ "") (hte : st.typingEffect = true) (hsp : 0 < st.typingSpeed) :
    ∃ task, (sendMessage st userId aiId (some r)).timer = some task ∧
      (∀ fuel, tickTotal (jsLength r) st.typingSpeed ≤ fuel →
        tickCount fuel (sendMessage st userId aiId (some r)).state task =
          some (tickTotal (jsLength r) st.typingSpeed)) ∧
      (∀ k, 1 ≤ k → k ≤ tickTotal (jsLength r) st.typingSpeed →
        messages (afterTicks k (sendMessage st userId aiId (some r)).state task).1 =
            replaceText (s.messages ++ [⟨userId, "user", st.input⟩]) aiId
                (sliceTo r (k * st.typingSpeed)) ++
              [⟨aiId, "ai", sliceTo r (k * st.typingSpeed)⟩] ∧
          jsLength (sliceTo r (k * st.typingSpeed)) = min (k * st.typingSpeed) (jsLength r) ∧
          ((afterTicks k (sendMessage st userId aiId (some r)).state task).2 = none ↔
            k = tickTotal (jsLength r) st.typingSpeed)) ∧
      (∀ k, 1 ≤ k → k < tickTotal (jsLength r) st.typingSpeed →
        jsLength (sliceTo r ((k - 1) * st.typingSpeed)) < jsLength (sliceTo r (k * st.typingSpeed))) ∧
      sliceTo r (tickTotal (jsLength r) st.typingSpeed * st.typingSpeed) = r ∧
      (aiId ∉ s.messages.map (·.id) → aiId ≠ userId →
        ∀ k, 1 ≤ k → k ≤ tickTotal (jsLength r) st.typingSpeed →
          messages (afterTicks k (sendMessage st userId aiId (some r)).state task).1 =
            s.messages ++ [⟨userId, "user", st.input⟩,
              ⟨aiId, "ai", sliceTo r (k * st.typingSpeed)⟩]) := by
  have hshow : ∀ k, 1 ≤ k → k ≤ tickTotal (jsLength r) st.typingSpeed →
      afterTicks k (sendMessage st userId aiId (some r)).state
          { sessionId := st.currentSessionId, aiId := aiId, fullText := r
            typingSpeed := st.typingSpeed, i := 0 } =
        (shown (sendMessage st userId aiId (some r)).state
            { sessionId := st.currentSessionId, aiId := aiId, fullText := r
              typingSpeed := st.typingSpeed, i := 0 } (k * st.typingSpeed),
          if k * st.typingSpeed < (jsLength r) then
            some { sessionId := st.currentSessionId, aiId := aiId, fullText := r
                   typingSpeed := st.typingSpeed, i := k * st.typingSpeed }
          else none) := by
    intro k hk1 hkN
    obtain ⟨k', rfl⟩ : ∃ k', k = k' + 1 := ⟨k - 1, by omega⟩
    have := afterTicks_eq k' (sendMessage st userId aiId (some r)).state
      { sessionId := st.currentSessionId, aiId := aiId, fullText := r
        typingSpeed := st.typingSpeed, i := 0 }
      (by
        intro j hj1 hj2
        simp only [Nat.zero_add]
        exact tickTotal_before (jsLength r) st.typingSpeed j hj1 (by omega))
    simpa using this
  have hmsgs : ∀ k, 1 ≤ k → k ≤ tickTotal (jsLength r) st.typingSpeed →
      messages (afterTicks k (sendMessage st userId aiId (some r)).state
          { sessionId := st.currentSessionId, aiId := aiId, fullText := r
            typingSpeed := st.typingSpeed, i := 0 }).1 =
        replaceText (s.messages ++ [⟨userId, "user", st.input⟩]) aiId
            (sliceTo r (k * st.typingSpeed)) ++
          [⟨aiId, "ai", sliceTo r (k * st.typingSpeed)⟩] := by
    intro k hk1 hkN
    rw [hshow k hk1 hkN]
    exact messages_shown st s userId aiId r _ hcur hin hte
  refine ⟨_, (sendMessage_typing st userId aiId r hin hte).2, ?_, ?_, ?_, ?_, ?_⟩
  · intro fuel hfuel
    obtain ⟨n, hn⟩ : ∃ n, tickTotal (jsLength r) st.typingSpeed = n + 1 :=
      ⟨tickTotal (jsLength r) st.typingSpeed - 1, by
        have := tickTotal_pos (jsLength r) st.typingSpeed
        omega⟩
    rw [hn]
    apply tickCount_eq n
    · intro j hj1 hj2
      simp only [Nat.zero_add]
      exact tickTotal_before (jsLength r) st.typingSpeed j hj1 (by omega)
    · simp only [Nat.zero_add]
      rw [← hn]
      exact tickTotal_done (jsLength r) st.typingSpeed hsp
    · omega
  · intro k hk1 hkN
    refine ⟨hmsgs k hk1 hkN, jsLength_sliceTo r _, ?_⟩
    rw [hshow k hk1 hkN]
    constructor
    · intro hnone
      by_cases hlt : k * st.typingSpeed < (jsLength r)
      · simp [hlt] at hnone
      · rcases Nat.lt_or_ge k (tickTotal (jsLength r) st.typingSpeed) with h | h
        · exact absurd (tickTotal_before (jsLength r) st.typingSpeed k hk1 h) hlt
        · omega
    · intro hk
      have := tickTotal_done (jsLength r) st.typingSpeed hsp
      rw [← hk] at this
      simp [this]
  · intro k hk1 hkN
    have hlt := tickTotal_before (jsLength r) st.typingSpeed k hk1 hkN
    rw [jsLength_sliceTo, jsLength_sliceTo]
    have hmul : (k - 1) * st.typingSpeed + st.typingSpeed = k * st.typingSpeed := by
      obtain ⟨k', rfl⟩ : ∃ k', k = k' + 1 := ⟨k - 1, by omega⟩
      simp [Nat.add_mul]
    omega
  · apply sliceTo_all
    have := tickTotal_done (jsLength r) st.typingSpeed hsp
    omega
  · intro hfresh hne k hk1 hkN
    rw [hmsgs k hk1 hkN]
    have habs : replaceText (s.messages ++ [⟨userId, "user", st.input⟩]) aiId
        (sliceTo r (k * st.typingSpeed)) = s.messages ++ [⟨userId, "user", st.input⟩] := by
      apply replaceText_absent
      intro m hm
      rcases List.mem_append.1 hm with h | h
      · intro he
        exact hfresh (List.mem_map.2 ⟨m, h, he⟩)
      · rw [List.mem_singleton] at h
        rw [h]
        exact fun he => hne he.symm
    rw [habs]
    simp

/-- C16 on the answer `"Hi there!!"` (length 10) with step 4: three ticks.
The answer `"😀😀😀"` has length 6: with step 4 it takes two ticks, the first
of which shows `"😀😀"`. -/
theorem typing_reveal_witness :
    tickTotal (jsLength "Hi there!!") 4 = 3 ∧
      jsLength "😀😀😀" = 6 ∧ tickTotal (jsLength "😀😀😀") 4 = 2 ∧
      sliceTo "😀😀😀" 4 = "😀😀" ∧
      ∃ task, (sendMessage { initialState "s1" with input := "Hello", typingSpeed := 4 }
          "u1" "a1" (some "Hi there!!")).timer = some task ∧
        tickCount 5 (sendMessage { initialState "s1" with input := "Hello", typingSpeed := 4 }
          "u1" "a1" (some "Hi there!!")).state task =
          some (tickTotal (jsLength "Hi there!!") 4) := by
  refine ⟨by decide, by decide, by decide, by decide, ?_⟩
  obtain ⟨task, h1, h2, _⟩ := typing_reveal
    { initialState "s1" with input := "Hello", typingSpeed := 4 } ⟨"s1", "Chat 1", []⟩
    "u1" "a1" "Hi there!!" rfl (by decide) rfl (by decide)
  exact ⟨task, h1, h2 5 (by decide)⟩

/-! ## Renaming a saved chat -/

theorem renameEntry_toJS (clicked : Option Nat) (j : Nat) (e : Int) (n : String)
    (x : ArchiveEntry) :
    renameEntry clicked (some (.num e)) (.str n) j x.toJS = some (x.rename e n).toJS := by
  have hid : readProp "id" x.toJS = some (some (.num x.id)) := rfl
  have hname : readProp "name" x.toJS = some (some (.str x.name)) := rfl
  have hown : JSON.mkObject (ownProps x.toJS) = ownProps x.toJS := rfl
  have hset : ∀ v, JSON.objSet "name" v (ownProps x.toJS) =
      [("id", .num x.id), ("name", v), ("messages", .arr (x.messages.map Message.toJS))] :=
    fun _ => rfl
  have heq : idEquals clicked (some (.num e)) j (some (.num x.id)) = decide (x.id = e) := by
    simp only [idEquals, strictEquals, Option.getD_some, JSValue.strictEq]
    by_cases h : x.id = e <;> simp [h]
  unfold renameEntry ArchiveEntry.rename
  rw [hid]
  simp only [heq, hown, hset, hname]
  by_cases h : x.id = e
  · by_cases hn : n = ""
    · simp [h, hn, ArchiveEntry.toJS, JSValue.truthy]
    · simp [h, hn, ArchiveEntry.toJS, JSValue.truthy]
  · simp [h]

theorem renameAll_toJS (clicked : Option Nat) (e : Int) (n : String)
    (entries : List ArchiveEntry) : ∀ j,
    renameAll clicked (some (.num e)) (.str n) j (entries.map ArchiveEntry.toJS) =
      some ((entries.map (ArchiveEntry.rename e n)).map ArchiveEntry.toJS) := by
  induction entries with
  | nil => intro j; rfl
  | cons x t ih =>
    intro j
    simp only [List.map_cons, renameAll, renameEntry_toJS, ih, Option.map_some']

theorem renameChat_toJS (st : AppState) (entries : List ArchiveEntry) (e : Int)
    (hsaved : st.savedChats = entries.map ArchiveEntry.toJS) :
    renameChat st (some (.num e)) =
      { st with
        savedChats := (entries.map (ArchiveEntry.rename e st.renameValue)).map ArchiveEntry.toJS
        storedChats := some (JSON.stringify
          (.arr ((entries.map (ArchiveEntry.rename e st.renameValue)).map ArchiveEntry.toJS)))
        renameValue := "" } := by
  unfold renameChat renameChatFrom
  rw [hsaved, renameAll_toJS]
  rfl

theorem rename_split (e : Int) (n : String) (pre post : List ArchiveEntry) (x : ArchiveEntry)
    (hnd : ((pre ++ x :: post).map (·.id)).Nodup) (hx : x.id = e) :
    (pre ++ x :: post).map (ArchiveEntry.rename e n) =
      pre ++ { x with name := if n = "" then x.name else n } :: post := by
  simp only [List.map_append, List.map_cons] at hnd
  have hpre : ∀ y ∈ pre, y.id ≠ e := by
    intro y hy he
    have hd := (List.nodup_append.1 hnd).2.2
    exact hd (List.mem_map_of_mem _ hy) (by rw [he, ← hx]; exact List.mem_cons_self _ _)
  have hpost : ∀ y ∈ post, y.id ≠ e := by
    intro y hy he
    have hc := (List.nodup_cons.1 (List.nodup_append.1 hnd).2.1).1
    exact hc (by rw [hx, ← he]; exact List.mem_map_of_mem _ hy)
  have h1 : pre.map (ArchiveEntry.rename e n) = pre := by
    conv => rhs; rw [← List.map_id pre]
    apply List.map_congr_left
    intro y hy
    simp [ArchiveEntry.rename, hpre y hy]
  have h2 : post.map (ArchiveEntry.rename e n) = post := by
    conv => rhs; rw [← List.map_id post]
    apply List.map_congr_left
    intro y hy
    simp [ArchiveEntry.rename, hpost y hy]
  simp [h1, h2, ArchiveEntry.rename, hx]

/-- C11: on a collection of saved chats with pairwise distinct ids,
`renameChat` with the id of the chat `x` and a non-empty rename value `n` keeps
the length and the order, gives `x` the name `n` with the same id and messages,
and leaves every other chat as it is; it stores the text of the result and
empties the rename value. With an empty rename value every chat keeps its
name. Saving a two-message session `"Chat 1"` gives one saved chat, and
renaming it to `"Greeting"` changes its name only. -/
theorem renameChat_entry :
    (∀ (st : AppState) (pre post : List ArchiveEntry) (x : ArchiveEntry) (n : String),
      st.savedChats = (pre ++ x :: post).map ArchiveEntry.toJS →
      ((pre ++ x :: post).map (·.id)).Nodup → st.renameValue = n → n ≠ "" →
      (renameChat st (some (.num x.id))).savedChats =
          (pre ++ { x with name := n } :: post).map ArchiveEntry.toJS ∧
        (renameChat st (some (.num x.id))).savedChats.length = st.savedChats.length ∧
        (renameChat st (some (.num x.id))).storedChats =
          some (JSON.stringify (.arr (renameChat st (some (.num x.id))).savedChats)) ∧
        (renameChat st (some (.num x.id))).renameValue = "") ∧
    (∀ (st : AppState) (entries : List ArchiveEntry) (e : Int),
      st.savedChats = entries.map ArchiveEntry.toJS → st.renameValue = "" →
      (renameChat st (some (.num e))).savedChats = st.savedChats) ∧
    (∀ (id0 : String) (now : Int) (m1 m2 : Message),
      (saveChat { initialState id0 with sessions := [⟨id0, "Chat 1", [m1, m2]⟩] } now).savedChats =
          [ArchiveEntry.toJS ⟨now, "Chat 1", [m1, m2]⟩] ∧
        (renameChat
          { saveChat { initialState id0 with sessions := [⟨id0, "Chat 1", [m1, m2]⟩] } now with
            renameValue := "Greeting" } (some (.num now))).savedChats =
          [ArchiveEntry.toJS ⟨now, "Greeting", [m1, m2]⟩]) := by
  refine ⟨?_, ?_, ?_⟩
  · intro st pre post x n hsaved hnd hn hne
    have h := renameChat_toJS st (pre ++ x :: post) x.id hsaved
    rw [rename_split x.id st.renameValue pre post x hnd rfl, hn] at h
    simp only [hne, if_false] at h
    rw [h]
    refine ⟨rfl, ?_, rfl, rfl⟩
    rw [hsaved]
    simp
  · intro st entries e hsaved hn
    rw [renameChat_toJS st entries e hsaved, hn]
    simp only
    rw [hsaved]
    congr 1
    conv => rhs; rw [← List.map_id entries]
    apply List.map_congr_left
    intro y _
    by_cases h : y.id = e
    · subst h
      simp [ArchiveEntry.rename]
    · simp [ArchiveEntry.rename, h]
  · intro id0 now m1 m2
    have hsave : (saveChat { initialState id0 with sessions := [⟨id0, "Chat 1", [m1, m2]⟩] }
        now).savedChats = [ArchiveEntry.toJS ⟨now, "Chat 1", [m1, m2]⟩] := by
      simp [saveChat, messages, currentSession, initialState]
    refine ⟨hsave, ?_⟩
    rw [renameChat_toJS _ [⟨now, "Chat 1", [m1, m2]⟩] now (by simpa using hsave)]
    simp [ArchiveEntry.rename]

/-- C11 on two saved chats: renaming the first to `"Greeting"`. -/
theorem renameChat_entry_witness :
    (renameChat { initialState "s1" with
        savedChats := List.map ArchiveEntry.toJS
          ([] ++ (⟨1700000000000, "Chat 1", [⟨"u1", "user", "Hello"⟩, ⟨"a1", "ai", "Hi"⟩]⟩ ::
            [⟨1700000000001, "Chat 2", []⟩]))
        renameValue := "Greeting" } (some (.num 1700000000000))).savedChats =
      List.map ArchiveEntry.toJS
        ([] ++ (⟨1700000000000, "Greeting", [⟨"u1", "user", "Hello"⟩, ⟨"a1", "ai", "Hi"⟩]⟩ ::
          [⟨1700000000001, "Chat 2", []⟩])) :=
  (renameChat_entry.1 { initialState "s1" with
      savedChats := List.map ArchiveEntry.toJS
        ([] ++ (⟨1700000000000, "Chat 1", [⟨"u1", "user", "Hello"⟩, ⟨"a1", "ai", "Hi"⟩]⟩ ::
          [⟨1700000000001, "Chat 2", []⟩]))
      renameValue := "Greeting" }
    [] [⟨1700000000001, "Chat 2", []⟩]
    ⟨1700000000000, "Chat 1", [⟨"u1", "user", "Hello"⟩, ⟨"a1", "ai", "Hi"⟩]⟩ "Greeting"
    rfl (by decide) rfl (by decide)).1

/-! ## What `importAll` accepts -/

/-- C12, as amended: `importAll` accepts a text exactly when it parses to an
array, whatever the items are; then the saved chats are the items and their
text is stored. Every other text is refused and leaves the state as it
was. -/
theorem importAll_accepts_arrays (st : AppState) (txt : String) :
    ((importAll st txt).2 = "Imported chats successfully ✔" ↔
      ∃ xs, JSON.parse txt = .ok (.arr xs)) ∧
    (∀ xs, JSON.parse txt = .ok (.arr xs) →
      (importAll st txt).1.savedChats = xs ∧
        (importAll st txt).1.storedChats = some (JSON.stringify (.arr xs))) ∧
    ((∀ xs, JSON.parse txt ≠ .ok (.arr xs)) → (importAll st txt).1 = st) := by
  have hne : ∀ reason : String,
      "Failed to import: " ++ reason ≠ "Imported chats successfully ✔" := by
    intro reason h
    have hd := congrArg String.data h
    rw [String.data_append] at hd
    exact absurd hd (by simp)
  unfold importAll
  cases hp : JSON.parse txt with
  | error message =>
    refine ⟨⟨fun h => absurd h (hne message), fun ⟨xs, hx⟩ => by cases hx⟩, ?_, fun _ => rfl⟩
    intro xs hx
    cases hx
  | ok v =>
    cases v with
    | arr xs =>
      refine ⟨⟨fun _ => ⟨xs, rfl⟩, fun _ => rfl⟩, ?_, fun h => absurd rfl (h xs)⟩
      intro ys hy
      simp only [Except.ok.injEq, JSValue.arr.injEq] at hy
      subst hy
      exact ⟨rfl, rfl⟩
    | null | bool b | num n | dec m e | negZero | inf negative | undefined | str s | obj kvs =>
      refine ⟨⟨fun h => absurd h (hne _), fun ⟨xs, hx⟩ => by cases hx⟩, ?_, fun _ => rfl⟩
      intro xs hx
      cases hx

/-- C12 as stated fails: the arrays `[1, 2]` and `[{}]`, whose items are not
saved chats, are accepted and become the saved chats. -/
theorem importAll_accepts_any_array :
    (importAll (initialState "s1") "[1, 2]").2 = "Imported chats successfully ✔" ∧
      (importAll (initialState "s1") "[1, 2]").1.savedChats = [.num 1, .num 2] ∧
      (importAll (initialState "s1") "[1, 2]").1.storedChats = some "[1,2]" ∧
      (importAll (initialState "s1") "[\x7b\x7d]").2 = "Imported chats successfully ✔" ∧
      (importAll (initialState "s1") "[\x7b\x7d]").1.savedChats = [.obj []] :=
  ⟨by rfl, by rfl, by rfl, by rfl, by rfl⟩

/-- C12, as amended, on the text of one saved chat and on the text of an
object. -/
theorem importAll_accepts_arrays_witness :
    (importAll (initialState "s1")
        "[\x7b\"id\": 1, \"name\": \"x\", \"messages\": []\x7d]").1.savedChats =
        [.obj [("id", .num 1), ("name", .str "x"), ("messages", .arr [])]] ∧
      (importAll (initialState "s1")
        "\x7b\"id\": 1, \"name\": \"x\", \"messages\": []\x7d").1.savedChats = [] :=
  ⟨((importAll_accepts_arrays (initialState "s1")
      "[\x7b\"id\": 1, \"name\": \"x\", \"messages\": []\x7d]").2.1 _ (by rfl)).1,
    congrArg AppState.savedChats
      ((importAll_accepts_arrays (initialState "s1")
        "\x7b\"id\": 1, \"name\": \"x\", \"messages\": []\x7d").2.2
        (fun xs hx => by
          rw [show JSON.parse "\x7b\"id\": 1, \"name\": \"x\", \"messages\": []\x7d" =
            .ok (.obj [("id", .num 1), ("name", .str "x"), ("messages", .arr [])]) from rfl] at hx
          cases hx))⟩

/-! ## The enumeration order of properties -/

namespace JSON

theorem KeyBefore.right {a b c : String × JSValue} (h : KeyBefore a b) (hk : b.1 = c.1) :
    KeyBefore a c := by
  unfold KeyBefore at h ⊢
  rw [← hk]
  exact h

theorem KeyBefore.left {a b c : String × JSValue} (h : KeyBefore a b) (hk : a.1 = c.1) :
    KeyBefore c b := by
  unfold KeyBefore at h ⊢
  rw [← hk]
  exact h

theorem isArrayIndex_inj (a b : String) (ha : isArrayIndex a = true)
    (hb : isArrayIndex b = true) (h : natOfDigits a.data = natOfDigits b.data) : a = b := by
  simp only [isArrayIndex, Bool.and_eq_true, beq_iff_eq, decide_eq_true_eq] at ha hb
  have h1 := ha.1.2
  have h2 := hb.1.2
  rw [h] at h1
  rw [← h2] at h1
  exact String.ext h1

theorem mem_objSet (k : String) (v : JSValue) (l : List (String × JSValue))
    (y : String × JSValue) (h : y ∈ objSet k v l) : y = (k, v) ∨ y ∈ l := by
  induction l with
  | nil =>
    simp only [objSet, List.mem_singleton] at h
    exact Or.inl h
  | cons p t ih =>
    obtain ⟨k1, v1⟩ := p
    rw [objSet] at h
    split at h
    · rcases List.mem_cons.1 h with h | h
      · exact Or.inl h
      · exact Or.inr (List.mem_cons_of_mem _ h)
    · split at h
      · rcases List.mem_cons.1 h with h | h
        · exact Or.inr (h ▸ List.mem_cons_self _ _)
        · rcases ih h with h | h
          · exact Or.inl h
          · exact Or.inr (List.mem_cons_of_mem _ h)
      · split at h
        · rcases List.mem_cons.1 h with h | h
          · exact Or.inl h
          · exact Or.inr h
        · rcases List.mem_cons.1 h with h | h
          · exact Or.inr (h ▸ List.mem_cons_self _ _)
          · rcases ih h with h | h
            · exact Or.inl h
            · exact Or.inr (List.mem_cons_of_mem _ h)

theorem ordered_objSet (k : String) (v : JSValue) (l : List (String × JSValue))
    (h : Ordered l) : Ordered (objSet k v l) := by
  induction l with
  | nil => simp [objSet, Ordered]
  | cons p t ih =>
    obtain ⟨k1, v1⟩ := p
    have hp : ∀ y ∈ t, KeyBefore (k1, v1) y := (List.pairwise_cons.1 h).1
    have ht : Ordered t := (List.pairwise_cons.1 h).2
    rw [objSet]
    by_cases h1 : k1 = k
    · rw [if_pos h1]
      exact List.pairwise_cons.2 ⟨fun y hy => (hp y hy).left h1, ht⟩
    · rw [if_neg h1]
      by_cases h2 : t.any (fun p => p.1 == k) = true
      · rw [if_pos h2]
        refine List.pairwise_cons.2 ⟨?_, ih ht⟩
        intro y hy
        rcases mem_objSet k v t y hy with hy | hy
        · obtain ⟨z, hz, hzk⟩ := List.any_eq_true.1 h2
          have hzk1 : z.1 = k := by simpa using hzk
          exact (hp z hz).right (by rw [hy, hzk1])
        · exact hp y hy
      · rw [if_neg h2]
        have hk : ∀ y ∈ t, y.1 ≠ k := by
          intro y hy hyk
          exact h2 (List.any_eq_true.2 ⟨y, hy, by simpa using hyk⟩)
        by_cases h3 : (isArrayIndex k &&
            (!isArrayIndex k1 || decide (natOfDigits k.data < natOfDigits k1.data))) = true
        · rw [if_pos h3]
          simp only [Bool.and_eq_true, Bool.or_eq_true, Bool.not_eq_true', decide_eq_true_eq]
            at h3
          obtain ⟨hik, hor⟩ := h3
          have hlt : isArrayIndex k1 = true → natOfDigits k.data < natOfDigits k1.data := by
            intro hi1
            rcases hor with h | h
            · rw [hi1] at h
              cases h
            · exact h
          refine List.pairwise_cons.2 ⟨?_, h⟩
          intro y hy
          rcases List.mem_cons.1 hy with hy | hy
          · rw [hy]
            exact ⟨fun he => h1 he.symm, fun hi1 => ⟨hik, hlt hi1⟩⟩
          · refine ⟨fun he => hk y hy he.symm, fun hiy => ⟨hik, ?_⟩⟩
            obtain ⟨hi1, hlt1⟩ := (hp y hy).2 hiy
            exact Nat.lt_trans (hlt hi1) hlt1
        · rw [if_neg h3]
          refine List.pairwise_cons.2 ⟨?_, ih ht⟩
          intro y hy
          rcases mem_objSet k v t y hy with hy | hy
          · rw [hy]
            refine ⟨h1, fun hik => ?_⟩
            simp only [Bool.and_eq_true, Bool.or_eq_true, Bool.not_eq_true', decide_eq_true_eq,
              not_and, not_or, Bool.not_eq_false, not_lt] at h3
            obtain ⟨hi1, hle⟩ := h3 hik
            refine ⟨hi1, Nat.lt_of_le_of_ne hle ?_⟩
            intro he
            exact h1 (isArrayIndex_inj k1 k hi1 hik he)
          · exact hp y hy

/-- Setting a key that comes after all the properties appends it. -/
theorem objSet_append (k : String) (v : JSValue) (l : List (String × JSValue))
    (h : ∀ y ∈ l, KeyBefore y (k, v)) : objSet k v l = l ++ [(k, v)] := by
  induction l with
  | nil => rfl
  | cons p t ih =>
    obtain ⟨k1, v1⟩ := p
    have hp : KeyBefore (k1, v1) (k, v) := h _ (List.mem_cons_self _ _)
    have ht : ∀ y ∈ t, KeyBefore y (k, v) := fun y hy => h y (List.mem_cons_of_mem _ hy)
    have h1 : k1 ≠ k := hp.1
    have h2 : ¬ (t.any (fun p => p.1 == k) = true) := by
      intro h2
      obtain ⟨z, hz, hzk⟩ := List.any_eq_true.1 h2
      exact (ht z hz).1 (by simpa using hzk)
    have h3 : ¬ ((isArrayIndex k &&
        (!isArrayIndex k1 || decide (natOfDigits k.data < natOfDigits k1.data))) = true) := by
      intro h3
      simp only [Bool.and_eq_true, Bool.or_eq_true, Bool.not_eq_true', decide_eq_true_eq] at h3
      obtain ⟨hi1, hlt⟩ := hp.2 h3.1
      rcases h3.2 with h | h
      · rw [hi1] at h
        cases h
      · exact absurd h (Nat.lt_asymm hlt)
    rw [objSet, if_neg h1, if_neg h2, if_neg h3, ih ht]
    rfl

theorem foldl_objSet_ordered (l acc : List (String × JSValue)) (h : Ordered (acc ++ l)) :
    l.foldl (fun kvs p => objSet p.1 p.2 kvs) acc = acc ++ l := by
  induction l generalizing acc with
  | nil => simp
  | cons p t ih =>
    have hp : ∀ y ∈ acc, KeyBefore y p := by
      intro y hy
      have := List.pairwise_append.1 h
      exact this.2.2 y hy p (List.mem_cons_self _ _)
    have h1 : objSet p.1 p.2 acc = acc ++ [p] := objSet_append p.1 p.2 acc hp
    rw [List.foldl_cons, h1, ih (acc ++ [p]) (by simpa using h)]
    simp

/-- A property list in enumeration order is the property list of the object
built from it. -/
theorem mkObject_of_ordered (l : List (String × JSValue)) (h : Ordered l) : mkObject l = l := by
  have := foldl_objSet_ordered l [] (by simpa using h)
  simpa [mkObject] using this

theorem foldl_objSet_spec (l acc : List (String × JSValue)) (h : Ordered acc) :
    Ordered (l.foldl (fun kvs p => objSet p.1 p.2 kvs) acc) ∧
      ∀ y ∈ l.foldl (fun kvs p => objSet p.1 p.2 kvs) acc, y ∈ acc ∨ y ∈ l := by
  induction l generalizing acc with
  | nil => exact ⟨h, fun y hy => Or.inl hy⟩
  | cons p t ih =>
    obtain ⟨h1, h2⟩ := ih (objSet p.1 p.2 acc) (ordered_objSet p.1 p.2 acc h)
    refine ⟨h1, fun y hy => ?_⟩
    rcases h2 y hy with hy | hy
    · rcases mem_objSet p.1 p.2 acc y hy with hy | hy
      · exact Or.inr (hy ▸ List.mem_cons_self _ _)
      · exact Or.inl hy
    · exact Or.inr (List.mem_cons_of_mem _ hy)

theorem ordered_mkObject (l : List (String × JSValue)) : Ordered (mkObject l) :=
  (foldl_objSet_spec l [] List.Pairwise.nil).1

theorem mem_mkObject (l : List (String × JSValue)) (y : String × JSValue)
    (h : y ∈ mkObject l) : y ∈ l := by
  rcases (foldl_objSet_spec l [] List.Pairwise.nil).2 y h with h | h
  · cases h
  · exact h

end JSON

/-! ## What `JSON.stringify` and `JSON.parse` carry over -/

namespace JSON

theorem canonicalElems_iff (l : List JSValue) :
    CanonicalElems l ↔ ∀ x ∈ l, Canonical x := by
  induction l with
  | nil => simp [CanonicalElems]
  | cons x t ih => simp [CanonicalElems, ih]

theorem canonicalMembers_iff (l : List (String × JSValue)) :
    CanonicalMembers l ↔ ∀ y ∈ l, Canonical y.2 := by
  induction l with
  | nil => simp [CanonicalMembers]
  | cons p t ih =>
    obtain ⟨k, v⟩ := p
    simp [CanonicalMembers, ih]

theorem wellFormedElems_iff (l : List JSValue) :
    WellFormedElems l ↔ ∀ x ∈ l, WellFormed x := by
  induction l with
  | nil => simp [WellFormedElems]
  | cons x t ih => simp [WellFormedElems, ih]

theorem wellFormedMembers_iff (l : List (String × JSValue)) :
    WellFormedMembers l ↔ ∀ y ∈ l, WellFormed y.2 := by
  induction l with
  | nil => simp [WellFormedMembers]
  | cons p t ih =>
    obtain ⟨k, v⟩ := p
    simp [WellFormedMembers, ih]

theorem carried_defined (v : JSValue) : v.carried ≠ .undefined := by
  cases v <;> simp [JSValue.carried]

theorem carriedMembers_cons (k : String) (v : JSValue) (kvs : List (String × JSValue))
    (hv : v ≠ .undefined) :
    JSValue.carriedMembers ((k, v) :: kvs) = (k, v.carried) :: JSValue.carriedMembers kvs := by
  cases v with
  | undefined => exact absurd rfl hv
  | null => rw [JSValue.carriedMembers]; exact fun h => JSValue.noConfusion h
  | bool b => rw [JSValue.carriedMembers]; exact fun h => JSValue.noConfusion h
  | num n => rw [JSValue.carriedMembers]; exact fun h => JSValue.noConfusion h
  | dec m e => rw [JSValue.carriedMembers]; exact fun h => JSValue.noConfusion h
  | negZero => rw [JSValue.carriedMembers]; exact fun h => JSValue.noConfusion h
  | inf negative => rw [JSValue.carriedMembers]; exact fun h => JSValue.noConfusion h
  | str s => rw [JSValue.carriedMembers]; exact fun h => JSValue.noConfusion h
  | arr xs => rw [JSValue.carriedMembers]; exact fun h => JSValue.noConfusion h
  | obj xs => rw [JSValue.carriedMembers]; exact fun h => JSValue.noConfusion h

theorem carriedMembers_undefined (k : String) (kvs : List (String × JSValue)) :
    JSValue.carriedMembers ((k, .undefined) :: kvs) = JSValue.carriedMembers kvs := by
  rw [JSValue.carriedMembers]

theorem serializeMembers_undefined (gap indent : List Char) (k : String)
    (kvs : List (String × JSValue)) :
    serializeMembers gap indent ((k, .undefined) :: kvs) = serializeMembers gap indent kvs := by
  rw [serializeMembers]

/-- A member that is carried over is a member with a value, carried over. -/
theorem mem_carriedMembers (l : List (String × JSValue)) (y : String × JSValue)
    (h : y ∈ JSValue.carriedMembers l) :
    ∃ v, (y.1, v) ∈ l ∧ v ≠ .undefined ∧ y.2 = v.carried := by
  induction l with
  | nil => simp [JSValue.carriedMembers] at h
  | cons p t ih =>
    obtain ⟨k, v⟩ := p
    by_cases hv : v = .undefined
    · subst hv
      rw [carriedMembers_undefined] at h
      obtain ⟨w, hw, hd, he⟩ := ih h
      exact ⟨w, List.mem_cons_of_mem _ hw, hd, he⟩
    · rw [carriedMembers_cons k v t hv] at h
      rcases List.mem_cons.1 h with h | h
      · rw [h]
        exact ⟨v, List.mem_cons_self _ _, hv, rfl⟩
      · obtain ⟨w, hw, hd, he⟩ := ih h
        exact ⟨w, List.mem_cons_of_mem _ hw, hd, he⟩

theorem ordered_carriedMembers (l : List (String × JSValue)) (h : Ordered l) :
    Ordered (JSValue.carriedMembers l) := by
  induction l with
  | nil => simpa [JSValue.carriedMembers] using h
  | cons p t ih =>
    obtain ⟨k, v⟩ := p
    have hp : ∀ y ∈ t, KeyBefore (k, v) y := (List.pairwise_cons.1 h).1
    have ht : Ordered t := (List.pairwise_cons.1 h).2
    by_cases hv : v = .undefined
    · subst hv
      rw [carriedMembers_undefined]
      exact ih ht
    · rw [carriedMembers_cons k v t hv]
      refine List.pairwise_cons.2 ⟨?_, ih ht⟩
      intro y hy
      obtain ⟨w, hw, _, _⟩ := mem_carriedMembers t y hy
      exact ((hp _ hw).left (c := (k, v.carried)) rfl).right (c := y) rfl

theorem ordered_of_eq (l : List (String × JSValue)) (h : mkObject l = l) : Ordered l := by
  rw [← h]
  exact ordered_mkObject l

/-- What is carried over of a well-formed value is canonical. -/
theorem canonical_carried (n : Nat) :
    (∀ v, nodes v ≤ n → WellFormed v → Canonical v.carried) ∧
    (∀ l, nodesElems l ≤ n → WellFormedElems l → CanonicalElems (JSValue.carriedElems l)) ∧
    (∀ l, nodesMembers l ≤ n → WellFormedMembers l →
      CanonicalMembers (JSValue.carriedMembers l)) := by
  induction n with
  | zero =>
    refine ⟨?_, ?_, ?_⟩
    · intro v hn
      cases v <;> simp [nodes] at hn
    · intro l hn
      cases l with
      | nil => intro _; trivial
      | cons x t => simp [nodesElems] at hn
    · intro l hn
      cases l with
      | nil => intro _; trivial
      | cons p t =>
        obtain ⟨k, v⟩ := p
        simp [nodesMembers] at hn
  | succ n ih =>
    obtain ⟨ihV, ihE, ihM⟩ := ih
    refine ⟨?_, ?_, ?_⟩
    · intro v hn hv
      cases v with
      | undefined => simp [JSValue.carried, Canonical]
      | null => simp [JSValue.carried, Canonical]
      | bool b => simp [JSValue.carried, Canonical]
      | num z =>
        simp only [WellFormed] at hv
        simpa [JSValue.carried, Canonical] using hv
      | dec m e =>
        simp only [WellFormed] at hv
        simp only [JSValue.carried, Canonical]
        exact hv
      | negZero =>
        simp only [JSValue.carried, Canonical]
        decide
      | inf negative => simp [JSValue.carried, Canonical]
      | str s => simp [JSValue.carried, Canonical]
      | arr xs =>
        simp only [nodes] at hn
        simp only [WellFormed] at hv
        simp only [JSValue.carried, Canonical]
        exact ihE xs (by omega) hv
      | obj kvs =>
        simp only [nodes] at hn
        simp only [WellFormed] at hv
        simp only [JSValue.carried, Canonical]
        exact ⟨mkObject_of_ordered _ (ordered_carriedMembers kvs (ordered_of_eq kvs hv.1)),
          ihM kvs (by omega) hv.2⟩
    · intro l hn hl
      cases l with
      | nil => trivial
      | cons x t =>
        simp only [nodesElems] at hn
        simp only [WellFormedElems] at hl
        simp only [JSValue.carriedElems, CanonicalElems]
        exact ⟨ihV x (by omega) hl.1, ihE t (by omega) hl.2⟩
    · intro l hn hl
      cases l with
      | nil => trivial
      | cons p t =>
        obtain ⟨k, v⟩ := p
        simp only [nodesMembers] at hn
        simp only [WellFormedMembers] at hl
        by_cases hv : v = .undefined
        · subst hv
          rw [carriedMembers_undefined]
          exact ihM t (by omega) hl.2
        · rw [carriedMembers_cons k v t hv]
          simp only [CanonicalMembers]
          exact ⟨ihV v (by omega) hl.1, ihM t (by omega) hl.2⟩

/-- The text of a value is the text of what is carried over of it. -/
theorem serialize_carried (n : Nat) :
    (∀ v gap indent, nodes v ≤ n →
      serialize gap indent v.carried = serialize gap indent v) ∧
    (∀ l gap indent, nodesElems l ≤ n →
      serializeElems gap indent (JSValue.carriedElems l) = serializeElems gap indent l) ∧
    (∀ l gap indent, nodesMembers l ≤ n →
      serializeMembers gap indent (JSValue.carriedMembers l) =
        serializeMembers gap indent l) := by
  induction n with
  | zero =>
    refine ⟨?_, ?_, ?_⟩
    · intro v gap indent hn
      cases v <;> simp [nodes] at hn
    · intro l gap indent hn
      cases l with
      | nil => rfl
      | cons x t => simp [nodesElems] at hn
    · intro l gap indent hn
      cases l with
      | nil => rfl
      | cons p t =>
        obtain ⟨k, v⟩ := p
        simp [nodesMembers] at hn
  | succ n ih =>
    obtain ⟨ihV, ihE, ihM⟩ := ih
    refine ⟨?_, ?_, ?_⟩
    · intro v gap indent hn
      cases v with
      | undefined => simp [JSValue.carried, serialize]
      | null => rfl
      | bool b => rfl
      | num z => rfl
      | dec m e => rfl
      | negZero =>
        simp only [JSValue.carried, serialize]
        decide
      | inf negative => simp [JSValue.carried, serialize]
      | str s => rfl
      | arr xs =>
        simp only [nodes] at hn
        cases xs with
        | nil => rfl
        | cons x t =>
          have h1 := ihE (x :: t) gap indent (by omega)
          have h2 := ihE (x :: t) gap (indent ++ gap) (by omega)
          simp only [JSValue.carried, JSValue.carriedElems] at h1 h2 ⊢
          rw [serialize, serialize]
          simp only [h1, h2]
      | obj kvs =>
        simp only [nodes] at hn
        have h1 := ihM kvs gap indent (by omega)
        have h2 := ihM kvs gap (indent ++ gap) (by omega)
        simp only [JSValue.carried]
        rw [serialize, serialize]
        simp only [h1, h2]
    · intro l gap indent hn
      cases l with
      | nil => rfl
      | cons x t =>
        simp only [nodesElems] at hn
        cases t with
        | nil =>
          simp only [JSValue.carriedElems, serializeElems]
          exact ihV x gap indent (by omega)
        | cons y ys =>
          have h1 := ihV x gap indent (by omega)
          have h2 := ihE (y :: ys) gap indent (by omega)
          simp only [JSValue.carriedElems] at h2 ⊢
          rw [serializeElems, serializeElems, h1, h2]
    · intro l gap indent hn
      cases l with
      | nil => rfl
      | cons p t =>
        obtain ⟨k, v⟩ := p
        simp only [nodesMembers] at hn
        have h2 := ihM t gap indent (by omega)
        by_cases hv : v = .undefined
        · subst hv
          rw [carriedMembers_undefined, serializeMembers_undefined]
          exact h2
        · rw [carriedMembers_cons k v t hv,
            serializeMembers_cons gap indent k v.carried _ (carried_defined v),
            serializeMembers_cons gap indent k v t hv, h2, ihV v gap indent (by omega)]

theorem serialize_carried_eq (gap indent : List Char) (v : JSValue) :
    serialize gap indent v.carried = serialize gap indent v :=
  (serialize_carried (nodes v)).1 v gap indent (Nat.le_refl _)

theorem canonical_of_wellFormed (v : JSValue) (h : WellFormed v) : Canonical v.carried :=
  (canonical_carried (nodes v)).1 v (Nat.le_refl _) h

/-- Parsing the text written for a well-formed value gives what is carried
over of it. -/
theorem parse_serialize_carried (gap : List Char) (v : JSValue) (hg : Blank gap)
    (hv : WellFormed v) : parse (String.mk (serialize gap [] v)) = .ok v.carried := by
  rw [← serialize_carried_eq]
  exact parse_serialize gap v.carried hg (canonical_of_wellFormed v hv)

end JSON

/-! ## Plain values and what the parser returns -/

namespace JSON

theorem length_carriedMembers (l : List (String × JSValue)) :
    (JSValue.carriedMembers l).length ≤ l.length := by
  induction l with
  | nil => simp [JSValue.carriedMembers]
  | cons p t ih =>
    obtain ⟨k, v⟩ := p
    by_cases hv : v = .undefined
    · subst hv
      rw [carriedMembers_undefined]
      simp only [List.length_cons]
      omega
    · rw [carriedMembers_cons k v t hv]
      simp only [List.length_cons]
      omega

/-- A value is carried over unchanged exactly when it is plain. -/
theorem carried_eq_iff (n : Nat) :
    (∀ v, nodes v ≤ n → (v.carried = v ↔ v.plain = true)) ∧
    (∀ l, nodesElems l ≤ n → (JSValue.carriedElems l = l ↔ JSValue.plainElems l = true)) ∧
    (∀ l, nodesMembers l ≤ n →
      (JSValue.carriedMembers l = l ↔ JSValue.plainMembers l = true)) := by
  induction n with
  | zero =>
    refine ⟨?_, ?_, ?_⟩
    · intro v hn
      cases v <;> simp [nodes] at hn
    · intro l hn
      cases l with
      | nil => simp [JSValue.carriedElems, JSValue.plainElems]
      | cons x t => simp [nodesElems] at hn
    · intro l hn
      cases l with
      | nil => simp [JSValue.carriedMembers, JSValue.plainMembers]
      | cons p t =>
        obtain ⟨k, v⟩ := p
        simp [nodesMembers] at hn
  | succ n ih =>
    obtain ⟨ihV, ihE, ihM⟩ := ih
    refine ⟨?_, ?_, ?_⟩
    · intro v hn
      cases v with
      | undefined => simp [JSValue.carried, JSValue.plain]
      | null => simp [JSValue.carried, JSValue.plain]
      | bool b => simp [JSValue.carried, JSValue.plain]
      | num z => simp [JSValue.carried, JSValue.plain]
      | dec m e => simp [JSValue.carried, JSValue.plain]
      | negZero => simp [JSValue.carried, JSValue.plain]
      | inf negative => simp [JSValue.carried, JSValue.plain]
      | str s => simp [JSValue.carried, JSValue.plain]
      | arr xs =>
        simp only [nodes] at hn
        simp only [JSValue.carried, JSValue.plain, JSValue.arr.injEq]
        exact ihE xs (by omega)
      | obj kvs =>
        simp only [nodes] at hn
        simp only [JSValue.carried, JSValue.plain, JSValue.obj.injEq]
        exact ihM kvs (by omega)
    · intro l hn
      cases l with
      | nil => simp [JSValue.carriedElems, JSValue.plainElems]
      | cons x t =>
        simp only [nodesElems] at hn
        simp only [JSValue.carriedElems, JSValue.plainElems, List.cons.injEq, Bool.and_eq_true]
        rw [ihV x (by omega), ihE t (by omega)]
    · intro l hn
      cases l with
      | nil => simp [JSValue.carriedMembers, JSValue.plainMembers]
      | cons p t =>
        obtain ⟨k, v⟩ := p
        simp only [nodesMembers] at hn
        by_cases hv : v = .undefined
        · subst hv
          rw [carriedMembers_undefined]
          simp only [JSValue.plainMembers, JSValue.plain, Bool.false_and, Bool.false_eq_true,
            iff_false]
          intro he
          have h1 := length_carriedMembers t
          rw [he] at h1
          simp only [List.length_cons] at h1
          omega
        · rw [carriedMembers_cons k v t hv]
          simp only [JSValue.plainMembers, List.cons.injEq, Prod.mk.injEq, true_and,
            Bool.and_eq_true]
          rw [ihV v (by omega), ihM t (by omega)]

theorem carriedElems_eq_iff (l : List JSValue) :
    JSValue.carriedElems l = l ↔ JSValue.plainElems l = true :=
  (carried_eq_iff (nodesElems l)).2.1 l (Nat.le_refl _)

/-- A canonical value is well formed and plain. -/
theorem canonical_spec (n : Nat) :
    (∀ v, nodes v ≤ n → Canonical v → WellFormed v ∧ v.plain = true) ∧
    (∀ l, nodesElems l ≤ n → CanonicalElems l →
      WellFormedElems l ∧ JSValue.plainElems l = true) ∧
    (∀ l, nodesMembers l ≤ n → CanonicalMembers l →
      WellFormedMembers l ∧ JSValue.plainMembers l = true) := by
  induction n with
  | zero =>
    refine ⟨?_, ?_, ?_⟩
    · intro v hn
      cases v <;> simp [nodes] at hn
    · intro l hn
      cases l with
      | nil => intro _; exact ⟨trivial, rfl⟩
      | cons x t => simp [nodesElems] at hn
    · intro l hn
      cases l with
      | nil => intro _; exact ⟨trivial, rfl⟩
      | cons p t =>
        obtain ⟨k, v⟩ := p
        simp [nodesMembers] at hn
  | succ n ih =>
    obtain ⟨ihV, ihE, ihM⟩ := ih
    refine ⟨?_, ?_, ?_⟩
    · intro v hn hv
      cases v with
      | undefined => exact absurd hv (by simp [Canonical])
      | null => exact ⟨trivial, rfl⟩
      | bool b => exact ⟨trivial, rfl⟩
      | num z =>
        simp only [Canonical] at hv
        exact ⟨by simp only [WellFormed]; exact hv, rfl⟩
      | dec m e =>
        simp only [Canonical] at hv
        exact ⟨by simp only [WellFormed]; exact hv, rfl⟩
      | negZero => exact absurd hv (by simp [Canonical])
      | inf negative => exact absurd hv (by simp [Canonical])
      | str s => exact ⟨trivial, rfl⟩
      | arr xs =>
        simp only [nodes] at hn
        simp only [Canonical] at hv
        simp only [WellFormed, JSValue.plain]
        exact ihE xs (by omega) hv
      | obj kvs =>
        simp only [nodes] at hn
        simp only [Canonical] at hv
        simp only [WellFormed, JSValue.plain]
        exact ⟨⟨hv.1, (ihM kvs (by omega) hv.2).1⟩, (ihM kvs (by omega) hv.2).2⟩
    · intro l hn hl
      cases l with
      | nil => exact ⟨trivial, rfl⟩
      | cons x t =>
        simp only [nodesElems] at hn
        simp only [CanonicalElems] at hl
        simp only [WellFormedElems, JSValue.plainElems, Bool.and_eq_true]
        exact ⟨⟨(ihV x (by omega) hl.1).1, (ihE t (by omega) hl.2).1⟩,
          (ihV x (by omega) hl.1).2, (ihE t (by omega) hl.2).2⟩
    · intro l hn hl
      cases l with
      | nil => exact ⟨trivial, rfl⟩
      | cons p t =>
        obtain ⟨k, v⟩ := p
        simp only [nodesMembers] at hn
        simp only [CanonicalMembers] at hl
        simp only [WellFormedMembers, JSValue.plainMembers, Bool.and_eq_true]
        exact ⟨⟨(ihV v (by omega) hl.1).1, (ihM t (by omega) hl.2).1⟩,
          (ihV v (by omega) hl.1).2, (ihM t (by omega) hl.2).2⟩

theorem Canonical.wellFormed {v : JSValue} (h : Canonical v) : WellFormed v :=
  ((canonical_spec (nodes v)).1 v (Nat.le_refl _) h).1

theorem wellFormedElems_of_canonical (l : List JSValue) (h : CanonicalElems l) :
    WellFormedElems l :=
  ((canonical_spec (nodesElems l)).2.1 l (Nat.le_refl _) h).1

theorem carriedElems_of_canonical (l : List JSValue) (h : CanonicalElems l) :
    JSValue.carriedElems l = l :=
  (carriedElems_eq_iff l).2 ((canonical_spec (nodesElems l)).2.1 l (Nat.le_refl _) h).2

theorem canonicalElems_carried (l : List JSValue) (h : WellFormedElems l) :
    CanonicalElems (JSValue.carriedElems l) :=
  (canonical_carried (nodesElems l)).2.1 l (Nat.le_refl _) h

/-! ### What the parser returns is well formed -/

theorem normDec_wellFormed (k : Nat) : ∀ z : Int, z ≠ 0 →
    ¬ (overflowBound * 10 ^ k ≤ z.natAbs) → ¬ (z.natAbs * underflowScale ≤ 10 ^ k) →
    WellFormed (normDec z k) := by
  induction k with
  | zero =>
    intro z _ h _
    simp only [normDec, WellFormed, overflows]
    simpa using h
  | succ j ih =>
    intro z hz h hu
    rw [normDec]
    by_cases hm : z % 10 = 0
    · rw [if_pos hm]
      have h10 : z.natAbs = 10 * (z / 10).natAbs := by omega
      apply ih
      · omega
      · intro hle
        apply h
        rw [h10, pow_succ]
        calc overflowBound * (10 ^ j * 10) = 10 * (overflowBound * 10 ^ j) := by ring
          _ ≤ 10 * (z / 10).natAbs := Nat.mul_le_mul_left 10 hle
      · intro hle
        apply hu
        rw [h10, pow_succ]
        calc 10 * (z / 10).natAbs * underflowScale
            = 10 * ((z / 10).natAbs * underflowScale) := by ring
          _ ≤ 10 * 10 ^ j := Nat.mul_le_mul_left 10 hle
          _ = 10 ^ j * 10 := by ring
    · rw [if_neg hm]
      have hneg : ¬ (0 : Int) ≤ -((j : Int) + 1) := by omega
      have hab : (-((j : Int) + 1)).natAbs = j + 1 := by omega
      have hlt : -((j : Int) + 1) < 0 := by omega
      simp only [WellFormed, overflows, underflows, if_neg hneg, hab]
      refine ⟨hlt, hm, by simpa using h, ?_⟩
      simp only [Bool.or_eq_false_iff, Bool.and_eq_false_iff, decide_eq_false_iff_not,
        beq_eq_false_iff_ne, ne_eq]
      exact ⟨hz, Or.inr hu⟩

theorem mkNumber_wellFormed (negative : Bool) (m : Nat) (e : Int) :
    WellFormed (mkNumber negative m e) := by
  unfold mkNumber
  by_cases ho : overflows (m : Int) e = true
  · rw [if_pos ho]
    trivial
  · rw [if_neg ho]
    by_cases hu : underflows (m : Int) e = true
    · rw [if_pos hu]
      cases negative
      · simp only [Bool.false_eq_true, if_false, WellFormed]
        decide
      · simp only [if_true]
        trivial
    · rw [if_neg hu]
      simp only [Bool.not_eq_true] at ho hu
      have hm0 : m ≠ 0 := by
        intro h0
        subst h0
        simp [underflows] at hu
      have hs : ∀ b : Bool, (if b then -(m : Int) else (m : Int)).natAbs = m := by
        intro b
        cases b <;> simp
      have hs0 : ∀ b : Bool, (if b then -(m : Int) else (m : Int)) ≠ 0 := by
        intro b
        cases b
        · simp only [Bool.false_eq_true, if_false]
          omega
        · simp only [if_true]
          omega
      by_cases he : 0 ≤ e
      · rw [if_pos he]
        simp only [overflows, if_pos he, decide_eq_false_iff_not, Int.natAbs_ofNat] at ho
        simp only [WellFormed, overflows]
        simp only [le_refl, if_true, Int.toNat_zero, pow_zero, mul_one, decide_eq_false_iff_not]
        rw [Int.natAbs_mul, Int.natAbs_pow, hs]
        exact ho
      · rw [if_neg he]
        simp only [overflows, if_neg he, decide_eq_false_iff_not, Int.natAbs_ofNat] at ho
        have he' : e < 0 := by omega
        simp only [underflows, Bool.or_eq_false_iff, Bool.and_eq_false_iff,
          decide_eq_false_iff_not, beq_eq_false_iff_ne, ne_eq, Int.natAbs_ofNat] at hu
        have hu' : ¬ (m * underflowScale ≤ 10 ^ e.natAbs) := by
          rcases hu.2 with h | h
          · exact absurd he' h
          · exact h
        apply normDec_wellFormed
        · exact hs0 negative
        · rw [hs]
          exact ho
        · rw [hs]
          exact hu'

theorem parseUnsigned_wellFormed (negative : Bool) (cs : List Char) (v : JSValue)
    (r : List Char) (h : parseUnsigned negative cs = some (v, r)) : WellFormed v := by
  unfold parseUnsigned at h
  cases h1 : parseIntPart cs with
  | none => simp [h1] at h
  | some q1 =>
    cases h2 : parseFraction q1.2 with
    | none => simp [h1, h2] at h
    | some q2 =>
      cases h3 : parseExponent q2.2 with
      | none => simp [h1, h2, h3] at h
      | some q3 =>
        simp only [h1, h2, h3, Option.some.injEq, Prod.mk.injEq] at h
        rw [← h.1]
        exact mkNumber_wellFormed _ _ _

theorem parseNumber_wellFormed (cs : List Char) (v : JSValue) (r : List Char)
    (h : parseNumber cs = some (v, r)) : WellFormed v := by
  rw [parseNumber.eq_def] at h
  split at h
  · exact parseUnsigned_wellFormed true _ v r h
  · exact parseUnsigned_wellFormed false _ v r h

theorem parseLiteral_wellFormed (cs : List Char) (v : JSValue) (r : List Char)
    (h : parseLiteral cs = some (v, r)) : WellFormed v := by
  unfold parseLiteral at h
  cases h1 : dropLiteral ['n', 'u', 'l', 'l'] cs with
  | some r1 =>
    simp only [h1, Option.some.injEq, Prod.mk.injEq] at h
    rw [← h.1]
    trivial
  | none =>
    cases h2 : dropLiteral ['t', 'r', 'u', 'e'] cs with
    | some r1 =>
      simp only [h1, h2, Option.some.injEq, Prod.mk.injEq] at h
      rw [← h.1]
      trivial
    | none =>
      cases h3 : dropLiteral ['f', 'a', 'l', 's', 'e'] cs with
      | some r1 =>
        simp only [h1, h2, h3, Option.some.injEq, Prod.mk.injEq] at h
        rw [← h.1]
        trivial
      | none =>
        simp only [h1, h2, h3] at h
        exact parseNumber_wellFormed cs v r h

theorem wellFormed_mkObject (l : List (String × JSValue))
    (h : ∀ y ∈ l, WellFormed y.2) : WellFormed (.obj (mkObject l)) := by
  rw [WellFormed]
  refine ⟨mkObject_of_ordered _ (ordered_mkObject l), ?_⟩
  rw [wellFormedMembers_iff]
  intro y hy
  exact h y (mem_mkObject l y hy)

/-- What the parser returns is well formed. -/
theorem parse_wellFormed (F : Nat) :
    (∀ cs v r, parseValue F cs = some (v, r) → WellFormed v) ∧
    (∀ cs l r, parseElems F cs = some (l, r) → ∀ x ∈ l, WellFormed x) ∧
    (∀ cs l r, parseMembers F cs = some (l, r) → ∀ y ∈ l, WellFormed y.2) := by
  induction F with
  | zero =>
    refine ⟨?_, ?_, ?_⟩
    · intro cs v r h
      rw [parseValue] at h
      cases h
    · intro cs l r h
      rw [parseElems] at h
      cases h
    · intro cs l r h
      rw [parseMembers] at h
      cases h
  | succ F ih =>
    obtain ⟨ihV, ihE, ihM⟩ := ih
    refine ⟨?_, ?_, ?_⟩
    · intro cs v r h
      rw [parseValue] at h
      cases hsk : skipWs cs with
      | nil =>
        rw [hsk] at h
        cases h
      | cons c rest =>
        rw [hsk] at h
        simp only at h
        by_cases h1 : c = '"'
        · rw [if_pos h1] at h
          cases hq : parseChars rest with
          | none =>
            rw [hq] at h
            cases h
          | some q =>
            rw [hq] at h
            simp only [Option.map_some', Option.some.injEq, Prod.mk.injEq] at h
            rw [← h.1]
            trivial
        rw [if_neg h1] at h
        by_cases h2 : c = '['
        · rw [if_pos h2] at h
          cases hsk2 : skipWs rest with
          | nil =>
            rw [hsk2] at h
            cases h
          | cons c1 rest1 =>
            rw [hsk2] at h
            simp only at h
            by_cases h3 : c1 = ']'
            · rw [if_pos h3] at h
              simp only [Option.some.injEq, Prod.mk.injEq] at h
              rw [← h.1]
              simp [WellFormed, WellFormedElems]
            · rw [if_neg h3] at h
              cases hq : parseElems F (c1 :: rest1) with
              | none =>
                rw [hq] at h
                cases h
              | some q =>
                obtain ⟨l, r1⟩ := q
                rw [hq] at h
                simp only [Option.map_some', Option.some.injEq, Prod.mk.injEq] at h
                rw [← h.1]
                rw [WellFormed, wellFormedElems_iff]
                exact ihE _ l r1 hq
        rw [if_neg h2] at h
        by_cases h4 : c = '{'
        · rw [if_pos h4] at h
          cases hsk2 : skipWs rest with
          | nil =>
            rw [hsk2] at h
            cases h
          | cons c1 rest1 =>
            rw [hsk2] at h
            simp only at h
            by_cases h3 : c1 = '}'
            · rw [if_pos h3] at h
              simp only [Option.some.injEq, Prod.mk.injEq] at h
              rw [← h.1]
              simp [WellFormed, WellFormedMembers, mkObject]
            · rw [if_neg h3] at h
              cases hq : parseMembers F (c1 :: rest1) with
              | none =>
                rw [hq] at h
                cases h
              | some q =>
                obtain ⟨l, r1⟩ := q
                rw [hq] at h
                simp only [Option.map_some', Option.some.injEq, Prod.mk.injEq] at h
                rw [← h.1]
                exact wellFormed_mkObject l (ihM _ l r1 hq)
        rw [if_neg h4] at h
        exact parseLiteral_wellFormed (c :: rest) v r h
    · intro cs l r h
      rw [parseElems] at h
      cases hv : parseValue F cs with
      | none =>
        rw [hv] at h
        cases h
      | some q =>
        obtain ⟨v, r0⟩ := q
        rw [hv] at h
        simp only at h
        cases hsk : skipWs r0 with
        | nil =>
          rw [hsk] at h
          cases h
        | cons c r1 =>
          rw [hsk] at h
          simp only at h
          by_cases h1 : c = ','
          · rw [if_pos h1] at h
            cases hq : parseElems F r1 with
            | none =>
              rw [hq] at h
              cases h
            | some q =>
              obtain ⟨l1, r2⟩ := q
              rw [hq] at h
              simp only [Option.map_some', Option.some.injEq, Prod.mk.injEq] at h
              rw [← h.1]
              intro x hx
              rcases List.mem_cons.1 hx with hx | hx
              · rw [hx]
                exact ihV cs v r0 hv
              · exact ihE r1 l1 r2 hq x hx
          · rw [if_neg h1] at h
            by_cases h2 : c = ']'
            · rw [if_pos h2] at h
              simp only [Option.some.injEq, Prod.mk.injEq] at h
              rw [← h.1]
              intro x hx
              rw [List.mem_singleton] at hx
              rw [hx]
              exact ihV cs v r0 hv
            · rw [if_neg h2] at h
              cases h
    · intro cs l r h
      rw [parseMembers] at h
      cases hsk : skipWs cs with
      | nil =>
        rw [hsk] at h
        cases h
      | cons q0 r0 =>
        rw [hsk] at h
        simp only at h
        by_cases h1 : q0 = '"'
        · rw [if_pos h1] at h
          cases hk : parseChars r0 with
          | none =>
            rw [hk] at h
            cases h
          | some kq =>
            obtain ⟨k, r1⟩ := kq
            rw [hk] at h
            simp only at h
            cases hsk1 : skipWs r1 with
            | nil =>
              rw [hsk1] at h
              cases h
            | cons c r2 =>
              rw [hsk1] at h
              simp only at h
              by_cases h2 : c = ':'
              · rw [if_pos h2] at h
                cases hv : parseValue F r2 with
                | none =>
                  rw [hv] at h
                  cases h
                | some vq =>
                  obtain ⟨v, r3⟩ := vq
                  rw [hv] at h
                  simp only at h
                  cases hsk3 : skipWs r3 with
                  | nil =>
                    rw [hsk3] at h
                    cases h
                  | cons c1 r4 =>
                    rw [hsk3] at h
                    simp only at h
                    by_cases h3 : c1 = ','
                    · rw [if_pos h3] at h
                      cases hq : parseMembers F r4 with
                      | none =>
                        rw [hq] at h
                        cases h
                      | some q =>
                        obtain ⟨l1, r5⟩ := q
                        rw [hq] at h
                        simp only [Option.map_some', Option.some.injEq, Prod.mk.injEq] at h
                        rw [← h.1]
                        intro y hy
                        rcases List.mem_cons.1 hy with hy | hy
                        · rw [hy]
                          exact ihV r2 v r3 hv
                        · exact ihM r4 l1 r5 hq y hy
                    · rw [if_neg h3] at h
                      by_cases h5 : c1 = '}'
                      · rw [if_pos h5] at h
                        simp only [Option.some.injEq, Prod.mk.injEq] at h
                        rw [← h.1]
                        intro y hy
                        rw [List.mem_singleton] at hy
                        rw [hy]
                        exact ihV r2 v r3 hv
                      · rw [if_neg h5] at h
                        cases h
              · rw [if_neg h2] at h
                cases h
        · rw [if_neg h1] at h
          cases h

/-- A value that `JSON.parse` returns is well formed. -/
theorem wellFormed_of_parse (text : String) (v : JSValue) (h : parse text = .ok v) :
    WellFormed v := by
  unfold parse at h
  cases hp : parseValue (2 * text.length + 2) text.data with
  | none =>
    rw [hp] at h
    cases h
  | some q =>
    obtain ⟨v1, r⟩ := q
    rw [hp] at h
    simp only at h
    cases hsk : skipWs r with
    | nil =>
      rw [hsk] at h
      simp only [Except.ok.injEq] at h
      rw [← h]
      exact (parse_wellFormed _).1 _ v1 r hp
    | cons c t =>
      rw [hsk] at h
      cases h

end JSON

/-! ## The stored saved chats and the saved chats in memory -/

theorem parse_stringify_arr (xs : List JSValue) (h : JSON.WellFormedElems xs) :
    JSON.parse (JSON.stringify (.arr xs)) = .ok (.arr (JSValue.carriedElems xs)) := by
  have := JSON.parse_serialize_carried [] (.arr xs) JSON.Blank.nil
    (by rw [JSON.WellFormed]; exact h)
  simpa [JSValue.carried, JSON.stringify] using this

theorem archiveInv_store (st : AppState) (xs : List JSValue) (rv : String)
    (h : JSON.WellFormedElems xs) :
    ArchiveInv { st with
      savedChats := xs, storedChats := some (JSON.stringify (.arr xs)), renameValue := rv } :=
  ⟨parse_stringify_arr xs h, h⟩

theorem archiveInv_initial (id0 : String) : ArchiveInv (initialState id0) :=
  ⟨rfl, trivial⟩

theorem archiveInv_saveChat (st : AppState) (now : Int) (h : ArchiveInv st)
    (hn : JSON.overflows now 0 = false) : ArchiveInv (saveChat st now) := by
  unfold saveChat
  by_cases hm : (messages st).length = 0
  · rw [if_pos hm]
    exact h
  · rw [if_neg hm]
    cases hc : currentSession st with
    | none => exact h
    | some s =>
      have hx : JSON.WellFormedElems (st.savedChats ++
          [ArchiveEntry.toJS { id := now, name := s.name, messages := messages st }]) := by
        rw [JSON.wellFormedElems_iff]
        intro x hx
        rcases List.mem_append.1 hx with hx | hx
        · exact (JSON.wellFormedElems_iff _).1 h.2 x hx
        · rw [List.mem_singleton] at hx
          rw [hx]
          exact (canonical_entry _ hn).wellFormed
      exact ⟨parse_stringify_arr _ hx, hx⟩

theorem mem_indexed (xs : List JSValue) : ∀ (i : Nat) (y : String × JSValue),
    y ∈ indexed i xs → y.2 ∈ xs := by
  induction xs with
  | nil =>
    intro i y h
    simp [indexed] at h
  | cons x t ih =>
    intro i y h
    rw [indexed] at h
    rcases List.mem_cons.1 h with h | h
    · rw [h]
      exact List.mem_cons_self _ _
    · exact List.mem_cons_of_mem _ (ih (i + 1) y h)

theorem wellFormed_ownProps (c : JSValue) (h : JSON.WellFormed c) :
    ∀ y ∈ ownProps c, JSON.WellFormed y.2 := by
  intro y hy
  cases c with
  | null => simp [ownProps] at hy
  | bool b => simp [ownProps] at hy
  | num n => simp [ownProps] at hy
  | dec m e => simp [ownProps] at hy
  | inf negative => simp [ownProps] at hy
  | negZero => simp [ownProps] at hy
  | undefined => simp [ownProps] at hy
  | str s =>
    simp only [ownProps] at hy
    have := mem_indexed _ 0 y hy
    obtain ⟨ch, _, hch⟩ := List.mem_map.1 this
    rw [← hch]
    simp [JSON.WellFormed]
  | arr xs =>
    simp only [ownProps] at hy
    simp only [JSON.WellFormed] at h
    exact (JSON.wellFormedElems_iff xs).1 h _ (mem_indexed xs 0 y hy)
  | obj kvs =>
    simp only [ownProps] at hy
    simp only [JSON.WellFormed] at h
    exact (JSON.wellFormedMembers_iff kvs).1 h.2 y hy

theorem mem_of_lookup (k : String) (v : JSValue) (kvs : List (String × JSValue))
    (h : kvs.lookup k = some v) : (k, v) ∈ kvs := by
  induction kvs with
  | nil => simp at h
  | cons p t ih =>
    obtain ⟨k1, v1⟩ := p
    rw [List.lookup_cons] at h
    by_cases hk : (k == k1) = true
    · rw [hk] at h
      simp only [Option.some.injEq] at h
      have : k = k1 := by simpa using hk
      rw [this, h]
      exact List.mem_cons_self _ _
    · simp only [Bool.not_eq_true] at hk
      rw [hk] at h
      exact List.mem_cons_of_mem _ (ih h)

theorem wellFormed_readProp (k : String) (c v : JSValue) (h : JSON.WellFormed c)
    (hr : readProp k c = some (some v)) : JSON.WellFormed v := by
  cases c with
  | obj kvs =>
    simp only [readProp] at hr
    simp only [JSON.WellFormed] at h
    cases hl : kvs.lookup k with
    | none =>
      rw [hl] at hr
      cases hr
    | some w =>
      have hw := (JSON.wellFormedMembers_iff kvs).1 h.2 _ (mem_of_lookup k w kvs hl)
      rw [hl] at hr
      cases w <;> simp only [Option.some.injEq] at hr <;> first
        | (rw [← hr]; exact hw)
        | cases hr
  | null => simp [readProp] at hr
  | bool b => simp [readProp] at hr
  | num n => simp [readProp] at hr
  | dec m e => simp [readProp] at hr
  | inf negative => simp [readProp] at hr
  | negZero => simp [readProp] at hr
  | undefined => simp [readProp] at hr
  | str s => simp [readProp] at hr
  | arr xs => simp [readProp] at hr

theorem wellFormed_spread_name (c v : JSValue) (h : JSON.WellFormed c)
    (hv : JSON.WellFormed v) :
    JSON.WellFormed (.obj (JSON.objSet "name" v (JSON.mkObject (ownProps c)))) := by
  rw [JSON.WellFormed]
  refine ⟨JSON.mkObject_of_ordered _ (JSON.ordered_objSet _ _ _ (JSON.ordered_mkObject _)), ?_⟩
  rw [JSON.wellFormedMembers_iff]
  intro y hy
  rcases JSON.mem_objSet _ _ _ y hy with hy | hy
  · rw [hy]
    exact hv
  · exact wellFormed_ownProps c h y (JSON.mem_mkObject _ y hy)

theorem wellFormed_renameEntry (clicked : Option Nat) (id : Option JSValue) (rv : JSValue)
    (j : Nat) (c c1 : JSValue) (h : JSON.WellFormed c) (hrv : JSON.WellFormed rv)
    (hr : renameEntry clicked id rv j c = some c1) : JSON.WellFormed c1 := by
  unfold renameEntry at hr
  cases hid : readProp "id" c with
  | none =>
    rw [hid] at hr
    cases hr
  | some cid =>
    rw [hid] at hr
    simp only at hr
    by_cases hs : idEquals clicked id j cid = true
    · rw [if_pos hs] at hr
      by_cases hv : rv.truthy = true
      · rw [if_pos hv] at hr
        simp only [Option.some.injEq] at hr
        rw [← hr]
        exact wellFormed_spread_name c _ h hrv
      · rw [if_neg hv] at hr
        cases hn : readProp "name" c with
        | none =>
          rw [hn] at hr
          simp only [Option.some.injEq] at hr
          rw [← hr]
          exact wellFormed_spread_name c _ h (by simp [JSON.WellFormed])
        | some nv =>
          rw [hn] at hr
          cases nv with
          | none =>
            simp only [Option.some.injEq] at hr
            rw [← hr]
            exact wellFormed_spread_name c _ h (by simp [JSON.WellFormed])
          | some v =>
            simp only [Option.some.injEq] at hr
            rw [← hr]
            exact wellFormed_spread_name c v h (wellFormed_readProp "name" c v h hn)
    · rw [if_neg hs] at hr
      simp only [Option.some.injEq] at hr
      rw [← hr]
      exact h

theorem wellFormed_renameAll (clicked : Option Nat) (id : Option JSValue) (rv : JSValue)
    (hrv : JSON.WellFormed rv) (cs : List JSValue) :
    ∀ j updated, JSON.WellFormedElems cs → renameAll clicked id rv j cs = some updated →
      JSON.WellFormedElems updated := by
  induction cs with
  | nil =>
    intro j updated _ hr
    simp only [renameAll, Option.some.injEq] at hr
    rw [← hr]
    trivial
  | cons c t ih =>
    intro j updated h hr
    simp only [JSON.WellFormedElems] at h
    rw [renameAll] at hr
    cases hc : renameEntry clicked id rv j c with
    | none =>
      rw [hc] at hr
      cases hr
    | some c1 =>
      rw [hc] at hr
      simp only at hr
      cases ht : renameAll clicked id rv (j + 1) t with
      | none =>
        rw [ht] at hr
        cases hr
      | some rest =>
        rw [ht] at hr
        simp only [Option.map_some', Option.some.injEq] at hr
        rw [← hr]
        exact ⟨wellFormed_renameEntry clicked id rv j c c1 h.1 hrv hc, ih (j + 1) rest h.2 ht⟩

theorem archiveInv_renameChatFrom (st st1 : AppState) (rv : JSValue) (clicked : Option Nat)
    (id : Option JSValue) (h : ArchiveInv st) (hrv : JSON.WellFormed rv)
    (hr : renameChatFrom st rv clicked id = some st1) : ArchiveInv st1 := by
  unfold renameChatFrom at hr
  cases hu : renameAll clicked id rv 0 st.savedChats with
  | none =>
    rw [hu] at hr
    cases hr
  | some updated =>
    rw [hu] at hr
    simp only [Option.map_some', Option.some.injEq] at hr
    rw [← hr]
    exact archiveInv_store st updated "" (wellFormed_renameAll _ _ _ hrv _ 0 updated h.2 hu)

theorem wellFormed_renameValue (a : ArchiveState) (h : PanelInv a) :
    JSON.WellFormed a.renameValue := by
  unfold ArchiveState.renameValue
  cases hh : a.held with
  | none => simp [JSON.WellFormed]
  | some v => exact h.2 v hh

theorem panelInv_renameChat (a : ArchiveState) (clicked : Option Nat) (id : Option JSValue)
    (h : PanelInv a) : PanelInv (a.renameChat clicked id) := by
  unfold ArchiveState.renameChat
  cases hr : renameChatFrom a.app a.renameValue clicked id with
  | none => exact h
  | some app =>
    exact ⟨archiveInv_renameChatFrom a.app app _ clicked id h.1 (wellFormed_renameValue a h) hr,
      fun v hv => by cases hv⟩

theorem panelInv_saveButton (a : ArchiveState) (i : Nat) (h : PanelInv a) :
    PanelInv (saveButton a i) := by
  unfold saveButton
  cases hc : a.app.savedChats.get? i with
  | none => exact h
  | some chat =>
    simp only
    cases hid : readProp "id" chat with
    | none => exact h
    | some id => exact panelInv_renameChat a (some i) id h

theorem panelInv_renameButton (a : ArchiveState) (k : Nat) (h : PanelInv a) :
    PanelInv (renameButton a k) := by
  unfold renameButton
  cases hc : a.app.savedChats.get? k with
  | none => exact h
  | some chat =>
    simp only
    have hchat : JSON.WellFormed chat :=
      (JSON.wellFormedElems_iff _).1 h.1.2 chat (List.get?_mem hc)
    cases hid : readProp "id" chat with
    | none => exact h
    | some id =>
      simp only
      cases hn : readProp "name" chat with
      | none => exact h
      | some nv =>
        cases nv with
        | none =>
          refine ⟨h.1, fun v hv => ?_⟩
          simp only [Option.some.injEq] at hv
          rw [← hv]
          trivial
        | some w =>
          have hw := wellFormed_readProp "name" chat w hchat hn
          cases w with
          | str s => exact ⟨h.1, fun v hv => by cases hv⟩
          | undefined =>
            refine ⟨h.1, fun v hv => ?_⟩
            simp only [Option.some.injEq] at hv
            rw [← hv]
            exact hw
          | null =>
            refine ⟨h.1, fun v hv => ?_⟩
            simp only [Option.some.injEq] at hv
            rw [← hv]
            exact hw
          | bool b =>
            refine ⟨h.1, fun v hv => ?_⟩
            simp only [Option.some.injEq] at hv
            rw [← hv]
            exact hw
          | num n =>
            refine ⟨h.1, fun v hv => ?_⟩
            simp only [Option.some.injEq] at hv
            rw [← hv]
            exact hw
          | dec m e =>
            refine ⟨h.1, fun v hv => ?_⟩
            simp only [Option.some.injEq] at hv
            rw [← hv]
            exact hw
          | negZero =>
            refine ⟨h.1, fun v hv => ?_⟩
            simp only [Option.some.injEq] at hv
            rw [← hv]
            exact hw
          | inf negative =>
            refine ⟨h.1, fun v hv => ?_⟩
            simp only [Option.some.injEq] at hv
            rw [← hv]
            exact hw
          | arr xs =>
            refine ⟨h.1, fun v hv => ?_⟩
            simp only [Option.some.injEq] at hv
            rw [← hv]
            exact hw
          | obj kvs =>
            refine ⟨h.1, fun v hv => ?_⟩
            simp only [Option.some.injEq] at hv
            rw [← hv]
            exact hw

theorem archiveInv_importAll (st : AppState) (txt : String) (h : ArchiveInv st) :
    ArchiveInv (importAll st txt).1 := by
  unfold importAll
  cases hp : JSON.parse txt with
  | error message => exact h
  | ok data =>
    have hc := JSON.wellFormed_of_parse txt data hp
    cases data with
    | arr xs =>
      simp only [JSON.WellFormed] at hc
      exact ⟨parse_stringify_arr xs hc, hc⟩
    | null => exact h
    | bool b => exact h
    | num n => exact h
    | dec m e => exact h
    | inf negative => exact h
    | negZero => exact h
    | undefined => exact h
    | str s => exact h
    | obj kvs => exact h

theorem parse_empty : JSON.parse "" = .error "Unexpected token in JSON" := rfl

/-- A load of the page after the handlers have stored the saved chats: the
stored text is the text of an array, and the saved chats become what the text
carries. -/
theorem archiveInv_reload (st : AppState) (id0 : String) (h : ArchiveInv st) :
    ∃ st1, reload st id0 = some st1 ∧ ArchiveInv st1 := by
  unfold reload startupLoad
  obtain ⟨hp, hc⟩ := h
  unfold persistedCarried at hp
  cases hs : st.storedChats with
  | none => exact ⟨_, rfl, rfl, trivial⟩
  | some stored =>
    rw [hs] at hp
    simp only at hp
    have hne : stored ≠ "" := by
      intro he
      rw [he, parse_empty] at hp
      cases hp
    simp only [if_neg hne, hp]
    have hcan := JSON.canonicalElems_carried st.savedChats hc
    refine ⟨_, rfl, ?_, JSON.wellFormedElems_of_canonical _ hcan⟩
    show JSON.parse stored = .ok (.arr (JSValue.carriedElems (JSValue.carriedElems st.savedChats)))
    rw [JSON.carriedElems_of_canonical _ hcan]
    exact hp

theorem panelInv_step (a : ArchiveState) (ev : ArchiveEvent) (h : PanelInv a)
    (hf : ev.clockFinite = true) : ∃ a1, ev.run a = some a1 ∧ PanelInv a1 := by
  cases ev with
  | saveChat now =>
    refine ⟨_, rfl, archiveInv_saveChat a.app now h.1 ?_, h.2⟩
    simpa [ArchiveEvent.clockFinite] using hf
  | setRenameValue value => exact ⟨_, rfl, h.1, fun v hv => by cases hv⟩
  | renameChat id => exact ⟨_, rfl, panelInv_renameChat a none id h⟩
  | renameButton k => exact ⟨_, rfl, panelInv_renameButton a k h⟩
  | saveButton i => exact ⟨_, rfl, panelInv_saveButton a i h⟩
  | clearAllSaved => exact ⟨_, rfl, ⟨rfl, trivial⟩, h.2⟩
  | importAll txt => exact ⟨_, rfl, archiveInv_importAll a.app txt h.1, h.2⟩
  | reload id0 =>
    obtain ⟨st1, hr, h1⟩ := archiveInv_reload a.app id0 h.1
    refine ⟨{ app := st1, held := none }, ?_, h1, fun v hv => by cases hv⟩
    simp only [ArchiveEvent.run, hr, Option.map_some']
  | other st1 => exact ⟨_, rfl, h.1, h.2⟩

theorem panelInv_run (evs : List ArchiveEvent) : ∀ a, PanelInv a →
    (∀ ev ∈ evs, ev.clockFinite = true) →
    ∃ a1, runArchive a evs = some a1 ∧ PanelInv a1 := by
  induction evs with
  | nil => exact fun a h _ => ⟨a, rfl, h⟩
  | cons ev t ih =>
    intro a h hf
    obtain ⟨a1, hrun, h1⟩ := panelInv_step a ev h (hf ev (List.mem_cons_self _ _))
    obtain ⟨a2, hrun2, h2⟩ := ih a1 h1 (fun e he => hf e (List.mem_cons_of_mem _ he))
    refine ⟨a2, ?_, h2⟩
    rw [runArchive, hrun]
    exact hrun2

theorem panelInv_initial (id0 : String) : PanelInv (initialArchive id0) :=
  ⟨archiveInv_initial id0, fun v hv => by cases hv⟩

theorem persistedMatches_iff (st : AppState) (h : persistedCarried st) :
    persistedMatches st ↔ JSValue.plainElems st.savedChats = true := by
  unfold persistedCarried at h
  unfold persistedMatches
  cases hs : st.storedChats with
  | none =>
    rw [hs] at h
    simp only at h
    simp only [h, JSValue.plainElems]
  | some stored =>
    rw [hs] at h
    simp only at h
    simp only [h, Except.ok.injEq, JSValue.arr.injEq]
    exact JSON.carriedElems_eq_iff st.savedChats

/-- C14 (amended): from the first load of the page (nothing stored), after
any sequence of `saveChat` (the clock a finite number), the Rename button,
typing a rename value, the Save button or any other call of `renameChat`,
`clearAllSaved`, `importAll` of any text (accepted or refused), later loads
of the page and the other handlers, a state is reached (no load fails) and in
it the stored `"savedChats"` text decodes to the saved chats in memory as
`JSON.stringify` carries them over (`null` for an infinity, `0` for `-0`, no
property whose value is `undefined`), no stored text standing for no saved
chat; it decodes to exactly the saved chats in memory if and only if they
hold no infinity, no `-0` and no `undefined`; and `clearAllSaved` in that
state leaves no saved chat and no stored text. -/
theorem archive_persisted (id0 : String) (evs : List ArchiveEvent)
    (hclock : ∀ ev ∈ evs, ev.clockFinite = true) :
    ∃ a, runArchive (initialArchive id0) evs = some a ∧ persistedCarried a.app ∧
      (persistedMatches a.app ↔ JSValue.plainElems a.app.savedChats = true) ∧
      (clearAllSaved a.app).savedChats = [] ∧ (clearAllSaved a.app).storedChats = none ∧
      persistedMatches (clearAllSaved a.app) := by
  obtain ⟨a, hrun, h⟩ := panelInv_run evs (initialArchive id0) (panelInv_initial id0) hclock
  exact ⟨a, hrun, h.1.1, persistedMatches_iff a.app h.1.1, rfl, rfl, rfl⟩

set_option exponentiation.threshold 1000 in
set_option maxRecDepth 8000 in
/-- C14, counterexample: three runs from the initial state after which the
stored text does not decode to the saved chats in memory. Importing the text
`[1e999]` succeeds; `JSON.parse` reads the number as `Infinity`, which
`JSON.stringify` writes as `null`. Importing the text `[-0]` leaves `-0` in
memory and the text `[0]` stored. Importing a saved chat without a name and
pressing its Rename button and then its Save button (the rename value is
`chat.name`, which is `undefined`) leaves a chat with a property `name` whose
value is `undefined` in memory, which `JSON.stringify` leaves out. -/
theorem archive_not_persisted :
    (∃ a, runArchive (initialArchive "t1") [.importAll "[1e999]"] = some a ∧
      a.app.savedChats = [.inf false] ∧ a.app.storedChats = some "[null]" ∧
      JSON.parse "[null]" = .ok (.arr [.null]) ∧ ¬ persistedMatches a.app) ∧
    (∃ a, runArchive (initialArchive "t1") [.importAll "[-0]"] = some a ∧
      a.app.savedChats = [.negZero] ∧ a.app.storedChats = some "[0]" ∧
      JSON.parse "[0]" = .ok (.arr [.num 0]) ∧ ¬ persistedMatches a.app) ∧
    (∃ a, runArchive (initialArchive "t1")
        [.importAll "[\x7b\"id\": 1\x7d]", .renameButton 0, .saveButton 0] = some a ∧
      a.app.savedChats = [.obj [("id", .num 1), ("name", .undefined)]] ∧
      a.app.storedChats = some "[\x7b\"id\":1\x7d]" ∧
      JSON.parse "[\x7b\"id\":1\x7d]" = .ok (.arr [.obj [("id", .num 1)]]) ∧
      ¬ persistedMatches a.app) := by
  have p1 : JSON.parse "[null]" = .ok (.arr [.null]) := by rfl
  have p2 : JSON.parse "[0]" = .ok (.arr [.num 0]) := by rfl
  have p3 : JSON.parse "[\x7b\"id\":1\x7d]" = .ok (.arr [.obj [("id", .num 1)]]) := by rfl
  have r1 : runArchive (initialArchive "t1") [.importAll "[1e999]"] =
      some ⟨{ initialState "t1" with
        savedChats := [.inf false], storedChats := some "[null]" }, none⟩ := by rfl
  have r2 : runArchive (initialArchive "t1") [.importAll "[-0]"] =
      some ⟨{ initialState "t1" with
        savedChats := [.negZero], storedChats := some "[0]" }, none⟩ := by rfl
  have r3 : runArchive (initialArchive "t1")
      [.importAll "[\x7b\"id\": 1\x7d]", .renameButton 0, .saveButton 0] =
      some ⟨{ initialState "t1" with
        savedChats := [.obj [("id", .num 1), ("name", .undefined)]],
        storedChats := some "[\x7b\"id\":1\x7d]" }, none⟩ := by rfl
  refine ⟨⟨_, r1, rfl, rfl, p1, ?_⟩, ⟨_, r2, rfl, rfl, p2, ?_⟩, ⟨_, r3, rfl, rfl, p3, ?_⟩⟩
  · unfold persistedMatches
    simp only [p1]
    intro h
    cases h
  · unfold persistedMatches
    simp only [p2]
    intro h
    cases h
  · unfold persistedMatches
    simp only [p3]
    intro h
    cases h

set_option maxRecDepth 8000 in
/-- C14 on a run: a backup with an object and a decimal is imported, a chat
is saved, the imported object is renamed (Rename button, the new name typed,
Save button) and the page is loaded again; the stored text at the end is the
text of the saved chats. -/
theorem archive_persisted_witness :
    (∀ ev ∈ [ArchiveEvent.importAll "[\x7b\"id\": 2, \"name\": \"a\"\x7d, 1.5]",
          .other { initialState "t1" with
            sessions := [⟨"t1", "Chat 1", [⟨"u1", "user", "Hello"⟩]⟩] },
          .saveChat 1700000000000,
          .renameButton 0,
          .setRenameValue "Plan",
          .saveButton 0,
          .reload "t2"], ev.clockFinite = true) ∧
      (∃ a, runArchive (initialArchive "t1")
          [ArchiveEvent.importAll "[\x7b\"id\": 2, \"name\": \"a\"\x7d, 1.5]",
          .other { initialState "t1" with
            sessions := [⟨"t1", "Chat 1", [⟨"u1", "user", "Hello"⟩]⟩] },
          .saveChat 1700000000000,
          .renameButton 0,
          .setRenameValue "Plan",
          .saveButton 0,
          .reload "t2"] = some a ∧ persistedCarried a.app ∧
        (persistedMatches a.app ↔ JSValue.plainElems a.app.savedChats = true) ∧
        (clearAllSaved a.app).savedChats = [] ∧ (clearAllSaved a.app).storedChats = none ∧
        persistedMatches (clearAllSaved a.app)) ∧
      (runArchive (initialArchive "t1")
          [ArchiveEvent.importAll "[\x7b\"id\": 2, \"name\": \"a\"\x7d, 1.5]",
          .other { initialState "t1" with
            sessions := [⟨"t1", "Chat 1", [⟨"u1", "user", "Hello"⟩]⟩] },
          .saveChat 1700000000000,
          .renameButton 0,
          .setRenameValue "Plan",
          .saveButton 0,
          .reload "t2"]).map (fun a => (a.app.savedChats, a.app.storedChats)) =
        some ([.obj [("id", .num 2), ("name", .str "Plan")], .dec 15 (-1),
            ArchiveEntry.toJS ⟨1700000000000, "Chat 1", [⟨"u1", "user", "Hello"⟩]⟩],
          some ("[\x7b\"id\":2,\"name\":\"Plan\"\x7d,1.5," ++
            "\x7b\"id\":1700000000000,\"name\":\"Chat 1\",\"messages\":" ++
            "[\x7b\"id\":\"u1\",\"role\":\"user\",\"text\":\"Hello\"\x7d]\x7d]")) :=
  ⟨by decide, archive_persisted "t1" _ (by decide), by rfl⟩

end AIMentor
